/-
Verification of the ai-anonymizing-proxy request-mediation pipeline.

This file gives a shallow embedding, in Lean 4, of the parts of the Go
source that the specification claims C1..C10 are about:

  * internal/anonymizer/anonymizer.go  — regex patterns, AnonymizeText,
    tokenForMatch, replacement (MD5-based tokens), session map,
    DeanonymizeText, AnonymizeJSON / walkValue / injectPIIInstruction,
    StreamingDeanonymize.
  * the current proxy.go revision (the file whose helpers flushingCopy /
    slowReader are exercised by internal/proxy/proxy_test.go; it is stored
    in the repository snapshot as src/unnamed/part_005) — privateNetworks,
    isPrivateIP / isPrivateHost, ssrfSafeDialContext, handleOpaqueTunnel,
    handleHTTP / forward, the MITM per-request handler, anonymizeRequestBody.
  * internal/anonymizer/s3fifo_cache.go (appended in the repository
    snapshot to s3fifo_cache_test.go) — the S3-FIFO eviction layer.
  * internal/anonymizer/cache.go — the bbolt-backed persistent cache.

Go strings are modelled as `List Char` (the inputs of interest are ASCII,
and `Char` codepoints coincide with bytes there; MD5 hashes the UTF-8
bytes, which the embedding computes explicitly).  Go's `regexp` package is
modelled by a small regular-expression AST together with a backtracking
matcher that enumerates candidate matches in Go's leftmost-first
(Perl-style) preference order; `ReplaceAllStringFunc` is modelled by a
scanner that walks the subject left to right and takes the first match at
each position.  Go maps that the code iterates over are modelled as
association lists in insertion order.  Floating-point confidence
scores are modelled as naturals scaled by 100 (only order comparisons
against the threshold occur in the source).
-/
import Mathlib

set_option maxRecDepth 10000

namespace AnonProxy

/-! ### Character helpers -/

/-- Word character for Go's `\b` (ASCII `[0-9A-Za-z_]`). -/
def isWordChar (c : Char) : Bool :=
  (('0' ≤ c && c ≤ '9') || ('A' ≤ c && c ≤ 'Z') || ('a' ≤ c && c ≤ 'z') || c = '_')

/-- ASCII decimal digit. -/
def isDigitChar (c : Char) : Bool := '0' ≤ c && c ≤ '9'

/-- Lowercase hexadecimal digit, as produced by Go's `%x` formatting. -/
def isHexLower (c : Char) : Bool := ('0' ≤ c && c ≤ '9') || ('a' ≤ c && c ≤ 'f')

/-- Go `strings.ToUpper` restricted to ASCII (all PII kind names are ASCII). -/
def toUpperChar (c : Char) : Char :=
  if 'a' ≤ c && c ≤ 'z' then Char.ofNat (c.toNat - 32) else c

def toUpperStr (s : List Char) : List Char := s.map toUpperChar

/-! ### MD5 (crypto/md5), used by `replacement` for deterministic tokens -/

/-- 32-bit truncating addition. -/
def add32 (a b : Nat) : Nat := (a + b) % 4294967296

/-- Bitwise complement of a 32-bit value. -/
def not32 (x : Nat) : Nat := 4294967295 - x % 4294967296

/-- Left-rotation of a 32-bit value (`x` must be `< 2^32`). -/
def rotl32 (x s : Nat) : Nat := (x * 2 ^ s) % 4294967296 + x % 4294967296 / 2 ^ (32 - s)

/-- The 64 MD5 sine-derived constants `T[i] = ⌊2³² · |sin(i+1)|⌋`. -/
def md5K : List Nat :=
  [3614090360, 3905402710, 606105819, 3250441966, 4118548399, 1200080426,
   2821735955, 4249261313, 1770035416, 2336552879, 4294925233, 2304563134,
   1804603682, 4254626195, 2792965006, 1236535329, 4129170786, 3225465664,
   643717713, 3921069994, 3593408605, 38016083, 3634488961, 3889429448,
   568446438, 3275163606, 4107603335, 1163531501, 2850285829, 4243563512,
   1735328473, 2368359562, 4294588738, 2272392833, 1839030562, 4259657740,
   2763975236, 1272893353, 4139469664, 3200236656, 681279174, 3936430074,
   3572445317, 76029189, 3654602809, 3873151461, 530742520, 3299628645,
   4096336452, 1126891415, 2878612391, 4237533241, 1700485571, 2399980690,
   4293915773, 2240044497, 1873313359, 4264355552, 2734768916, 1309151649,
   4149444226, 3174756917, 718787259, 3951481745]

/-- Per-round left-rotation amounts. -/
def md5S : List Nat := [7, 12, 17, 22, 5, 9, 14, 20, 4, 11, 16, 23, 6, 10, 15, 21]

/-- One MD5 round: `i` is the round index (0..63), `m` the sixteen message
words of the current block, and the state is `(a, b, c, d)`. -/
def md5Round (m : List Nat) (st : Nat × Nat × Nat × Nat) (i : Nat) :
    Nat × Nat × Nat × Nat :=
  let a := st.1; let b := st.2.1; let c := st.2.2.1; let d := st.2.2.2
  let fg : Nat × Nat :=
    if i < 16 then (Nat.lor (Nat.land b c) (Nat.land (not32 b) d), i)
    else if i < 32 then (Nat.lor (Nat.land d b) (Nat.land (not32 d) c), (5 * i + 1) % 16)
    else if i < 48 then (Nat.xor b (Nat.xor c d), (3 * i + 5) % 16)
    else (Nat.xor c (Nat.lor b (not32 d)), (7 * i) % 16)
  let f := add32 (add32 fg.1 a) (add32 (md5K.getD i 0) (m.getD fg.2 0))
  let s := md5S.getD ((i / 16) * 4 + i % 4) 0
  (d, add32 b (rotl32 f s), b, c)

/-- Split a list into chunks of `n` elements (`n > 0` at all call sites).
The first argument is recursion fuel; `chunksOfN` supplies the list length. -/
def chunksGo (n : Nat) : Nat → List Nat → List (List Nat)
  | 0, _ => []
  | _, [] => []
  | fuel + 1, x :: xs => ((x :: xs).take n) :: chunksGo n fuel ((x :: xs).drop n)

/-- Split a list into chunks of `n` elements. -/
def chunksOfN (n : Nat) (l : List Nat) : List (List Nat) := chunksGo n l.length l

/-- Decode four little-endian bytes into one 32-bit word. -/
def leWord (bs : List Nat) : Nat :=
  bs.getD 0 0 + bs.getD 1 0 * 256 + bs.getD 2 0 * 65536 + bs.getD 3 0 * 16777216

/-- Encode a 32-bit word into four little-endian bytes. -/
def wordLE (w : Nat) : List Nat := [w % 256, w / 256 % 256, w / 65536 % 256, w / 16777216 % 256]

/-- Process one padded 64-byte block. -/
def md5Block (st : Nat × Nat × Nat × Nat) (block : List Nat) : Nat × Nat × Nat × Nat :=
  let m := (chunksOfN 4 block).map leWord
  let r := (List.range 64).foldl (md5Round m) st
  (add32 st.1 r.1, add32 st.2.1 r.2.1, add32 st.2.2.1 r.2.2.1, add32 st.2.2.2 r.2.2.2)

/-- MD5 padding: append `0x80`, zero-fill to 56 mod 64, then the original
length in bits as eight little-endian bytes. -/
def md5Pad (msg : List Nat) : List Nat :=
  let bitLen := msg.length * 8
  let padLen := (119 - msg.length % 64) % 64
  msg ++ [128] ++ List.replicate padLen 0 ++
    [bitLen % 256, bitLen / 256 % 256, bitLen / 65536 % 256, bitLen / 16777216 % 256,
     bitLen / 4294967296 % 256, bitLen / 1099511627776 % 256,
     bitLen / 281474976710656 % 256, bitLen / 72057594037927936 % 256]

/-- MD5 digest of a byte sequence, as sixteen bytes. -/
def md5Sum (msg : List Nat) : List Nat :=
  let st := (chunksOfN 64 (md5Pad msg)).foldl md5Block
    (1732584193, 4023233417, 2562383102, 271733878)
  wordLE st.1 ++ wordLE st.2.1 ++ wordLE st.2.2.1 ++ wordLE st.2.2.2

/-- Lowercase hex digit for a nibble. -/
def hexChar (d : Nat) : Char := if d < 10 then Char.ofNat (48 + d) else Char.ofNat (87 + d % 16)

/-- Hex string of a byte sequence (Go `fmt.Sprintf("%x", …)`, lowercase). -/
def bytesToHex (bs : List Nat) : List Char :=
  bs.flatMap fun b => [hexChar (b % 256 / 16), hexChar (b % 16)]

/-- UTF-8 encoding of one character. -/
def utf8Encode (c : Char) : List Nat :=
  let n := c.toNat
  if n < 128 then [n]
  else if n < 2048 then [192 + n / 64, 128 + n % 64]
  else if n < 65536 then [224 + n / 4096, 128 + n / 64 % 64, 128 + n % 64]
  else [240 + n / 262144, 128 + n / 4096 % 64, 128 + n / 64 % 64, 128 + n % 64]

/-- UTF-8 bytes of a string. -/
def strBytes (s : List Char) : List Nat := s.flatMap utf8Encode

/-- First eight hex characters of the MD5 of a string — the token digest
computed by `replacement`: `fmt.Sprintf("%x", md5.Sum([]byte(original)))[:8]`. -/
def md5hex8 (s : List Char) : List Char := (bytesToHex (md5Sum (strBytes s))).take 8

/-! ### Regular expressions (Go `regexp`, leftmost-first semantics)

The ten patterns compiled by `compilePatterns` use only: character classes,
concatenation, alternation, greedy `?` / `*` / counted repetition, and the
word-boundary assertion `\b`.  The AST below covers exactly these.  Counted
repetitions are expanded structurally (`x{n}`, `x{n,}`, `x{lo,hi}`), and the
`(?i)` flag is compiled away into case-insensitive character classes, as a
regex compiler would. -/

/-- A character class: a union of inclusive character ranges.  All classes
appearing in the source patterns are positive ASCII classes. -/
abbrev CClass := List (Char × Char)

def inClass (cc : CClass) (c : Char) : Bool := cc.any fun r => r.1 ≤ c && c ≤ r.2

inductive RE where
  | eps
  | cls (cc : CClass)
  | seq (a b : RE)
  | alt (a b : RE)
  | opt (a : RE)
  | star (a : RE)
  | wordB
deriving DecidableEq

/-- Word-character status of the character preceding the position reached
after consuming `c`; `w` is the status before `c` was consumed. -/
def lastWordFlag (w : Bool) (c : List Char) : Bool :=
  match c.getLast? with
  | some ch => isWordChar ch
  | none => w

/-- Whether the next character (head of the remaining input) is a word
character; end of input counts as non-word, as in Go's `\b`. -/
def nextIsWord (s : List Char) : Bool :=
  match s with
  | c :: _ => isWordChar c
  | [] => false

/-- All candidate matches of `re` as a prefix of `s`, as
`(consumed, rest)` pairs, enumerated in Go's leftmost-first backtracking
preference order (alternatives left first, `?`/`*` greedy first).  `w` is
the word-character status of the character before the current position
(false at the start of the text).  The `Nat` argument is recursion fuel,
decremented on every recursive call so that the function is structurally
recursive and evaluates by kernel reduction; callers pass enough fuel
(`matchFuel`) for the enumeration to be complete.  A `*` iteration that
consumes nothing is not repeated, matching Go's treatment of empty loop
bodies; no source pattern can match the empty string. -/
def reMatches : Nat → RE → Bool → List Char → List (List Char × List Char)
  | 0, _, _, _ => []
  | fuel + 1, re, w, s =>
    match re with
    | .eps => [([], s)]
    | .cls cc =>
      match s with
      | [] => []
      | c :: r => if inClass cc c then [([c], r)] else []
    | .seq a b =>
      (reMatches fuel a w s).flatMap fun p =>
        (reMatches fuel b (lastWordFlag w p.1) p.2).map fun q => (p.1 ++ q.1, q.2)
    | .alt a b => reMatches fuel a w s ++ reMatches fuel b w s
    | .opt a => reMatches fuel a w s ++ [([], s)]
    | .star a =>
      ((reMatches fuel a w s).filter fun p => !p.1.isEmpty).flatMap
        (fun p => (reMatches fuel (.star a) (lastWordFlag w p.1) p.2).map
          fun q => (p.1 ++ q.1, q.2)) ++ [([], s)]
    | .wordB => if w != nextIsWord s then [([], s)] else []

/-- Structural size of a regex, used to compute sufficient fuel. -/
def reSize : RE → Nat
  | .eps => 1
  | .cls _ => 1
  | .seq a b => reSize a + reSize b + 1
  | .alt a b => reSize a + reSize b + 1
  | .opt a => reSize a + 1
  | .star a => reSize a + 1
  | .wordB => 1

/-- Fuel sufficient for a complete enumeration of matches of `re` against
any suffix of a string of length `n`. -/
def matchFuel (re : RE) (n : Nat) : Nat := (reSize re + 1) * (n + 2)

/-- The match Go's engine reports at the current position: the first
candidate in preference order. -/
def matchHead (mf : Nat) (re : RE) (w : Bool) (s : List Char) :
    Option (List Char × List Char) :=
  (reMatches mf re w s).head?

/-- One element of a scanned subject: an unmatched literal character or a
matched substring. -/
inductive Chunk where
  | lit (c : Char)
  | mtch (m : List Char)

/-- Scan a subject left to right, reporting the leftmost-first
non-overlapping matches of `re`, as `regexp.ReplaceAllStringFunc` visits
them.  The `Nat` argument is step fuel (one unit per position); callers
pass the subject length.  An empty match is treated as no match (the
source patterns cannot match the empty string). -/
def scanGo (mf : Nat) (re : RE) : Nat → Bool → List Char → List Chunk
  | 0, _, s => s.map .lit
  | _ + 1, _, [] => []
  | fuel + 1, w, c :: rest =>
    match matchHead mf re w (c :: rest) with
    | some (m, r) =>
      if m.isEmpty then .lit c :: scanGo mf re fuel (isWordChar c) rest
      else .mtch m :: scanGo mf re fuel (lastWordFlag w m) r
    | none => .lit c :: scanGo mf re fuel (isWordChar c) rest

/-- Scan a whole subject from the start of text. -/
def scanStr (re : RE) (s : List Char) : List Chunk :=
  scanGo (matchFuel re s.length) re s.length false s

/-- `regexp.ReplaceAllStringFunc`: replace every match by `f` applied to it. -/
def replaceAllStringFunc (re : RE) (f : List Char → List Char) (s : List Char) : List Char :=
  (scanStr re s).flatMap fun ch =>
    match ch with
    | .lit c => [c]
    | .mtch m => f m

/-- The list of matches of `re` in `s`, in order of occurrence. -/
def matchList (re : RE) (s : List Char) : List (List Char) :=
  (scanStr re s).filterMap fun ch =>
    match ch with
    | .lit _ => none
    | .mtch m => some m

/-! ### Static regex analyses (used by the proofs) -/

/-- Every character of every range of the class satisfies `tst`. -/
def ccAll (cc : CClass) (tst : Char → Bool) : Bool :=
  cc.all fun r =>
    (List.range (r.2.toNat + 1 - r.1.toNat)).all fun i => tst (Char.ofNat (r.1.toNat + i))

/-- Syntactic nullability. -/
def canEmpty : RE → Bool
  | .eps => true
  | .cls _ => false
  | .seq a b => canEmpty a && canEmpty b
  | .alt a b => canEmpty a || canEmpty b
  | .opt _ => true
  | .star _ => true
  | .wordB => true

/-- A lower bound on the number of characters satisfying `tst` consumed by
any match of the regex. -/
def minCount (tst : Char → Bool) : RE → Nat
  | .eps => 0
  | .cls cc => if ccAll cc tst then 1 else 0
  | .seq a b => minCount tst a + minCount tst b
  | .alt a b => min (minCount tst a) (minCount tst b)
  | .opt _ => 0
  | .star _ => 0
  | .wordB => 0

/-- Every nonempty match of the regex begins with a character satisfying `tst`. -/
def mustStartIn (tst : Char → Bool) : RE → Bool
  | .eps => true
  | .cls cc => ccAll cc tst
  | .seq a b =>
    if canEmpty a then mustStartIn tst a && mustStartIn tst b else mustStartIn tst a
  | .alt a b => mustStartIn tst a && mustStartIn tst b
  | .opt a => mustStartIn tst a
  | .star a => mustStartIn tst a
  | .wordB => true

/-- Every character class of the regex satisfies `ccAll · tst`: every
character any match can consume satisfies `tst`. -/
def alphaOKb (tst : Char → Bool) : RE → Bool
  | .eps => true
  | .cls cc => ccAll cc tst
  | .seq a b => alphaOKb tst a && alphaOKb tst b
  | .alt a b => alphaOKb tst a && alphaOKb tst b
  | .opt a => alphaOKb tst a
  | .star a => alphaOKb tst a
  | .wordB => true

/-- No character class of the regex accepts `c` (so no match can begin at,
or extend past, an occurrence of `c`). -/
def blocksChar : RE → Char → Bool
  | .eps, _ => true
  | .cls cc, c => !inClass cc c
  | .seq a b, c => blocksChar a c && blocksChar b c
  | .alt a b, c => blocksChar a c && blocksChar b c
  | .opt a, c => blocksChar a c
  | .star a, c => blocksChar a c
  | .wordB, _ => true

/-! ### The compiled patterns of `compilePatterns` -/

/-- A character class literal. -/
def chrRE (c : Char) : RE := .cls [(c, c)]

/-- An exact string literal. -/
def strRE : List Char → RE
  | [] => .eps
  | c :: cs => .seq (chrRE c) (strRE cs)

/-- Case-insensitive class for one character (the `(?i)` flag compiled away). -/
def ciClass (c : Char) : CClass :=
  if 'a' ≤ c && c ≤ 'z' then [(c, c), (Char.ofNat (c.toNat - 32), Char.ofNat (c.toNat - 32))]
  else if 'A' ≤ c && c ≤ 'Z' then [(c, c), (Char.ofNat (c.toNat + 32), Char.ofNat (c.toNat + 32))]
  else [(c, c)]

/-- Case-insensitive string literal. -/
def istrRE : List Char → RE
  | [] => .eps
  | c :: cs => .seq (.cls (ciClass c)) (istrRE cs)

/-- `x{n}`. -/
def repRE : Nat → RE → RE
  | 0, _ => .eps
  | n + 1, r => .seq r (repRE n r)

/-- `x{0,n}`, greedy. -/
def upToRE : Nat → RE → RE
  | 0, _ => .eps
  | n + 1, r => .opt (.seq r (upToRE n r))

/-- `x{lo,hi}`, greedy. -/
def rangeRE (lo hi : Nat) (r : RE) : RE := .seq (repRE lo r) (upToRE (hi - lo) r)

/-- `x{n,}`, greedy. -/
def atLeastRE (n : Nat) (r : RE) : RE := .seq (repRE n r) (.star r)

/-- `x+`, greedy. -/
def plusRE (r : RE) : RE := .seq r (.star r)

/-- Go's Perl class `\s` = `[\t\n\f\r ]`. -/
def wsCls : CClass := [('\t', '\n'), ('\x0c', '\x0d'), (' ', ' ')]

def digitCls : CClass := [('0', '9')]

def alphaCls : CClass := [('A', 'Z'), ('a', 'z')]

/-- `[A-Za-z0-9._%+\-]` (email local part). -/
def emailLocalCls : CClass :=
  [('A', 'Z'), ('a', 'z'), ('0', '9'), ('.', '.'), ('_', '_'), ('%', '%'), ('+', '+'), ('-', '-')]

/-- `[A-Za-z0-9.\-]` (email domain part). -/
def emailDomainCls : CClass := [('A', 'Z'), ('a', 'z'), ('0', '9'), ('.', '.'), ('-', '-')]

/-- `[\s"':=]` (API-key separator). -/
def apikeySepCls : CClass := wsCls ++ [('"', '"'), ('\'', '\''), (':', ':'), ('=', '=')]

/-- `[a-zA-Z0-9_\-.]` (API-key value). -/
def apikeyValCls : CClass :=
  [('a', 'z'), ('A', 'Z'), ('0', '9'), ('_', '_'), ('-', '-'), ('.', '.')]

/-- `[A-Za-z\s]` (street-address words). -/
def addrWordCls : CClass := [('A', 'Z'), ('a', 'z')] ++ wsCls

/-- `[0-9a-fA-F]` (IPv6 hex digits). -/
def hexCls : CClass := [('0', '9'), ('a', 'f'), ('A', 'F')]

/-- `[\-\s]` (credit-card group separator). -/
def dashSpaceCls : CClass := [('-', '-')] ++ wsCls

/-- `[\-.\s]` (phone separator). -/
def phoneSepCls : CClass := [('-', '-'), ('.', '.')] ++ wsCls

/-- `\b[A-Za-z0-9._%+\-]+@[A-Za-z0-9.\-]+\.[A-Za-z]{2,}\b` -/
def emailRE : RE :=
  .seq .wordB (.seq (plusRE (.cls emailLocalCls)) (.seq (chrRE '@')
    (.seq (plusRE (.cls emailDomainCls)) (.seq (chrRE '.')
      (.seq (atLeastRE 2 (.cls alphaCls)) .wordB)))))

/-- `(?i)(?:api[_\-]?key|token|secret|bearer)` -/
def apikeyKwRE : RE :=
  .alt (.seq (istrRE "api".data) (.seq (.opt (.cls [('_', '_'), ('-', '-')])) (istrRE "key".data)))
    (.alt (istrRE "token".data) (.alt (istrRE "secret".data) (istrRE "bearer".data)))

/-- `(?i)(?:api[_\-]?key|token|secret|bearer)[\s"':=]+([a-zA-Z0-9_\-.]{20,})` -/
def apikeyRE : RE :=
  .seq apikeyKwRE (.seq (plusRE (.cls apikeySepCls)) (atLeastRE 20 (.cls apikeyValCls)))

/-- `\b(?:\d{3}-?\d{2}-?\d{4}|\d{9})\b` -/
def ssnRE : RE :=
  .seq .wordB (.seq
    (.alt (.seq (repRE 3 (.cls digitCls)) (.seq (.opt (chrRE '-'))
            (.seq (repRE 2 (.cls digitCls)) (.seq (.opt (chrRE '-')) (repRE 4 (.cls digitCls))))))
      (repRE 9 (.cls digitCls)))
    .wordB)

/-- `\b(?:\d{4}[\-\s]?){3}\d{4}\b` -/
def creditCardRE : RE :=
  .seq .wordB (.seq (repRE 3 (.seq (repRE 4 (.cls digitCls)) (.opt (.cls dashSpaceCls))))
    (.seq (repRE 4 (.cls digitCls)) .wordB))

/-- `(?i)\d+\s+[A-Za-z\s]+(?:Street|St|Avenue|Ave|Road|Rd|Boulevard|Blvd|Lane|Ln|Drive|Dr|Court|Ct)\b` -/
def addressRE : RE :=
  .seq (plusRE (.cls digitCls)) (.seq (plusRE (.cls wsCls)) (.seq (plusRE (.cls addrWordCls))
    (.seq (.alt (istrRE "Street".data) (.alt (istrRE "St".data) (.alt (istrRE "Avenue".data)
      (.alt (istrRE "Ave".data) (.alt (istrRE "Road".data) (.alt (istrRE "Rd".data)
      (.alt (istrRE "Boulevard".data) (.alt (istrRE "Blvd".data) (.alt (istrRE "Lane".data)
      (.alt (istrRE "Ln".data) (.alt (istrRE "Drive".data) (.alt (istrRE "Dr".data)
      (.alt (istrRE "Court".data) (istrRE "Ct".data))))))))))))))
      .wordB)))

/-- `[0-9a-fA-F]{1,4}` -/
def h14RE : RE := rangeRE 1 4 (.cls hexCls)

/-- The IPv6 pattern: the ten alternatives in source order (longest first). -/
def ipv6RE : RE :=
  .alt (.seq (repRE 7 (.seq h14RE (chrRE ':'))) h14RE)
  (.alt (.seq (rangeRE 1 7 (.seq h14RE (chrRE ':'))) (chrRE ':'))
  (.alt (.seq (rangeRE 1 6 (.seq h14RE (chrRE ':'))) (.seq (chrRE ':') h14RE))
  (.alt (.seq (rangeRE 1 5 (.seq h14RE (chrRE ':'))) (rangeRE 1 2 (.seq (chrRE ':') h14RE)))
  (.alt (.seq (rangeRE 1 4 (.seq h14RE (chrRE ':'))) (rangeRE 1 3 (.seq (chrRE ':') h14RE)))
  (.alt (.seq (rangeRE 1 3 (.seq h14RE (chrRE ':'))) (rangeRE 1 4 (.seq (chrRE ':') h14RE)))
  (.alt (.seq (rangeRE 1 2 (.seq h14RE (chrRE ':'))) (rangeRE 1 5 (.seq (chrRE ':') h14RE)))
  (.alt (.seq h14RE (.seq (chrRE ':') (rangeRE 1 6 (.seq (chrRE ':') h14RE))))
  (.alt (.seq (chrRE ':') (rangeRE 1 7 (.seq (chrRE ':') h14RE)))
        (strRE "::".data)))))))))

/-- `\b(?:[0-9]{1,3}\.){3}[0-9]{1,3}\b` -/
def ipv4RE : RE :=
  .seq .wordB (.seq (repRE 3 (.seq (rangeRE 1 3 (.cls digitCls)) (chrRE '.')))
    (.seq (rangeRE 1 3 (.cls digitCls)) .wordB))

/-- `(\+?1?[\-.\s]?)?\(?([0-9]{3})\)?[\-.\s]?([0-9]{3})[\-.\s]?([0-9]{4})` -/
def phoneRE : RE :=
  .seq (.opt (.seq (.opt (chrRE '+')) (.seq (.opt (chrRE '1')) (.opt (.cls phoneSepCls)))))
    (.seq (.opt (chrRE '(')) (.seq (repRE 3 (.cls digitCls)) (.seq (.opt (chrRE ')'))
      (.seq (.opt (.cls phoneSepCls)) (.seq (repRE 3 (.cls digitCls))
        (.seq (.opt (.cls phoneSepCls)) (repRE 4 (.cls digitCls))))))))

/-- `\b\d{5}(?:-\d{4})?\b` -/
def zipRE : RE :=
  .seq .wordB (.seq (repRE 5 (.cls digitCls))
    (.seq (.opt (.seq (chrRE '-') (repRE 4 (.cls digitCls)))) .wordB))

/-- A compiled pattern: regex, PII type, confidence (`pattern` in the source). -/
structure Pattern where
  re : RE
  piiType : List Char
  confidence : Nat
deriving DecidableEq

/-- The pattern list built by `compilePatterns`, in declaration order.
Confidence scores are in hundredths (the source's float64 0.95 is 95):
only order comparisons against the threshold occur. -/
def compiledPatterns : List Pattern :=
  [⟨emailRE, "email".data, 95⟩,
   ⟨apikeyRE, "apiKey".data, 90⟩,
   ⟨ssnRE, "ssn".data, 85⟩,
   ⟨creditCardRE, "creditCard".data, 85⟩,
   ⟨addressRE, "address".data, 75⟩,
   ⟨ipv6RE, "ipAddress".data, 85⟩,
   ⟨ipv4RE, "ipAddress".data, 70⟩,
   ⟨phoneRE, "phone".data, 65⟩,
   ⟨zipRE, "address".data, 40⟩]

/-! ### The anonymizer (anonymizer.go)

The Ollama value cache is read-only during a single `AnonymizeText` call
(`dispatchOllamaAsync` only warms it for *future* requests from a
background goroutine), so it is passed as an immutable association list
keyed by the original value.  The session map `sessions : sessionID →
token → original` is an association list of association lists in insertion
order; Go iterates the inner map in unspecified order when
de-anonymizing, and the embedding fixes insertion order. -/

/-- Anonymizer configuration: the `useAI` flag and `aiThreshold` of the
`Anonymizer` struct. -/
structure AnonCfg where
  useAI : Bool
  aiThreshold : Nat

/-- The persistent per-value cache: original value → cached token. -/
abbrev Cache := List (List Char × List Char)

def cacheGet (c : Cache) (k : List Char) : Option (List Char) :=
  (c.find? fun p => p.1 == k).map fun p => p.2

/-- Inner session map: token → original, in insertion order. -/
abbrev SessionInner := List (List Char × List Char)

/-- Outer session map: sessionID → inner map. -/
abbrev Sessions := List (List Char × SessionInner)

/-- Insert or overwrite a key in an inner session map (Go map assignment). -/
def innerUpsert (m : SessionInner) (tok orig : List Char) : SessionInner :=
  match m with
  | [] => [(tok, orig)]
  | p :: rest => if p.1 == tok then (tok, orig) :: rest else p :: innerUpsert rest tok orig

def sessionsLookup (ss : Sessions) (sid : List Char) : SessionInner :=
  ((ss.find? fun p => p.1 == sid).map fun p => p.2).getD []

def sessionsSet (ss : Sessions) (sid : List Char) (inner : SessionInner) : Sessions :=
  match ss with
  | [] => [(sid, inner)]
  | p :: rest => if p.1 == sid then (sid, inner) :: rest else p :: sessionsSet rest sid inner

/-- `recordMapping`: store token → original under `sessionID`; a no-op for
the empty session id. -/
def recordMapping (ss : Sessions) (sid tok orig : List Char) : Sessions :=
  if sid.isEmpty then ss
  else sessionsSet ss sid (innerUpsert (sessionsLookup ss sid) tok orig)

/-- `replacement`: the deterministic token
`[PII_<TYPE upper>_<first 8 hex of md5(original)>]`. -/
def replacement (piiType orig : List Char) : List Char :=
  "[PII_".data ++ toUpperStr piiType ++ "_".data ++ md5hex8 orig ++ "]".data

/-- `tokenForMatch`: high-confidence (or AI disabled) matches are tokenized
directly; low-confidence matches consult the cache and fall back to the
deterministic token on a miss (the async Ollama dispatch has no effect on
the returned value). -/
def tokenForMatch (cfg : AnonCfg) (cache : Cache) (p : Pattern) (m : List Char) : List Char :=
  if !cfg.useAI || cfg.aiThreshold ≤ p.confidence then replacement p.piiType m
  else
    match cacheGet cache m with
    | some cached => cached
    | none => replacement p.piiType m

/-- One `p.re.ReplaceAllStringFunc(result, …)` step of `AnonymizeText`:
replace every match by its token and record the mapping, left to right. -/
def applyPattern (cfg : AnonCfg) (cache : Cache) (sid : List Char) (acc : List Char × Sessions)
    (p : Pattern) : List Char × Sessions :=
  (scanStr p.re acc.1).foldl
    (fun st ch =>
      match ch with
      | .lit c => (st.1 ++ [c], st.2)
      | .mtch m =>
        let tok := tokenForMatch cfg cache p m
        (st.1 ++ tok, recordMapping st.2 sid tok m))
    ([], acc.2)

/-- `AnonymizeText`. -/
def anonymizeText (cfg : AnonCfg) (cache : Cache) (ss : Sessions) (text sid : List Char) :
    List Char × Sessions :=
  if text.isEmpty then (text, ss)
  else compiledPatterns.foldl (applyPattern cfg cache sid) (text, ss)

/-- `strings.ReplaceAll` (fuel = subject length; an empty pattern never
occurs here — every replaced token starts with a bracket). -/
def strReplaceGo (pat rep : List Char) : Nat → List Char → List Char
  | 0, s => s
  | _ + 1, [] => []
  | fuel + 1, c :: rest =>
    if !pat.isEmpty && pat.isPrefixOf (c :: rest) then
      rep ++ strReplaceGo pat rep fuel ((c :: rest).drop pat.length)
    else c :: strReplaceGo pat rep fuel rest

def strReplaceAll (s pat rep : List Char) : List Char := strReplaceGo pat rep s.length s

/-- `DeanonymizeText`: apply every recorded token → original substitution. -/
def deanonymizeText (ss : Sessions) (text sid : List Char) : List Char :=
  if sid.isEmpty || text.isEmpty then text
  else (sessionsLookup ss sid).foldl (fun acc p => strReplaceAll acc p.1 p.2) text

/-- `SessionTokenCount`. -/
def sessionTokenCount (ss : Sessions) (sid : List Char) : Nat :=
  if sid.isEmpty then 0 else (sessionsLookup ss sid).length

/-- `DeleteSession`. -/
def deleteSession (ss : Sessions) (sid : List Char) : Sessions :=
  if sid.isEmpty then ss else ss.filter fun p => !(p.1 == sid)

/-! ### proxy.go: private networks, SafeDial, dispatch

Embedded from the current proxy.go revision (src/unnamed/part_005 in the
snapshot; it is the revision whose helpers `flushingCopy` / `slowReader`
internal/proxy/proxy_test.go compiles against, and whose calls into the
anonymizer match the current anonymizer.go signatures).  IP addresses are
byte lists (4 bytes for IPv4, 16 for IPv6), as in Go's `net.IP`.  The
system resolver is a parameter; network success is identified with the
dial decision, since the claims concern the blocking logic. -/

/-- An IP address as in `net.IP`: 4 bytes (IPv4) or 16 bytes (IPv6). -/
abbrev IPBytes := List Nat

/-- CIDR mask bytes for a prefix of `bits` bits over `n` bytes. -/
def maskBytes (n bits : Nat) : List Nat :=
  (List.range n).map fun i =>
    if (i + 1) * 8 ≤ bits then 255
    else if bits ≤ i * 8 then 0
    else 256 - 2 ^ (8 - (bits - i * 8))

/-- The blocked CIDR ranges of `privateNetworks` (network bytes, prefix
bits), as parsed by the `init` function: `10.0.0.0/8`, `172.16.0.0/12`,
`192.168.0.0/16`, `127.0.0.0/8`, `169.254.0.0/16`, `::1/128`, `fc00::/7`,
`fe80::/10`. -/
def privateNetworks : List (IPBytes × Nat) :=
  [([10, 0, 0, 0], 8),
   ([172, 16, 0, 0], 12),
   ([192, 168, 0, 0], 16),
   ([127, 0, 0, 0], 8),
   ([169, 254, 0, 0], 16),
   ([0, 0, 0, 0, 0, 0, 0, 0, 0, 0, 0, 0, 0, 0, 0, 1], 128),
   ([252, 0, 0, 0, 0, 0, 0, 0, 0, 0, 0, 0, 0, 0, 0, 0], 7),
   ([254, 128, 0, 0, 0, 0, 0, 0, 0, 0, 0, 0, 0, 0, 0, 0], 10)]

/-- `net.IP.To4`: a 4-byte address, or the low 4 bytes of an IPv4-mapped
IPv6 address. -/
def ipTo4 (ip : IPBytes) : Option IPBytes :=
  if ip.length = 4 then some ip
  else if ip.length = 16 && ip.take 10 == [0, 0, 0, 0, 0, 0, 0, 0, 0, 0] &&
      ip.getD 10 0 = 255 && ip.getD 11 0 = 255 then
    some (ip.drop 12)
  else none

/-- `net.IPNet.Contains`. -/
def netContains (net : IPBytes × Nat) (ip : IPBytes) : Bool :=
  let ip' := (ipTo4 ip).getD ip
  let nn := net.1
  if ip'.length ≠ nn.length then false
  else
    let m := maskBytes nn.length net.2
    (List.range nn.length).all fun i =>
      Nat.land (nn.getD i 0) (m.getD i 0) = Nat.land (ip'.getD i 0) (m.getD i 0)

/-- `isPrivateIP`. -/
def isPrivateIP (ip : IPBytes) : Bool := privateNetworks.any fun n => netContains n ip

/-- Parse a dotted-quad IPv4 literal (each field 1–3 digits, ≤ 255, no
redundant leading zero), as `net.ParseIP` accepts. -/
def parseIPv4 (s : List Char) : Option IPBytes :=
  let fields := (s.splitOn '.')
  if fields.length ≠ 4 then none
  else if fields.all fun f =>
      !f.isEmpty && f.length ≤ 3 && f.all isDigitChar &&
      (f.length = 1 || f.headD '0' ≠ '0') &&
      (f.foldl (fun n c => n * 10 + (c.toNat - 48)) 0) ≤ 255 then
    some (fields.map fun f => f.foldl (fun n c => n * 10 + (c.toNat - 48)) 0)
  else none

/-- Value of a 1–4 digit hex group. -/
def hexGroupVal (g : List Char) : Nat :=
  g.foldl (fun n c =>
    n * 16 + (if c ≤ '9' then c.toNat - 48 else if c ≤ 'F' then c.toNat - 55 else c.toNat - 87)) 0

/-- Parse an IPv6 literal with at most one `::` compression (the
dotted-quad tail form is not needed by any claim and is not modelled). -/
def parseIPv6 (s : List Char) : Option IPBytes :=
  if !s.any (· = ':') then none
  else
    let parts := s.splitOn ':'
    let groupOK : List Char → Bool := fun g =>
      !g.isEmpty && g.length ≤ 4 && g.all fun c => inClass hexCls c
    -- `a::b` splits into parts with one empty part in the middle; `::x`
    -- and `x::` produce an empty part at an end, `::` produces three.
    let emptyCount := (parts.filter fun g => g.isEmpty).length
    let full := parts.filter fun g => !g.isEmpty
    if emptyCount = 0 then
      if parts.length = 8 && parts.all groupOK then
        some ((parts.map hexGroupVal).flatMap fun v => [v / 256, v % 256])
      else none
    else
      -- compressed form: locate the `::`, pad with zero groups
      let idx := parts.findIdx fun g => g.isEmpty
      let lhs := (parts.take idx).filter fun g => !g.isEmpty
      let rhs := (parts.drop idx).filter fun g => !g.isEmpty
      if full.length ≤ 7 && full.all groupOK && emptyCount ≤ 3 &&
          (emptyCount ≤ 2 || parts.all fun g => g.isEmpty) then
        let groups := (lhs.map hexGroupVal) ++
          List.replicate (8 - lhs.length - rhs.length) 0 ++ (rhs.map hexGroupVal)
        some (groups.flatMap fun v => [v / 256, v % 256])
      else none

/-- `net.ParseIP` (for the literals the proxy can meet). -/
def parseIP (s : List Char) : Option IPBytes :=
  match parseIPv4 s with
  | some ip => some ip
  | none => parseIPv6 s

/-- `net.SplitHostPort`: split `host:port`, handling bracketed IPv6
literals, failing when there is no colon or the bare host contains one. -/
def splitHostPort (s : List Char) : Option (List Char × List Char) :=
  match s with
  | '[' :: rest =>
    match rest.splitOn ']' with
    | [host, ':' :: port] => if port.any (· = ']') then none else some (host, port)
    | _ => none
  | _ =>
    if s.any (· = '[') || s.any (· = ']') then none
    else
      let i := s.length - 1 - (s.reverse.findIdx fun c => c = ':')
      if !s.any (· = ':') then none
      else
        let host := s.take i
        let port := s.drop (i + 1)
        if host.any (· = ':') then none else some (host, port)

/-- The DNS resolver (`net.DefaultResolver.LookupIPAddr`): `none` for a
resolution error, otherwise the list of resolved addresses. -/
abbrev Resolver := List Char → Option (List IPBytes)

/-- Result of a dial through `ssrfSafeDialContext`. -/
inductive DialResult where
  | conn (ip : IPBytes) (port : List Char)
  | connRaw (addr : List Char)
  | errPrivate
  | errLookup
  | errNoAddrs
deriving DecidableEq

/-- `ssrfSafeDialContext`: split the address; resolve the host; refuse if
any resolved address is private; otherwise dial the first resolved
address.  An address that does not split as `host:port` is dialed as
given (`d.DialContext(ctx, network, addr)`). -/
def ssrfSafeDial (resolve : Resolver) (addr : List Char) : DialResult :=
  match splitHostPort addr with
  | none => .connRaw addr
  | some (host, port) =>
    match resolve host with
    | none => .errLookup
    | some ips =>
      if ips.any isPrivateIP then .errPrivate
      else
        match ips with
        | [] => .errNoAddrs
        | ip :: _ => .conn ip port

/-- `isPrivateHost`: literal IP check only (no DNS). -/
def isPrivateHost (host : List Char) : Bool :=
  let hostname :=
    match splitHostPort host with
    | some hp => hp.1
    | none => host
  match parseIP hostname with
  | some ip => isPrivateIP ip
  | none => false

/-- `const maxRequestBody = 50 << 20`. -/
def maxRequestBody : Nat := 52428800

/-- Proxy server configuration relevant to dispatch. -/
structure ServerCfg where
  aiDomains : List (List Char)
  authDomains : List (List Char)
  authPaths : List (List Char)

/-- `isAuthRequest`. -/
def isAuthRequest (cfg : ServerCfg) (domain path : List Char) : Bool :=
  cfg.authDomains.contains domain ||
  ["auth.".data, "login.".data, "accounts.".data, "sso.".data, "oauth.".data].any
    (fun p => p.isPrefixOf domain) ||
  cfg.authPaths.any fun p => p.isPrefixOf path

/-- Strip the port for domain matching (`net.SplitHostPort` on success). -/
def stripPort (host : List Char) : List Char :=
  match splitHostPort host with
  | some hp => hp.1
  | none => host

/-- Client-visible outcome of one proxied request or CONNECT. -/
inductive ProxyOutcome where
  | respond (status : Nat) (msg : List Char)
  | tunnel (ip : IPBytes) (port : List Char)
  | tunnelRaw (addr : List Char)
  | forwarded (ip : IPBytes) (port : List Char)
  | forwardedRaw (addr : List Char)
deriving DecidableEq

/-- The transport's dial for a request URL host: the dial address is the
URL host, with the scheme's default port appended when the host carries
none; the dial itself goes through `ssrfSafeDialContext`
(`Transport.DialContext = safeDial`). -/
def transportDial (resolve : Resolver) (host defaultPort : List Char) : DialResult :=
  let addr :=
    match splitHostPort host with
    | some _ => host
    | none => host ++ ':' :: defaultPort
  ssrfSafeDial resolve addr

/-- `handleOpaqueTunnel`: refuse literal private addresses with 403, then
dial through `s.dialContext` (= SafeDial); a dial error is reported as
502 "bad gateway"; on success the CONNECT tunnel is established. -/
def handleOpaqueTunnel (resolve : Resolver) (host : List Char) : ProxyOutcome :=
  if isPrivateHost host then .respond 403 "forbidden".data
  else
    match ssrfSafeDial resolve host with
    | .conn ip port => .tunnel ip port
    | .connRaw a => .tunnelRaw a
    | _ => .respond 502 "bad gateway".data

/-- `forward`: refuse literal private URL hosts with 403, then round-trip
through the transport; a transport error (including a SafeDial refusal)
is reported as 502 "bad gateway". -/
def forwardOutcome (resolve : Resolver) (urlHost : List Char) : ProxyOutcome :=
  if isPrivateHost urlHost then .respond 403 "forbidden".data
  else
    match transportDial resolve urlHost "80".data with
    | .conn ip port => .forwarded ip port
    | .connRaw a => .forwardedRaw a
    | _ => .respond 502 "bad gateway".data

/-- The body-size gate of `anonymizeRequestBody`: a nil/empty body is
passed; a body longer than `maxRequestBody` is an error. -/
def bodyTooLarge (bodyLen : Nat) : Bool := bodyLen ≠ 0 && bodyLen > maxRequestBody

/-- `handleHTTP`: anonymize (with the body-size gate) only for AI-API
non-auth requests — an oversized body yields 413 — then forward. -/
def handleHTTP (cfg : ServerCfg) (resolve : Resolver) (host path : List Char)
    (bodyLen : Nat) : ProxyOutcome :=
  let domain := stripPort host
  let isAuth := isAuthRequest cfg domain path
  let isAI := cfg.aiDomains.contains domain
  if isAI && !isAuth && bodyTooLarge bodyLen then
    .respond 413 "payload too large".data
  else forwardOutcome resolve host

/-- The per-request handler of `handleMITMTunnel`: anonymize (with the
body-size gate) for non-auth requests — an oversized body yields 413 —
then round-trip to `https://host`; a transport error is 502. -/
def handleMITMRequest (cfg : ServerCfg) (resolve : Resolver) (host domain path : List Char)
    (bodyLen : Nat) : ProxyOutcome :=
  let isAuth := isAuthRequest cfg domain path
  if !isAuth && bodyTooLarge bodyLen then
    .respond 413 "payload too large".data
  else
    match transportDial resolve host "443".data with
    | .conn ip port => .forwarded ip port
    | .connRaw a => .forwardedRaw a
    | _ => .respond 502 "bad gateway".data

/-! ### S3-FIFO value cache (s3fifo_cache.go)

State and operations mirror `s3fifoCache`.  Queues are key lists with the
front at the head (`list.List` front = oldest; `PushBack` appends).  The
backing store is an association list; the asynchronous backing-store
deletes (`go c.backing.Delete(key)`) are modelled as immediate, which is
irrelevant to the in-memory capacity claim. -/

/-- `s3fifoEntry` (the queue back-pointer is represented by membership of
the key in the corresponding queue list). -/
structure S3Entry where
  value : List Char
  freq : Nat
  inM : Bool

/-- Backing `PersistentCache` contents. -/
abbrev BStore := List (List Char × List Char)

def bkGet (b : BStore) (k : List Char) : Option (List Char) :=
  (b.find? fun p => p.1 == k).map fun p => p.2

def bkSet (b : BStore) (k v : List Char) : BStore :=
  match b with
  | [] => [(k, v)]
  | p :: rest => if p.1 == k then (k, v) :: rest else p :: bkSet rest k v

def bkDelete (b : BStore) (k : List Char) : BStore := b.filter fun p => !(p.1 == k)

/-- `s3fifoCache`. -/
structure S3State where
  capacity : Nat
  sTarget : Nat
  ghostCap : Nat
  entries : List (List Char × S3Entry)
  sQueue : List (List Char)
  mQueue : List (List Char)
  ghostBuf : List (List Char)
  ghostSet : List (List Char)
  ghostHead : Nat
  ghostCount : Nat
  backing : BStore

def entriesLookup (es : List (List Char × S3Entry)) (k : List Char) : Option S3Entry :=
  (es.find? fun p => p.1 == k).map fun p => p.2

def entriesSet (es : List (List Char × S3Entry)) (k : List Char) (e : S3Entry) :
    List (List Char × S3Entry) :=
  match es with
  | [] => [(k, e)]
  | p :: rest => if p.1 == k then (k, e) :: rest else p :: entriesSet rest k e

def entriesErase (es : List (List Char × S3Entry)) (k : List Char) :
    List (List Char × S3Entry) :=
  es.filter fun p => !(p.1 == k)

/-- `newS3FIFOCache` sizing: capacity clamped to ≥ 2, `sTarget =
max 1 (capacity/10)`, `ghostCap = max 4 (2·sTarget)`. -/
def newS3FIFOCache (backing : BStore) (capacity : Nat) : S3State :=
  let cap := if capacity < 2 then 2 else capacity
  let sT := if cap / 10 < 1 then 1 else cap / 10
  let gC := if 2 * sT < 4 then 4 else 2 * sT
  { capacity := cap, sTarget := sT, ghostCap := gC, entries := [], sQueue := [],
    mQueue := [], ghostBuf := List.replicate gC [], ghostSet := [], ghostHead := 0,
    ghostCount := 0, backing := backing }

/-- `ghostContains`. -/
def ghostContains (st : S3State) (k : List Char) : Bool := st.ghostSet.any fun g => g == k

/-- `ghostAdd`: deduplicated bounded ring insertion. -/
def ghostAdd (st : S3State) (k : List Char) : S3State :=
  if ghostContains st k then st
  else
    let st :=
      if st.ghostCount = st.ghostCap then
        let oldest := st.ghostBuf.getD st.ghostHead []
        { st with ghostSet := st.ghostSet.filter fun g => !(g == oldest),
                  ghostHead := (st.ghostHead + 1) % st.ghostCap,
                  ghostCount := st.ghostCount - 1 }
      else st
    let writeIdx := (st.ghostHead + st.ghostCount) % st.ghostCap
    { st with ghostBuf := st.ghostBuf.set writeIdx k,
              ghostSet := st.ghostSet ++ [k],
              ghostCount := st.ghostCount + 1 }

/-- `evictFromM`: pop the M head, drop it from memory and the backing store. -/
def evictFromM (st : S3State) : S3State :=
  match st.mQueue with
  | [] => st
  | key :: rest =>
    { st with mQueue := rest, entries := entriesErase st.entries key,
              backing := bkDelete st.backing key }

/-- `evictFromS`: pop the S head; promote to the M tail if its counter is
positive (evicting the M head if M then exceeds `capacity - sTarget`),
otherwise evict fully into the ghost set. -/
def evictFromS (st : S3State) : S3State :=
  match st.sQueue with
  | [] => st
  | key :: rest =>
    let st := { st with sQueue := rest }
    match entriesLookup st.entries key with
    | none => st
    | some e =>
      if 0 < e.freq then
        let st := { st with entries := entriesSet st.entries key { e with freq := 0, inM := true },
                            mQueue := st.mQueue ++ [key] }
        if st.capacity - st.sTarget < st.mQueue.length then evictFromM st else st
      else
        let st := ghostAdd { st with entries := entriesErase st.entries key } key
        { st with backing := bkDelete st.backing key }

/-- `evictOne`. -/
def evictOne (st : S3State) : S3State :=
  if 0 < st.sQueue.length then evictFromS st else evictFromM st

/-- The `for … > capacity` eviction loop of `insertLocked`, with
fuel (`2·|S| + |M|` strictly decreases at each eviction). -/
def evictLoop : Nat → S3State → S3State
  | 0, st => st
  | fuel + 1, st =>
    if st.capacity < st.sQueue.length + st.mQueue.length then evictLoop fuel (evictOne st)
    else st

/-- `insertLocked`. -/
def insertLocked (st : S3State) (key value : List Char) : S3State :=
  match entriesLookup st.entries key with
  | some e => { st with entries := entriesSet st.entries key { e with value := value } }
  | none =>
    let inM := ghostContains st key
    let st :=
      if inM then { st with mQueue := st.mQueue ++ [key] }
      else { st with sQueue := st.sQueue ++ [key] }
    let st := { st with entries := entriesSet st.entries key ⟨value, 0, inM⟩ }
    evictLoop (2 * st.sQueue.length + st.mQueue.length) st

/-- `removeFromMemory`. -/
def removeFromMemory (st : S3State) (k : List Char) : S3State :=
  match entriesLookup st.entries k with
  | none => st
  | some e =>
    let st :=
      if e.inM then { st with mQueue := st.mQueue.erase k }
      else { st with sQueue := st.sQueue.erase k }
    { st with entries := entriesErase st.entries k }

/-- `Get`: memory hit bumps the saturating counter; a backing-store hit is
re-warmed through `insertLocked`. -/
def s3Get (st : S3State) (k : List Char) : Option (List Char) × S3State :=
  match entriesLookup st.entries k with
  | some e =>
    let e' := if e.freq < 3 then { e with freq := e.freq + 1 } else e
    (some e.value, { st with entries := entriesSet st.entries k e' })
  | none =>
    match bkGet st.backing k with
    | none => (none, st)
    | some token => (some token, insertLocked st k token)

/-- `Set`. -/
def s3Set (st : S3State) (k v : List Char) : S3State :=
  let st := insertLocked st k v
  { st with backing := bkSet st.backing k v }

/-- `Delete`. -/
def s3Delete (st : S3State) (k : List Char) : S3State :=
  let st := removeFromMemory st k
  { st with backing := bkDelete st.backing k }

/-- One public cache operation. -/
inductive CacheOp where
  | get (k : List Char)
  | set (k v : List Char)
  | del (k : List Char)

def applyCacheOp (st : S3State) : CacheOp → S3State
  | .get k => (s3Get st k).2
  | .set k v => s3Set st k v
  | .del k => s3Delete st k

def runCacheOps (st : S3State) (ops : List CacheOp) : S3State :=
  ops.foldl applyCacheOp st

/-- In-memory residency `|S| + |M|` (the quantity bounded by the claim,
measured as in `TestS3FIFOCapacityEnforced`). -/
def s3Total (st : S3State) : Nat := st.sQueue.length + st.mQueue.length

/-! ### bbolt persistent cache (cache.go) -/

/-- `bboltCache.Get`: reads the stored bytes (empty when absent), reports
a hit iff the resulting token string is non-empty. -/
def bboltGet (db : BStore) (original : List Char) : List Char × Bool :=
  let token :=
    match bkGet db original with
    | some v => v
    | none => []
  (token, !token.isEmpty)

/-- `bboltCache.Set` (`bucket.Put`). -/
def bboltSet (db : BStore) (original token : List Char) : BStore := bkSet db original token

/-! ### JSON model (AnonymizeJSON / walkValue / injectPIIInstruction)

Decoded JSON values (`any` after `json.Unmarshal`) are modelled as trees;
object fields keep their order (Go's map is unordered and `json.Marshal`
re-sorts keys, which does not affect any structural claim).  `AnonymizeJSON`
is embedded at the tree level: the byte-level `json.Unmarshal` /
`json.Marshal` round trip is the identity on this representation. -/

inductive JVal where
  | null
  | bool (b : Bool)
  | num (raw : List Char)
  | str (s : List Char)
  | arr (items : List JVal)
  | obj (fields : List (List Char × JVal))

def fieldsLookup (fs : List (List Char × JVal)) (k : List Char) : Option JVal :=
  (fs.find? fun p => p.1 == k).map fun p => p.2

/-- Assign `doc[k] = v` (update in place; append when absent). -/
def fieldsSet (fs : List (List Char × JVal)) (k : List Char) (v : JVal) :
    List (List Char × JVal) :=
  match fs with
  | [] => [(k, v)]
  | p :: rest => if p.1 == k then (k, v) :: rest else p :: fieldsSet rest k v

/-- The structural keys skipped by `walkValue`. -/
def skipKeys : List (List Char) :=
  ["model".data, "temperature".data, "max_tokens".data, "top_p".data, "stream".data, "n".data]

mutual

/-- `walkValue`: anonymize every string leaf, skipping values of
structural keys (shallow, per object). -/
def walkValue (cfg : AnonCfg) (cache : Cache) (sid : List Char) :
    JVal → Sessions → JVal × Sessions
  | .str s, ss =>
    let r := anonymizeText cfg cache ss s sid
    (.str r.1, r.2)
  | .arr items, ss =>
    let r := walkItems cfg cache sid items ss
    (.arr r.1, r.2)
  | .obj fields, ss =>
    let r := walkFields cfg cache sid fields ss
    (.obj r.1, r.2)
  | v, ss => (v, ss)

def walkItems (cfg : AnonCfg) (cache : Cache) (sid : List Char) :
    List JVal → Sessions → List JVal × Sessions
  | [], ss => ([], ss)
  | v :: rest, ss =>
    let r := walkValue cfg cache sid v ss
    let r2 := walkItems cfg cache sid rest r.2
    (r.1 :: r2.1, r2.2)

def walkFields (cfg : AnonCfg) (cache : Cache) (sid : List Char) :
    List (List Char × JVal) → Sessions → List (List Char × JVal) × Sessions
  | [], ss => ([], ss)
  | (k, v) :: rest, ss =>
    if skipKeys.contains k then
      let r := walkFields cfg cache sid rest ss
      ((k, v) :: r.1, r.2)
    else
      let r := walkValue cfg cache sid v ss
      let r2 := walkFields cfg cache sid rest r.2
      ((k, r.1) :: r2.1, r2.2)

end

/-- `defaultPIIInstruction`. -/
def defaultPIIInstruction : List Char :=
  ("PRIVACY TOKENS: This request contains privacy-preserving placeholders" ++
   " matching the pattern [PII_TYPE_XXXXXXXX] where TYPE indicates the kind of" ++
   " information (e.g. EMAIL, PHONE, SSN) and XXXXXXXX is an 8-character hex hash." ++
   " You MUST reproduce every such token EXACTLY as written in your response." ++
   " Do NOT replace them with example values or any other substitutes." ++
   " Treat [PII_*] tokens as opaque identifiers that must pass through unchanged.").data

/-- `resolvePIIInstruction`: prefix match over the configured map (Go
iterates the map in unspecified order; the embedding uses list order),
then the `"default"` key, then the built-in instruction. -/
def resolvePIIInstruction (instrs : List (List Char × List Char)) (model : List Char) :
    List Char :=
  match instrs.find? fun p => !(p.1 == "default".data) && p.1.isPrefixOf model with
  | some p => p.2
  | none =>
    match instrs.find? fun p => p.1 == "default".data with
    | some p => p.2
    | none => defaultPIIInstruction

/-- Whether a `messages` element is an object whose `role` is the string
`"system"` (Go: `msg["role"] == "system"`). -/
def isSystemMsg (m : JVal) : Bool :=
  match m with
  | .obj mf =>
    match fieldsLookup mf "role".data with
    | some (.str r) => r == "system".data
    | _ => false
  | _ => false

/-- Append the instruction to the first system message when its content is
a string; otherwise leave the message unchanged (the loop returns either
way). -/
def appendToSystemMsg (m : JVal) (instruction : List Char) : JVal :=
  match m with
  | .obj mf =>
    match fieldsLookup mf "content".data with
    | some (.str c) =>
      .obj (fieldsSet mf "content".data
        (.str (if c.isEmpty then instruction else c ++ "\n\n".data ++ instruction)))
    | _ => m
  | _ => m

/-- Replace the first system message of `msgs` using `appendToSystemMsg`. -/
def updateFirstSystem (msgs : List JVal) (instruction : List Char) : List JVal :=
  match msgs with
  | [] => []
  | m :: rest =>
    if isSystemMsg m then appendToSystemMsg m instruction :: rest
    else m :: updateFirstSystem rest instruction

/-- `injectPIIInstruction`. -/
def injectPIIInstruction (doc : List (List Char × JVal)) (instruction : List Char) :
    List (List Char × JVal) :=
  if instruction.isEmpty then doc
  else
    match fieldsLookup doc "system".data with
    | some (.str s) =>
      fieldsSet doc "system".data
        (.str (if s.isEmpty then instruction else s ++ "\n\n".data ++ instruction))
    | some (.arr blocks) =>
      fieldsSet doc "system".data
        (.arr (blocks ++ [.obj [("type".data, .str "text".data), ("text".data, .str instruction)]]))
    | _ =>
      match fieldsLookup doc "messages".data with
      | some (.arr msgs) =>
        if msgs.any isSystemMsg then
          fieldsSet doc "messages".data (.arr (updateFirstSystem msgs instruction))
        else
          fieldsSet doc "messages".data
            (.arr (.obj [("role".data, .str "system".data), ("content".data, .str instruction)]
              :: msgs))
      | _ => doc

/-- `AnonymizeJSON` on a decoded body: extract the model name, walk the
tree, and inject the system instruction when the session recorded tokens. -/
def anonymizeJSONVal (cfg : AnonCfg) (cache : Cache) (instrs : List (List Char × List Char))
    (ss : Sessions) (doc : JVal) (requestID : List Char) : JVal × Sessions :=
  let model :=
    match doc with
    | .obj fs =>
      match fieldsLookup fs "model".data with
      | some (.str v) => v
      | _ => []
    | _ => []
  let r := walkValue cfg cache requestID doc ss
  match r.1 with
  | .obj m =>
    if !requestID.isEmpty && 0 < (sessionsLookup r.2 requestID).length then
      (.obj (injectPIIInstruction m (resolvePIIInstruction instrs model)), r.2)
    else (r.1, r.2)
  | _ => (r.1, r.2)

/-! ### Streaming deanonymizer (StreamingDeanonymize)

The byte stream is modelled as the list of its bytes (the per-byte
processing loop of the source is chunk-size independent: it walks
`buf[:n]` one byte at a time, so delivery one byte per read and any other
chunking produce the same state transitions).  `strings.NewReplacer` is
modelled by a single left-to-right pass trying the pairs in argument
order.  The JSON envelope parse (`json.Unmarshal` into the
type/delta{type,text} struct) and the re-serialisation (`json.Marshal`,
which HTML-escapes strings) are modelled below. -/

/-- `strings.Replacer.Replace`: single pass, leftmost occurrence, pairs
tried in argument order (fuel = subject length). -/
def simReplaceGo (pairs : List (List Char × List Char)) : Nat → List Char → List Char
  | 0, s => s
  | _ + 1, [] => []
  | fuel + 1, c :: rest =>
    match pairs.find? fun p => !p.1.isEmpty && p.1.isPrefixOf (c :: rest) with
    | some p => p.2 ++ simReplaceGo pairs fuel ((c :: rest).drop p.1.length)
    | none => c :: simReplaceGo pairs fuel rest

def simReplace (pairs : List (List Char × List Char)) (s : List Char) : List Char :=
  simReplaceGo pairs s.length s

/-- JSON whitespace. -/
def isJsonWs (c : Char) : Bool := c = ' ' || c = '\t' || c = '\n' || c = '\r'

/-- Parse a JSON string body after the opening quote; returns the decoded
characters and the rest after the closing quote. -/
def parseJString : Nat → List Char → Option (List Char × List Char)
  | 0, _ => none
  | _ + 1, [] => none
  | fuel + 1, c :: rest =>
    if c = '"' then some ([], rest)
    else if c = '\\' then
      match rest with
      | [] => none
      | e :: rest2 =>
        let dec : Option (Char × List Char) :=
          if e = '"' then some ('"', rest2)
          else if e = '\\' then some ('\\', rest2)
          else if e = '/' then some ('/', rest2)
          else if e = 'b' then some ('\x08', rest2)
          else if e = 'f' then some ('\x0c', rest2)
          else if e = 'n' then some ('\n', rest2)
          else if e = 'r' then some ('\r', rest2)
          else if e = 't' then some ('\t', rest2)
          else if e = 'u' then
            let hx := rest2.take 4
            if hx.length = 4 && hx.all fun h => inClass hexCls h then
              some (Char.ofNat (hexGroupVal hx % 1114112), rest2.drop 4)
            else none
          else none
        match dec with
        | some dc => (parseJString fuel dc.2).map fun r => (dc.1 :: r.1, r.2)
        | none => none
    else (parseJString fuel rest).map fun r => (c :: r.1, r.2)

/-- Characters a JSON number may contain. -/
def isNumChar (c : Char) : Bool :=
  isDigitChar c || c = '-' || c = '+' || c = '.' || c = 'e' || c = 'E'

mutual

/-- Recursive-descent JSON value parser (fuel-bounded); returns the value
and the unconsumed rest.  Faithful to `encoding/json` for the inputs the
streaming path meets; number syntax is accepted loosely (their value is
never inspected). -/
def parseJValue : Nat → List Char → Option (JVal × List Char)
  | 0, _ => none
  | fuel + 1, s =>
    let s := s.dropWhile isJsonWs
    match s with
    | [] => none
    | c :: rest =>
      if c = '"' then (parseJString (fuel + 1) rest).map fun r => (.str r.1, r.2)
      else if c = 'n' then
        if "ull".data.isPrefixOf rest then some (.null, rest.drop 3) else none
      else if c = 't' then
        if "rue".data.isPrefixOf rest then some (.bool true, rest.drop 3) else none
      else if c = 'f' then
        if "alse".data.isPrefixOf rest then some (.bool false, rest.drop 4) else none
      else if c = '[' then
        let rest2 := rest.dropWhile isJsonWs
        match rest2 with
        | ']' :: r => some (.arr [], r)
        | _ => (parseJItems fuel rest).map fun r => (.arr r.1, r.2)
      else if c = '\x7b' then
        let rest2 := rest.dropWhile isJsonWs
        match rest2 with
        | '\x7d' :: r => some (.obj [], r)
        | _ => (parseJFields fuel rest).map fun r => (.obj r.1, r.2)
      else if isNumChar c then
        some (.num ((c :: rest).takeWhile isNumChar), (c :: rest).dropWhile isNumChar)
      else none

/-- Array elements, expecting a value then `,` or `]`. -/
def parseJItems : Nat → List Char → Option (List JVal × List Char)
  | 0, _ => none
  | fuel + 1, s =>
    match parseJValue fuel s with
    | none => none
    | some (v, rest) =>
      let rest := rest.dropWhile isJsonWs
      match rest with
      | ',' :: r => (parseJItems fuel r).map fun p => (v :: p.1, p.2)
      | ']' :: r => some ([v], r)
      | _ => none

/-- Object members, expecting `"key": value` then `,` or the closing brace. -/
def parseJFields : Nat → List Char → Option (List (List Char × JVal) × List Char)
  | 0, _ => none
  | fuel + 1, s =>
    let s := s.dropWhile isJsonWs
    match s with
    | '"' :: rest =>
      match parseJString (fuel + 1) rest with
      | none => none
      | some (k, rest2) =>
        let rest2 := rest2.dropWhile isJsonWs
        match rest2 with
        | ':' :: r =>
          match parseJValue fuel r with
          | none => none
          | some (v, rest3) =>
            let rest3 := rest3.dropWhile isJsonWs
            match rest3 with
            | ',' :: r2 => (parseJFields fuel r2).map fun p => ((k, v) :: p.1, p.2)
            | '\x7d' :: r2 => some ([(k, v)], r2)
            | _ => none
        | _ => none
    | _ => none

end

/-- Parse a complete JSON document (no trailing garbage). -/
def parseJSON (s : List Char) : Option JVal :=
  match parseJValue (s.length + 1) s with
  | some (v, rest) => if (rest.dropWhile isJsonWs).isEmpty then some v else none
  | none => none

/-- The decoded delta part of the SSE envelope struct. -/
structure DeltaPart where
  dtype : List Char
  dtext : List Char

/-- The SSE envelope struct of `StreamingDeanonymize`. -/
structure Envelope where
  etype : List Char
  delta : Option DeltaPart

/-- `json.Unmarshal(payload, &envelope)`: the payload must be a JSON
object; `type` fields must be strings when present, `delta` an object or
null; unknown fields are ignored; anything else is an unmarshalling
error. -/
def parseEnvelope (payload : List Char) : Option Envelope :=
  match parseJSON payload with
  | some (.obj fields) =>
    let etypeOK :=
      match fieldsLookup fields "type".data with
      | none => some []
      | some (.str s) => some s
      | some .null => some []
      | some _ => none
    let deltaOK : Option (Option DeltaPart) :=
      match fieldsLookup fields "delta".data with
      | none => some none
      | some .null => some none
      | some (.obj df) =>
        let dt :=
          match fieldsLookup df "type".data with
          | none => some []
          | some (.str s) => some s
          | some .null => some []
          | some _ => none
        let dx :=
          match fieldsLookup df "text".data with
          | none => some []
          | some (.str s) => some s
          | some .null => some []
          | some _ => none
        match dt, dx with
        | some t, some x => some (some ⟨t, x⟩)
        | _, _ => none
      | some _ => none
    match etypeOK, deltaOK with
    | some t, some d => some ⟨t, d⟩
    | _, _ => none
  | _ => none

/-- `encoding/json` string escaping (with the default HTML escaping). -/
def jsonEscapeChar (c : Char) : List Char :=
  if c = '"' then ['\\', '"']
  else if c = '\\' then ['\\', '\\']
  else if c = '\n' then ['\\', 'n']
  else if c = '\r' then ['\\', 'r']
  else if c = '\t' then ['\\', 't']
  else if c = '<' then "\\u003c".data
  else if c = '>' then "\\u003e".data
  else if c = '&' then "\\u0026".data
  else if c.toNat < 32 then
    "\\u00".data ++ [hexChar (c.toNat / 16), hexChar (c.toNat % 16)]
  else [c]

def jsonEscape (s : List Char) : List Char := s.flatMap jsonEscapeChar

/-- `json.Marshal` of the envelope struct: field order `type`, `delta`. -/
def marshalEnvelope (env : Envelope) : List Char :=
  "\x7b\"type\":\"".data ++ jsonEscape env.etype ++ "\",\"delta\":".data ++
  (match env.delta with
   | none => "null".data
   | some d =>
     "\x7b\"type\":\"".data ++ jsonEscape d.dtype ++ "\",\"text\":\"".data ++
     jsonEscape d.dtext ++ "\"\x7d".data) ++
  "\x7d".data

/-- `json.Marshal` of the synthetic flush event
`map[string]any{"type":…, "index":1, "delta": map[string]string{…}}`
(Go marshals map keys in sorted order: delta, index, type; text, type). -/
def marshalSynth (flushed : List Char) : List Char :=
  "\x7b\"delta\":\x7b\"text\":\"".data ++ jsonEscape flushed ++
  "\",\"type\":\"text_delta\"\x7d,\"index\":1,\"type\":\"content_block_delta\"\x7d".data

/-- `const tokenSuffixLen = 26`. -/
def tokenSuffixLen : Nat := 26

/-- The `flushUpTo` computation: keep a suffix of up to `tokenSuffixLen`
bytes; if the last `[` in that window is unclosed, cut at it. -/
def flushUpToCalc (accumulated : List Char) : Nat :=
  if tokenSuffixLen < accumulated.length then
    let cutAt := accumulated.length - tokenSuffixLen
    match (accumulated.drop cutAt).reverse.findIdx? fun c => c = '[' with
    | some j =>
      let i := accumulated.length - 1 - j
      if (accumulated.drop i).any fun c => c = ']' then cutAt else i
    | none => cutAt
  else 0

/-- The synthetic flush of a pending text accumulator (emitted before a
non-delta event and at stream end). -/
def synthFlush (pairs : List (List Char × List Char)) (accum : List Char) : List Char :=
  if accum.isEmpty then []
  else
    let flushed := simReplace pairs accum
    if flushed.isEmpty then []
    else "data: ".data ++ marshalSynth flushed ++ "\n\n".data

/-- `processLine`: handle one complete SSE line (without the trailing
newline); returns the bytes written downstream and the new text
accumulator. -/
def processLine (pairs : List (List Char × List Char)) (line accum : List Char) :
    List Char × List Char :=
  if line.isEmpty || line.headD ' ' = ':' then (line ++ ['\n'], accum)
  else if !("data: ".data.isPrefixOf line) then (simReplace pairs line ++ ['\n'], accum)
  else
    let payload := line.drop 6
    match parseEnvelope payload with
    | none => ("data: ".data ++ simReplace pairs payload ++ ['\n'], accum)
    | some env =>
      match env.delta with
      | some d =>
        if env.etype == "content_block_delta".data &&
            (d.dtype == "text_delta".data || d.dtype == "thinking_delta".data) then
          let accumulated := accum ++ d.dtext
          let flushUpTo := flushUpToCalc accumulated
          let replaced := simReplace pairs (accumulated.take flushUpTo)
          let newPayload := marshalEnvelope ⟨env.etype, some ⟨d.dtype, replaced⟩⟩
          ("data: ".data ++ newPayload ++ ['\n'], accumulated.drop flushUpTo)
        else
          (synthFlush pairs accum ++ simReplace pairs line ++ ['\n'], [])
      | none =>
        (synthFlush pairs accum ++ simReplace pairs line ++ ['\n'], [])

/-- The reader loop: split on newlines (stripping a trailing `\r` from
each line), process complete lines, and at end of stream flush the
partial line and the pending accumulator. -/
def streamLoop (pairs : List (List Char × List Char)) :
    List Char → List Char → List Char → List Char
  | [], lineBuf, accum =>
    (if lineBuf.isEmpty then [] else simReplace pairs lineBuf) ++ synthFlush pairs accum
  | b :: restIn, lineBuf, accum =>
    if b = '\n' then
      let line := if lineBuf.getLast? = some '\r' then lineBuf.dropLast else lineBuf
      let r := processLine pairs line accum
      r.1 ++ streamLoop pairs restIn [] r.2
    else streamLoop pairs restIn (lineBuf ++ [b]) accum

/-- `StreamingDeanonymize`: snapshot the session map; pass the stream
through unchanged when it is empty, otherwise run the replacement loop. -/
def streamingDeanonymize (ss : Sessions) (sid : List Char) (src : List Char) : List Char :=
  let tokenMap := sessionsLookup ss sid
  if tokenMap.isEmpty then src
  else streamLoop tokenMap src [] []

/-! ### Claim-facing auxiliary definitions -/

/-- The closed enumeration of PII kinds (the twelve `PIIType` constants). -/
inductive PIIKind where
  | email | phone | ssn | creditCard | ipAddress | apiKey
  | name | address | medical | salary | company | jobTitle

/-- The Go string constant of each kind. -/
def PIIKind.str : PIIKind → List Char
  | .email => "email".data
  | .phone => "phone".data
  | .ssn => "ssn".data
  | .creditCard => "creditCard".data
  | .ipAddress => "ipAddress".data
  | .apiKey => "apiKey".data
  | .name => "name".data
  | .address => "address".data
  | .medical => "medical".data
  | .salary => "salary".data
  | .company => "company".data
  | .jobTitle => "jobTitle".data

/-- `strings.Contains`: `sub` occurs somewhere in `s`. -/
def containsSubstr (s sub : List Char) : Bool :=
  (List.range (s.length + 1)).any fun i => sub.isPrefixOf (s.drop i)

/-- The claim's reading of "chat-style": a top-level `system` field that is
a string or a content-block array, or a `messages` array. -/
def claimChatStyle (fields : List (List Char × JVal)) : Bool :=
  match fieldsLookup fields "system".data with
  | some (.str _) => true
  | some (.arr _) => true
  | _ =>
    match fieldsLookup fields "messages".data with
    | some (.arr _) => true
    | _ => false

/-- The shapes `injectPIIInstruction` actually modifies: a string or array
`system` field; or a `messages` array whose first system-role message has
string content, or which has no system-role message at all. -/
def chatInjectable (fields : List (List Char × JVal)) : Bool :=
  match fieldsLookup fields "system".data with
  | some (.str _) => true
  | some (.arr _) => true
  | _ =>
    match fieldsLookup fields "messages".data with
    | some (.arr msgs) =>
      match msgs.find? isSystemMsg with
      | some (.obj mf) =>
        match fieldsLookup mf "content".data with
        | some (.str _) => true
        | _ => false
      | some _ => false
      | none => true
    | _ => false

/-- Object keys are pairwise distinct (JSON objects decoded by
`encoding/json` into a Go map always satisfy this). -/
def noDupKeys (fs : List (List Char × JVal)) : Bool :=
  match fs with
  | [] => true
  | (k, _) :: rest => !(rest.any fun p => p.1 == k) && noDupKeys rest

/-- Resolver used by the C5 witness. -/
def c5res : Resolver := fun h =>
  if h == "internal.test".data then some [[10, 0, 0, 1]]
  else if h == "api.example".data then some [[93, 184, 216, 34], [93, 184, 216, 35]]
  else none

/-- Resolver used by the C6 theorems: `internal.test` resolves to a
private address, everything else to a public one. -/
def c6res : Resolver := fun h =>
  if h == "internal.test".data then some [[10, 0, 0, 1]]
  else some [[93, 184, 216, 34]]

/-- Proxy configuration used by the C7 theorems. -/
def c7cfg : ServerCfg := ⟨["api.anthropic.com".data], [], []⟩

/-- The anonymizer configuration of the default deployment
(`useAIDetection = true`, `aiConfidenceThreshold = 0.7`). -/
def defaultAnonCfg : AnonCfg := ⟨true, 70⟩

/-- The C9 counterexample body: a `messages` array whose (first) system
message carries array content, plus a user message containing an SSN. -/
def c9doc : JVal :=
  .obj [("messages".data, .arr
    [.obj [("role".data, .str "system".data), ("content".data, .arr [])],
     .obj [("role".data, .str "user".data),
           ("content".data, .str "My SSN is 123-45-6789".data)]])]


/-! ### Token structure: segments of an in-flight anonymized text -/

/-- Uppercase ASCII letter. -/
def upperB (c : Char) : Bool := 'A' ≤ c && c ≤ 'Z'

/-- The twelve `PIIType` constants (every `piiType` the anonymizer can
emit is among them). -/
def kindTys : List (List Char) :=
  ["email".data, "phone".data, "ssn".data, "creditCard".data, "ipAddress".data,
   "apiKey".data, "name".data, "address".data, "medical".data, "salary".data,
   "company".data, "jobTitle".data]

/-- The interior of a token: everything between the brackets. -/
def tokInner (ty orig : List Char) : List Char :=
  "PII_".data ++ toUpperStr ty ++ "_".data ++ md5hex8 orig

/-- Neither bracket occurs in the string. -/
def bracketFree (s : List Char) : Bool := s.all fun c => !(c == '[') && !(c == ']')

/-- One segment of the decomposition of an in-flight anonymized text:
a literal run of original characters, or one inserted token. -/
inductive Seg where
  | raw (r : List Char)
  | tok (ty : List Char) (orig : List Char)

/-- The current (anonymized) text of a segment list. -/
def render : List Seg → List Char
  | [] => []
  | .raw r :: rest => r ++ render rest
  | .tok ty m :: rest => replacement ty m ++ render rest

/-- The original text of a segment list (every token put back). -/
def restore : List Seg → List Char
  | [] => []
  | .raw r :: rest => r ++ restore rest
  | .tok _ m :: rest => m ++ restore rest

/-- Well-formedness over the original text `t`: raw runs are nonempty
bracket-free infixes of `t` with no two adjacent, and tokens carry a PII
kind and a bracket-free original that is an infix of `t`. -/
def SegsWF (t : List Char) : List Seg → Prop
  | [] => True
  | .raw r :: rest => r ≠ [] ∧ bracketFree r = true ∧ r <:+: t ∧
      (match rest with | .raw _ :: _ => False | _ => True) ∧ SegsWF t rest
  | .tok ty m :: rest => ty ∈ kindTys ∧ bracketFree m = true ∧ m <:+: t ∧ SegsWF t rest

/-- The text of one chunk. -/
def chunkText : Chunk → List Char
  | .lit c => [c]
  | .mtch m => m

/-- The chunks one segment contributes to a scan of the rendered text. -/
def segChunks (mf : Nat) (re : RE) : Seg → List Chunk
  | .raw r => scanGo mf re r.length false r
  | .tok ty m => (replacement ty m).map .lit

/-- No position of any token interior admits a regex candidate (the
hypothesis package of the scan decomposition, discharged per pattern). -/
def HintP (re : RE) : Prop :=
  ∀ ty ∈ kindTys, ∀ (orig : List Char) (mf : Nat) (pre suf : List Char),
    tokInner ty orig = pre ++ suf → suf ≠ [] →
    reMatches mf re (lastWordFlag false pre) suf = []

/-- Lookup in an inner session map. -/
def innerLookup (m : SessionInner) (tok : List Char) : Option (List Char) :=
  (m.find? fun p => p.1 == tok).map fun p => p.2

/-- The text one chunk contributes to the replaced output. -/
def chunkOutTok (cfg : AnonCfg) (cache : Cache) (p : Pattern) : Chunk → List Char
  | .lit c => [c]
  | .mtch m => tokenForMatch cfg cache p m

/-- The session map after recording every match of a chunk list. -/
def chunkRecs (cfg : AnonCfg) (cache : Cache) (p : Pattern) (sid : List Char)
    (CL : List Chunk) (ss : Sessions) : Sessions :=
  CL.foldl (fun s ch =>
    match ch with
    | .lit _ => s
    | .mtch m => recordMapping s sid (tokenForMatch cfg cache p m) m) ss

/-- Group a chunk list into segments: literal runs become raw segments and
every match becomes a token segment. -/
def segsOfChunks (ty : List Char) : List Chunk → List Seg
  | [] => []
  | .lit c :: rest =>
    match segsOfChunks ty rest with
    | .raw r :: tl => .raw (c :: r) :: tl
    | l => .raw [c] :: l
  | .mtch m :: rest => .tok ty m :: segsOfChunks ty rest

/-- The segment list after one pattern pass. -/
def segRepl (cfg : AnonCfg) (cache : Cache) (p : Pattern) (mf : Nat) : Seg → List Seg
  | .raw r => segsOfChunks p.piiType (scanGo mf p.re r.length false r)
  | .tok ty m => [.tok ty m]

/-- Replace the token segments carrying token string `tk` by the raw text `v`. -/
def replTok (tk v : List Char) : Seg → Seg
  | .raw r => .raw r
  | .tok ty m => if replacement ty m == tk then .raw v else .tok ty m

/-- Weaker segment well-formedness for the de-anonymization phase. -/
def SegsWFD (t : List Char) : List Seg → Prop
  | [] => True
  | .raw r :: rest => r ≠ [] ∧ bracketFree r = true ∧ SegsWFD t rest
  | .tok ty m :: rest => ty ∈ kindTys ∧ m <:+: t ∧ SegsWFD t rest

/-- Every recorded pair is a kind token of its own original, a nonempty
bracket-free infix of the original text. -/
def InnerOK (t : List Char) (pairs : SessionInner) : Prop :=
  ∀ pr ∈ pairs, ∃ ty0, ty0 ∈ kindTys ∧ pr.1 = replacement ty0 pr.2 ∧
    pr.2 <:+: t ∧ pr.2 ≠ []

/-- Every token segment is recorded in the session map. -/
def InvMap (segs : List Seg) (pairs : SessionInner) : Prop :=
  ∀ ty m, Seg.tok ty m ∈ segs → innerLookup pairs (replacement ty m) = some m

/-- The eight-hex-character digest distinguishes the infixes of `t` (the
collision-freedom hypothesis of the round trip). -/
def HashInj (t : List Char) : Prop :=
  ∀ m1 m2 : List Char, m1 <:+: t → m2 <:+: t → md5hex8 m1 = md5hex8 m2 → m1 = m2

/-- All infixes of `t` (with repetitions), as start/length slices. -/
def infixesOf (t : List Char) : List (List Char) :=
  (List.range (t.length + 1)).flatMap fun i =>
    (List.range (t.length + 1 - i)).map fun l => (t.drop i).take l

/-- Decidable check that `md5hex8` is injective on the infixes of `t`. -/
def hashInjOnB (t : List Char) : Bool :=
  (infixesOf t).all fun m1 => (infixesOf t).all fun m2 =>
    !(md5hex8 m1 == md5hex8 m2) || m1 == m2

/-- The model-name extraction of `AnonymizeJSON` (the top-level `model`
string field, or empty). -/
def modelOf (fields : List (List Char × JVal)) : List Char :=
  match fieldsLookup fields "model".data with
  | some (.str v) => v
  | _ => []

/-- The per-line replacement behaviour of the streaming loop on inputs
that never meet the SSE-specific branches: split at newlines, apply the
single-pass replacer to each line, and flush the partial last line. -/
def deanonLines (pairs : List (List Char × List Char)) :
    List Char → List Char → List Char
  | [], lineBuf => if lineBuf.isEmpty then [] else simReplace pairs lineBuf
  | c :: rest, lineBuf =>
    if c = '\n' then simReplace pairs lineBuf ++ '\n' :: deanonLines pairs rest []
    else deanonLines pairs rest (lineBuf ++ [c])

/-- The C9 witness body: a `messages` array with no entries at all. -/
def c9fields : List (List Char × JVal) := [("messages".data, .arr ([] : List JVal))]

/-- Whether a message object carries string `content` (the only shape
`appendToSystemMsg` modifies). -/
def sysStrContent (msg : JVal) : Bool :=
  match msg with
  | .obj mf =>
    match fieldsLookup mf "content".data with
    | some (.str _) => true
    | _ => false
  | _ => false

/-- The regex starts with a mandatory `\b` (possibly under `seq` nesting). -/
def leadWB : RE → Bool
  | .wordB => true
  | .seq a _ => leadWB a
  | _ => false

/-- The eviction-loop termination measure: `2·|S| + |M|`. -/
def s3Measure (st : S3State) : Nat := 2 * st.sQueue.length + st.mQueue.length

/-! ## Theorems -/

/-! ### Association-list helpers -/

theorem bkGet_bkSet_self (b : BStore) (k v : List Char) :
    bkGet (bkSet b k v) k = some v := by
  induction b with
  | nil => simp [bkSet, bkGet, List.find?]
  | cons p rest ih =>
    by_cases h : p.1 == k
    · simp [bkSet, h, bkGet, List.find?]
    · simpa [bkSet, h, bkGet, List.find?] using ih

/-! ### C10 — bbolt cache: empty token is indistinguishable from absence -/

/-- C10: in the bbolt-backed persistent cache, `Get` reports a hit iff the
value stored for the key is a non-empty string, so `Set(original, "")`
followed by `Get(original)` returns `ok = false`. -/
theorem c10_bbolt_empty_token (db : BStore) (original : List Char) :
    ((bboltGet db original).2 = true ↔ ∃ v, bkGet db original = some v ∧ v ≠ []) ∧
    (bboltGet (bboltSet db original []) original).2 = false := by
  constructor
  · cases h : bkGet db original with
    | none => simp [bboltGet, h]
    | some v => simp [bboltGet, h, List.isEmpty_iff]
  · simp [bboltGet, bboltSet, bkGet_bkSet_self, List.isEmpty_iff]

/-! ### C5 — SafeDial resolved-address checking -/

/-- C5: for a dial through SafeDial whose address splits as `host:port`,
every resolved address of the host is tested against the private-network
prefix list: if any resolved address is private the dial fails with the
blocked-private-address error and no connection is opened; otherwise the
connection is made to the first resolved IP address rather than to the
hostname. -/
theorem c5_safe_dial (resolve : Resolver) (addr host port : List Char) (ips : List IPBytes)
    (hsplit : splitHostPort addr = some (host, port)) (hres : resolve host = some ips) :
    ((∃ ip ∈ ips, isPrivateIP ip = true) → ssrfSafeDial resolve addr = .errPrivate) ∧
    ((∀ ip ∈ ips, isPrivateIP ip = false) → ∀ ip0 rest, ips = ip0 :: rest →
      ssrfSafeDial resolve addr = .conn ip0 port) := by
  constructor
  · rintro ⟨ip, hmem, hpriv⟩
    have hany : ips.any isPrivateIP = true := List.any_eq_true.mpr ⟨ip, hmem, hpriv⟩
    simp [ssrfSafeDial, hsplit, hres, hany]
  · intro hall ip0 rest hips
    have hany : ips.any isPrivateIP = false := by
      rw [List.any_eq_false]
      intro x hx
      simp [hall x hx]
    subst hips
    simp [ssrfSafeDial, hsplit, hres, hany]

/-- C5 witness: a host resolving to 10.0.0.1 is refused; a host resolving
to two public addresses is dialed at the first of them. -/
theorem c5_safe_dial_witness :
    ssrfSafeDial c5res "internal.test:80".data = .errPrivate ∧
    ssrfSafeDial c5res "api.example:443".data = .conn [93, 184, 216, 34] "443".data := by
  constructor
  · exact (c5_safe_dial c5res "internal.test:80".data "internal.test".data "80".data
      [[10, 0, 0, 1]] (by decide) (by decide)).1 ⟨[10, 0, 0, 1], by decide, by decide⟩
  · exact (c5_safe_dial c5res "api.example:443".data "api.example".data "443".data
      [[93, 184, 216, 34], [93, 184, 216, 35]] (by decide) (by decide)).2
      (by decide) [93, 184, 216, 34] [[93, 184, 216, 35]] rfl

/-! ### C6 — SafeDial refusal handling on the forwarding paths -/

/-- C6 counterexample: on the opaque CONNECT path, a SafeDial refusal of a
hostname that resolves to a private address produces 502 "bad gateway" to
the client, not the 403 the claim states. -/
theorem c6_counterexample :
    ssrfSafeDial c6res "internal.test:80".data = .errPrivate ∧
    handleOpaqueTunnel c6res "internal.test:80".data = .respond 502 "bad gateway".data ∧
    handleOpaqueTunnel c6res "internal.test:80".data ≠ .respond 403 "forbidden".data := by
  decide

/-- C6 amended: SafeDial is consulted before every upstream TCP connection
on all three forwarding paths — a connection is opened only on a SafeDial
approval, and a SafeDial refusal of a private-resolving target surfaces to
the client as 502 "bad gateway" — while the 403 "forbidden" response is
produced by the literal-IP pre-check (`isPrivateHost`) on the opaque-tunnel
and direct-forwarding paths. -/
theorem c6_safe_dial_gating_amended (cfg : ServerCfg) (resolve : Resolver)
    (host path urlHost domain : List Char) (bodyLen : Nat) :
    (∀ ip port, handleOpaqueTunnel resolve host = .tunnel ip port →
      ssrfSafeDial resolve host = .conn ip port) ∧
    (isPrivateHost host = false → ssrfSafeDial resolve host = .errPrivate →
      handleOpaqueTunnel resolve host = .respond 502 "bad gateway".data) ∧
    (isPrivateHost host = true →
      handleOpaqueTunnel resolve host = .respond 403 "forbidden".data) ∧
    (∀ ip port, forwardOutcome resolve urlHost = .forwarded ip port →
      transportDial resolve urlHost "80".data = .conn ip port) ∧
    (isPrivateHost urlHost = false → transportDial resolve urlHost "80".data = .errPrivate →
      forwardOutcome resolve urlHost = .respond 502 "bad gateway".data) ∧
    (isPrivateHost urlHost = true →
      forwardOutcome resolve urlHost = .respond 403 "forbidden".data) ∧
    (∀ ip port, handleMITMRequest cfg resolve host domain path bodyLen = .forwarded ip port →
      transportDial resolve host "443".data = .conn ip port) ∧
    (transportDial resolve host "443".data = .errPrivate →
      handleMITMRequest cfg resolve host domain path bodyLen
          = .respond 502 "bad gateway".data ∨
      handleMITMRequest cfg resolve host domain path bodyLen
          = .respond 413 "payload too large".data) := by
  refine ⟨?_, ?_, ?_, ?_, ?_, ?_, ?_, ?_⟩
  · intro ip port h
    by_cases hp : isPrivateHost host
    · simp [handleOpaqueTunnel, hp] at h
    · cases hd : ssrfSafeDial resolve host <;> simp [handleOpaqueTunnel, hp, hd] at h ⊢
      exact ⟨h.1, h.2⟩
  · intro hp hd
    simp [handleOpaqueTunnel, hp, hd]
  · intro hp
    simp [handleOpaqueTunnel, hp]
  · intro ip port h
    by_cases hp : isPrivateHost urlHost
    · simp [forwardOutcome, hp] at h
    · cases hd : transportDial resolve urlHost "80".data <;>
        simp [forwardOutcome, hp, hd] at h ⊢
      exact ⟨h.1, h.2⟩
  · intro hp hd
    simp [forwardOutcome, hp, hd]
  · intro hp
    simp [forwardOutcome, hp]
  · intro ip port h
    by_cases hb : (!isAuthRequest cfg domain path && bodyTooLarge bodyLen) = true
    · simp [handleMITMRequest, hb] at h
    · cases hd : transportDial resolve host "443".data <;>
        simp [handleMITMRequest, hb, hd] at h ⊢
      exact ⟨h.1, h.2⟩
  · intro hd
    by_cases hb : (!isAuthRequest cfg domain path && bodyTooLarge bodyLen) = true
    · right
      simp [handleMITMRequest, hb]
    · left
      simp [handleMITMRequest, hb, hd]

/-- C6 amended witness: concrete SafeDial refusals surface as 502 on the
opaque and direct paths, and a literal private IP is refused with 403. -/
theorem c6_safe_dial_gating_amended_witness :
    handleOpaqueTunnel c6res "internal.test:80".data = .respond 502 "bad gateway".data ∧
    forwardOutcome c6res "internal.test:80".data = .respond 502 "bad gateway".data ∧
    handleOpaqueTunnel c6res "10.0.0.52:443".data = .respond 403 "forbidden".data := by
  refine ⟨?_, ?_, ?_⟩
  · exact (c6_safe_dial_gating_amended c7cfg c6res "internal.test:80".data [] [] [] 0).2.1
      (by decide) (by decide)
  · exact (c6_safe_dial_gating_amended c7cfg c6res [] [] "internal.test:80".data [] 0).2.2.2.2.1
      (by decide) (by decide)
  · exact (c6_safe_dial_gating_amended c7cfg c6res "10.0.0.52:443".data [] [] [] 0).2.2.1
      (by decide)

/-! ### C7 — 413 for oversized bodies -/

/-- C7 counterexample: an oversized body on a proxied request to a non-AI
domain is forwarded untouched; no 413 is produced. -/
theorem c7_counterexample :
    handleHTTP c7cfg c6res "example.com".data "/".data (maxRequestBody + 1)
      = .forwarded [93, 184, 216, 34] "80".data ∧
    handleHTTP c7cfg c6res "example.com".data "/".data (maxRequestBody + 1)
      ≠ .respond 413 "payload too large".data := by
  decide

/-- C7 amended: a request that undergoes anonymization — an AI-API-domain
request that is not auth-classified, on the direct-HTTP path or the
TLS-intercepted path — whose body exceeds 50 MiB is answered with
413 "payload too large". -/
theorem c7_payload_413_amended (cfg : ServerCfg) (resolve : Resolver)
    (host path : List Char) (bodyLen : Nat)
    (hAI : cfg.aiDomains.contains (stripPort host) = true)
    (hAuth : isAuthRequest cfg (stripPort host) path = false)
    (hBig : maxRequestBody < bodyLen) :
    handleHTTP cfg resolve host path bodyLen = .respond 413 "payload too large".data ∧
    (∀ domain2 path2, isAuthRequest cfg domain2 path2 = false →
      handleMITMRequest cfg resolve host domain2 path2 bodyLen
        = .respond 413 "payload too large".data) := by
  have hTL : bodyTooLarge bodyLen = true := by
    have h0 : bodyLen ≠ 0 := by
      intro h
      rw [h] at hBig
      exact absurd hBig (by decide)
    simp [bodyTooLarge, h0, hBig]
  constructor
  · have hc : (cfg.aiDomains.contains (stripPort host) &&
        !isAuthRequest cfg (stripPort host) path && bodyTooLarge bodyLen) = true := by
      rw [hAI, hAuth, hTL]
      rfl
    simp only [handleHTTP]
    rw [hc]
    simp
  · intro domain2 path2 hAuth2
    have hc : (!isAuthRequest cfg domain2 path2 && bodyTooLarge bodyLen) = true := by
      rw [hAuth2, hTL]
      rfl
    simp only [handleMITMRequest]
    rw [hc]
    simp

/-- C7 amended witness: a 50 MiB + 1 body to an AI domain yields 413 on
both anonymizing paths. -/
theorem c7_payload_413_amended_witness :
    handleHTTP c7cfg c6res "api.anthropic.com".data "/v1/messages".data (maxRequestBody + 1)
      = .respond 413 "payload too large".data ∧
    handleMITMRequest c7cfg c6res "api.anthropic.com:443".data "api.anthropic.com".data
      "/v1/messages".data (maxRequestBody + 1) = .respond 413 "payload too large".data := by
  have h := c7_payload_413_amended c7cfg c6res "api.anthropic.com".data "/v1/messages".data
    (maxRequestBody + 1) (by decide) (by decide) (by decide)
  refine ⟨h.1, ?_⟩
  have h2 := c7_payload_413_amended c7cfg c6res "api.anthropic.com:443".data
    "/v1/messages".data (maxRequestBody + 1) (by decide) (by decide) (by decide)
  exact h2.2 "api.anthropic.com".data "/v1/messages".data (by decide)

/-! ### C2 — low-confidence cache-miss fallback -/

/-- C2 counterexample: in `AnonymizeText "90210,9021055"` under the default
configuration with an empty cache, "90210" is a low-confidence match of
the ZIP pattern (confidence 0.40 < threshold 0.7) and receives the
deterministic fallback token, yet the returned text still contains
"90210" — inside the unmatched digit run "9021055". -/
theorem c2_counterexample :
    (⟨zipRE, "address".data, 40⟩ : Pattern) ∈ compiledPatterns ∧
    "90210".data ∈ matchList zipRE "90210,9021055".data ∧
    defaultAnonCfg.useAI = true ∧
    (40 : Nat) < defaultAnonCfg.aiThreshold ∧
    cacheGet [] "90210".data = none ∧
    tokenForMatch defaultAnonCfg [] ⟨zipRE, "address".data, 40⟩ "90210".data
      = replacement "address".data "90210".data ∧
    containsSubstr
      (anonymizeText defaultAnonCfg [] [] "90210,9021055".data "s2".data).1 "90210".data
      = true := by
  decide

/-- C2 amended: on a low-confidence regex match (AI enabled, confidence
below the threshold) whose original value misses the cache, `tokenForMatch`
returns the deterministic fallback token synchronously; every matched span
is thus replaced in the output, though an unmatched overlapping occurrence
of the same value elsewhere in the text may survive. -/
theorem c2_fallback_amended (cfg : AnonCfg) (cache : Cache) (p : Pattern) (m : List Char)
    (hAI : cfg.useAI = true) (hConf : p.confidence < cfg.aiThreshold)
    (hMiss : cacheGet cache m = none) :
    tokenForMatch cfg cache p m = replacement p.piiType m := by
  have hle : ¬ cfg.aiThreshold ≤ p.confidence := Nat.not_le.mpr hConf
  simp [tokenForMatch, hAI, hle, hMiss]

/-- C2 amended witness. -/
theorem c2_fallback_amended_witness :
    tokenForMatch defaultAnonCfg [] ⟨zipRE, "address".data, 40⟩ "90210".data
      = replacement "address".data "90210".data :=
  c2_fallback_amended defaultAnonCfg [] ⟨zipRE, "address".data, 40⟩ "90210".data
    (by decide) (by decide) (by decide)

/-! ### C1 / C4 / C9 — counterexamples -/

/-- C1 counterexample: for the non-empty session "s1" and a text that
already contains the token of its own email address, de-anonymizing the
anonymized text does not restore the original: both occurrences of the
token are replaced back. -/
theorem c1_counterexample :
    "s1".data ≠ [] ∧
    (let t := "[PII_EMAIL_c160f8cc] alice@example.com".data
     let r := anonymizeText defaultAnonCfg [] [] t "s1".data
     deanonymizeText r.2 r.1 "s1".data ≠ t) := by
  constructor
  · decide
  · decide

/-- C4 counterexample: an SSE comment line (leading ':') passes through
`StreamingDeanonymize` verbatim, so the anonymized text of a comment line
containing an email does not round-trip back to the original. -/
theorem c4_counterexample :
    (let t := ": alice@example.com\n".data
     let r := anonymizeText defaultAnonCfg [] [] t "s3".data
     streamingDeanonymize r.2 "s3".data r.1 ≠ t) := by
  decide

/-- C9 counterexample: a chat-style body (a `messages` array) whose first
system message carries array content records a token for the session, yet
`AnonymizeJSON` injects nothing: the output is exactly the walked body. -/
theorem c9_counterexample :
    0 < (sessionsLookup (walkValue defaultAnonCfg [] "s9".data c9doc []).2 "s9".data).length ∧
    (match c9doc with
     | .obj fs => claimChatStyle fs
     | _ => false) = true ∧
    anonymizeJSONVal defaultAnonCfg [] [] [] c9doc "s9".data
      = walkValue defaultAnonCfg [] "s9".data c9doc [] := by
  refine ⟨by decide, by decide, ?_⟩
  rfl

/-! ### C8 — S3-FIFO capacity bound -/

theorem ghostAdd_sQueue (st : S3State) (k : List Char) :
    (ghostAdd st k).sQueue = st.sQueue := by
  unfold ghostAdd
  split
  · rfl
  · split <;> rfl

theorem ghostAdd_mQueue (st : S3State) (k : List Char) :
    (ghostAdd st k).mQueue = st.mQueue := by
  unfold ghostAdd
  split
  · rfl
  · split <;> rfl

theorem ghostAdd_capacity (st : S3State) (k : List Char) :
    (ghostAdd st k).capacity = st.capacity := by
  unfold ghostAdd
  split
  · rfl
  · split <;> rfl

theorem evictFromM_capacity (st : S3State) : (evictFromM st).capacity = st.capacity := by
  cases h : st.mQueue <;> simp [evictFromM, h]

theorem evictFromM_sQueue (st : S3State) : (evictFromM st).sQueue = st.sQueue := by
  cases h : st.mQueue <;> simp [evictFromM, h]

theorem evictFromM_mlen (st : S3State) :
    (evictFromM st).mQueue.length = st.mQueue.length - 1 := by
  cases h : st.mQueue <;> simp [evictFromM, h]

theorem evictFromS_measure (st : S3State) (hne : st.sQueue ≠ []) :
    s3Measure (evictFromS st) < s3Measure st ∧ (evictFromS st).capacity = st.capacity := by
  unfold evictFromS
  cases hq : st.sQueue with
  | nil => exact absurd hq hne
  | cons key rest =>
    cases hl : entriesLookup st.entries key with
    | none =>
      simp only [hl, s3Measure, hq]
      refine ⟨?_, by trivial⟩
      simp only [List.length_cons]
      omega
    | some e =>
      simp only [hl]
      by_cases hf : 0 < e.freq
      · rw [if_pos hf]
        split
        · next hcmp =>
          clear hcmp
          refine ⟨?_, by rw [evictFromM_capacity]⟩
          simp only [s3Measure, evictFromM_sQueue, evictFromM_mlen, hq,
            List.length_append, List.length_cons, List.length_nil]
          omega
        · next hcmp =>
          clear hcmp
          refine ⟨?_, by trivial⟩
          simp only [s3Measure, hq, List.length_append, List.length_cons, List.length_nil]
          omega
      · rw [if_neg hf]
        refine ⟨?_, by rw [ghostAdd_capacity]⟩
        simp only [s3Measure, ghostAdd_sQueue, ghostAdd_mQueue, hq, List.length_cons]
        omega

theorem evictOne_measure (st : S3State) (hpos : 0 < s3Total st) :
    s3Measure (evictOne st) < s3Measure st ∧ (evictOne st).capacity = st.capacity := by
  unfold evictOne
  by_cases hs : 0 < st.sQueue.length
  · rw [if_pos hs]
    have hne : st.sQueue ≠ [] := by
      intro h
      rw [h] at hs
      exact absurd hs (by decide)
    exact evictFromS_measure st hne
  · rw [if_neg hs]
    have hm : 0 < st.mQueue.length := by
      unfold s3Total at hpos
      omega
    refine ⟨?_, evictFromM_capacity st⟩
    have h1 := evictFromM_sQueue st
    have h2 := evictFromM_mlen st
    simp only [s3Measure, h1, h2]
    omega

theorem evictLoop_le (fuel : Nat) (st : S3State)
    (hfuel : 2 * st.sQueue.length + st.mQueue.length ≤ fuel) :
    s3Total (evictLoop fuel st) ≤ st.capacity ∧
    (evictLoop fuel st).capacity = st.capacity := by
  induction fuel generalizing st with
  | zero =>
    have hs : st.sQueue.length = 0 := by omega
    have hm : st.mQueue.length = 0 := by omega
    simp [evictLoop, s3Total, hs, hm]
  | succ n ih =>
    unfold evictLoop
    by_cases hc : st.capacity < st.sQueue.length + st.mQueue.length
    · rw [if_pos hc]
      have hpos : 0 < s3Total st := by
        unfold s3Total
        omega
      have hm := evictOne_measure st hpos
      have hm' := hm.1
      unfold s3Measure at hm'
      have hrec := ih (evictOne st) (by omega)
      exact ⟨le_trans hrec.1 (le_of_eq hm.2), hrec.2.trans hm.2⟩
    · rw [if_neg hc]
      refine ⟨?_, rfl⟩
      unfold s3Total
      omega

theorem insertLocked_total (st : S3State) (k v : List Char) :
    s3Total (insertLocked st k v) ≤ max (s3Total st) st.capacity ∧
    (insertLocked st k v).capacity = st.capacity := by
  unfold insertLocked
  cases hl : entriesLookup st.entries k with
  | some e =>
    simp only [hl]
    refine ⟨?_, by trivial⟩
    have h := le_max_left (s3Total st) st.capacity
    simp only [s3Total] at h ⊢
    omega
  | none =>
    simp only [hl]
    by_cases hg : ghostContains st k
    · rw [if_pos hg]
      constructor
      · refine le_trans (evictLoop_le _ _ ?_).1 (le_max_right _ _)
        simp
      · refine (evictLoop_le _ _ ?_).2
        simp
    · rw [if_neg hg]
      constructor
      · refine le_trans (evictLoop_le _ _ ?_).1 (le_max_right _ _)
        simp
      · refine (evictLoop_le _ _ ?_).2
        simp

theorem applyCacheOp_total (st : S3State) (op : CacheOp) :
    s3Total (applyCacheOp st op) ≤ max (s3Total st) st.capacity ∧
    (applyCacheOp st op).capacity = st.capacity := by
  cases op with
  | get k =>
    simp only [applyCacheOp, s3Get]
    cases hl : entriesLookup st.entries k with
    | some e =>
      simp only [hl]
      refine ⟨?_, by trivial⟩
      have h := le_max_left (s3Total st) st.capacity
      simp only [s3Total] at h ⊢
      omega
    | none =>
      simp only [hl]
      cases hb : bkGet st.backing k with
      | none =>
        simp only [hb]
        exact ⟨le_max_left _ _, by trivial⟩
      | some token =>
        simp only [hb]
        exact insertLocked_total st k token
  | set k v =>
    simp only [applyCacheOp, s3Set]
    have h := insertLocked_total st k v
    exact ⟨h.1, h.2⟩
  | del k =>
    simp only [applyCacheOp, s3Delete, removeFromMemory]
    cases hl : entriesLookup st.entries k with
    | none =>
      simp only [hl]
      exact ⟨le_max_left _ _, by trivial⟩
    | some e =>
      simp only [hl]
      by_cases hm : e.inM
      · rw [if_pos hm]
        refine ⟨?_, by trivial⟩
        have h := List.length_erase_le k st.mQueue
        have : s3Total st ≤ max (s3Total st) st.capacity := le_max_left _ _
        simp only [s3Total] at this ⊢
        omega
      · rw [if_neg hm]
        refine ⟨?_, by trivial⟩
        have h := List.length_erase_le k st.sQueue
        have : s3Total st ≤ max (s3Total st) st.capacity := le_max_left _ _
        simp only [s3Total] at this ⊢
        omega

theorem runCacheOps_total (ops : List CacheOp) (st : S3State)
    (hinv : s3Total st ≤ st.capacity) :
    s3Total (runCacheOps st ops) ≤ st.capacity ∧
    (runCacheOps st ops).capacity = st.capacity := by
  induction ops generalizing st with
  | nil => exact ⟨hinv, rfl⟩
  | cons op rest ih =>
    have hstep := applyCacheOp_total st op
    have hle : s3Total (applyCacheOp st op) ≤ (applyCacheOp st op).capacity := by
      rw [hstep.2]
      have := hstep.1
      omega
    have hrec := ih (applyCacheOp st op) hle
    rw [hstep.2] at hrec
    exact hrec

/-- C8: for every sequence of Get/Set/Delete operations on the S3-FIFO
cache, the number of in-memory resident entries `|S| + |M|` stays within
the cache's capacity after every operation (every prefix of the
sequence). -/
theorem c8_s3fifo_capacity (backing : BStore) (capacity : Nat) (ops : List CacheOp)
    (i : Nat) :
    s3Total (runCacheOps (newS3FIFOCache backing capacity) (ops.take i))
      ≤ (newS3FIFOCache backing capacity).capacity := by
  exact (runCacheOps_total (ops.take i) (newS3FIFOCache backing capacity)
    (by simp [newS3FIFOCache, s3Total])).1


/-! ### Regex engine soundness lemmas -/

theorem ccAll_sound (cc : CClass) (tst : Char → Bool) (c : Char)
    (hall : ccAll cc tst = true) (hin : inClass cc c = true) : tst c = true := by
  rw [inClass, List.any_eq_true] at hin
  obtain ⟨r, hr, hcmp⟩ := hin
  rw [Bool.and_eq_true] at hcmp
  have h1 : r.1.toNat ≤ c.toNat := of_decide_eq_true hcmp.1
  have h2 : c.toNat ≤ r.2.toNat := of_decide_eq_true hcmp.2
  rw [ccAll, List.all_eq_true] at hall
  have hr' := hall r hr
  rw [List.all_eq_true] at hr'
  have hi := hr' (c.toNat - r.1.toNat) (by rw [List.mem_range]; omega)
  have he : r.1.toNat + (c.toNat - r.1.toNat) = c.toNat := by omega
  rw [he, Char.ofNat_toNat] at hi
  exact hi

/-- Every candidate's consumed part concatenated with its rest is the subject. -/
theorem reMatches_append : ∀ (fuel : Nat) (re : RE) (w : Bool) (s : List Char)
    (p : List Char × List Char), p ∈ reMatches fuel re w s → p.1 ++ p.2 = s := by
  intro fuel
  induction fuel with
  | zero => intro re w s p hp; simp [reMatches] at hp
  | succ n ih =>
    intro re w s p hp
    cases re with
    | eps =>
      simp [reMatches] at hp
      simp [hp]
    | cls cc =>
      cases s with
      | nil => simp [reMatches] at hp
      | cons ch r =>
        by_cases hc : inClass cc ch = true
        · simp [reMatches, hc] at hp
          simp [hp]
        · simp [reMatches, hc] at hp
    | seq a b =>
      simp only [reMatches, List.mem_flatMap, List.mem_map] at hp
      obtain ⟨q, hq, q', hq', hpe⟩ := hp
      have h1 := ih a w s q hq
      have h2 := ih b (lastWordFlag w q.1) q.2 q' hq'
      rw [← hpe]
      simp only [List.append_assoc, h2, h1]
    | alt a b =>
      simp only [reMatches, List.mem_append] at hp
      rcases hp with hp | hp
      · exact ih a w s p hp
      · exact ih b w s p hp
    | opt a =>
      simp only [reMatches, List.mem_append, List.mem_singleton] at hp
      rcases hp with hp | hp
      · exact ih a w s p hp
      · simp [hp]
    | star a =>
      simp only [reMatches, List.mem_append, List.mem_flatMap, List.mem_map,
        List.mem_filter, List.mem_singleton] at hp
      rcases hp with ⟨q, ⟨hq, _⟩, q', hq', hpe⟩ | hp
      · have h1 := ih a w s q hq
        have h2 := ih (.star a) (lastWordFlag w q.1) q.2 q' hq'
        rw [← hpe]
        simp only [List.append_assoc, h2, h1]
      · simp [hp]
    | wordB =>
      by_cases hc : (w != nextIsWord s) = true
      · simp [reMatches, hc] at hp
        simp [hp]
      · simp [reMatches, hc] at hp

/-- Every candidate consumes at least `minCount tst re` characters
satisfying `tst`. -/
theorem reMatches_count (tst : Char → Bool) : ∀ (fuel : Nat) (re : RE) (w : Bool)
    (s : List Char) (p : List Char × List Char), p ∈ reMatches fuel re w s →
    minCount tst re ≤ p.1.countP tst := by
  intro fuel
  induction fuel with
  | zero => intro re w s p hp; simp [reMatches] at hp
  | succ n ih =>
    intro re w s p hp
    cases re with
    | eps => simp [minCount]
    | cls cc =>
      cases s with
      | nil => simp [reMatches] at hp
      | cons ch r =>
        by_cases hc : inClass cc ch = true
        · simp [reMatches, hc] at hp
          by_cases ha : ccAll cc tst = true
          · have := ccAll_sound cc tst ch ha hc
            simp [minCount, ha, hp, List.countP_cons, this]
          · simp [minCount, ha]
        · simp [reMatches, hc] at hp
    | seq a b =>
      simp only [reMatches, List.mem_flatMap, List.mem_map] at hp
      obtain ⟨q, hq, q', hq', hpe⟩ := hp
      have h1 := ih a w s q hq
      have h2 := ih b (lastWordFlag w q.1) q.2 q' hq'
      rw [← hpe]
      simp only [minCount, List.countP_append]
      omega
    | alt a b =>
      simp only [reMatches, List.mem_append] at hp
      simp only [minCount]
      rcases hp with hp | hp
      · exact le_trans (min_le_left _ _) (ih a w s p hp)
      · exact le_trans (min_le_right _ _) (ih b w s p hp)
    | opt a => simp [minCount]
    | star a => simp [minCount]
    | wordB => simp [minCount]

/-- A regex that cannot match the empty string has no empty candidate. -/
theorem reMatches_ne : ∀ (fuel : Nat) (re : RE) (w : Bool) (s : List Char)
    (p : List Char × List Char), canEmpty re = false → p ∈ reMatches fuel re w s →
    p.1 ≠ [] := by
  intro fuel
  induction fuel with
  | zero => intro re w s p _ hp; simp [reMatches] at hp
  | succ n ih =>
    intro re w s p hne hp
    cases re with
    | eps => simp [canEmpty] at hne
    | cls cc =>
      cases s with
      | nil => simp [reMatches] at hp
      | cons ch r =>
        by_cases hc : inClass cc ch = true
        · simp [reMatches, hc] at hp
          simp [hp]
        · simp [reMatches, hc] at hp
    | seq a b =>
      simp only [canEmpty, Bool.and_eq_false_iff] at hne
      simp only [reMatches, List.mem_flatMap, List.mem_map] at hp
      obtain ⟨q, hq, q', hq', hpe⟩ := hp
      rw [← hpe]
      rcases hne with hne | hne
      · have := ih a w s q hne hq
        simp [this]
      · have := ih b (lastWordFlag w q.1) q.2 q' hne hq'
        simp [this]
    | alt a b =>
      simp only [canEmpty, Bool.or_eq_false_iff] at hne
      simp only [reMatches, List.mem_append] at hp
      rcases hp with hp | hp
      · exact ih a w s p hne.1 hp
      · exact ih b w s p hne.2 hp
    | opt a => simp [canEmpty] at hne
    | star a => simp [canEmpty] at hne
    | wordB => simp [canEmpty] at hne

/-- With `canEmpty re = false`, the empty subject admits no candidates. -/
theorem reMatches_nil (fuel : Nat) (re : RE) (w : Bool) (hne : canEmpty re = false) :
    reMatches fuel re w [] = [] := by
  rw [List.eq_nil_iff_forall_not_mem]
  intro p hp
  have h1 := reMatches_append fuel re w [] p hp
  have h2 := reMatches_ne fuel re w [] p hne hp
  have : p.1 = [] := by
    cases he : p.1 with
    | nil => rfl
    | cons c cs => rw [he] at h1; simp at h1
  exact h2 this

/-- Every nonempty candidate of a `mustStartIn tst` regex starts with a
character satisfying `tst`. -/
theorem reMatches_start (tst : Char → Bool) : ∀ (fuel : Nat) (re : RE) (w : Bool)
    (s : List Char) (p : List Char × List Char), mustStartIn tst re = true →
    p ∈ reMatches fuel re w s → p.1 ≠ [] →
    ∃ c cs, p.1 = c :: cs ∧ tst c = true := by
  intro fuel
  induction fuel with
  | zero => intro re w s p _ hp; simp [reMatches] at hp
  | succ n ih =>
    intro re w s p hms hp hne
    cases re with
    | eps =>
      simp [reMatches] at hp
      exact absurd (by simp [hp]) hne
    | cls cc =>
      cases s with
      | nil => simp [reMatches] at hp
      | cons ch r =>
        by_cases hc : inClass cc ch = true
        · simp [reMatches, hc] at hp
          refine ⟨ch, [], by simp [hp], ?_⟩
          exact ccAll_sound cc tst ch (by simpa [mustStartIn] using hms) hc
        · simp [reMatches, hc] at hp
    | seq a b =>
      simp only [reMatches, List.mem_flatMap, List.mem_map] at hp
      obtain ⟨q, hq, q', hq', hpe⟩ := hp
      by_cases hce : canEmpty a = true
      · simp [mustStartIn, hce] at hms
        cases hqe : q.1 with
        | nil =>
          have : p.1 = q'.1 := by rw [← hpe, hqe]; simp
          rw [this]
          exact ih b (lastWordFlag w q.1) q.2 q' hms.2 hq' (by rw [← this]; exact hne)
        | cons c cs =>
          obtain ⟨c', cs', hq1, htst⟩ := ih a w s q hms.1 hq (by simp [hqe])
          refine ⟨c', cs' ++ q'.1, ?_, htst⟩
          rw [← hpe, hq1]
          simp
      · have hce' : canEmpty a = false := by simpa using hce
        simp [mustStartIn, hce'] at hms
        have hqne := reMatches_ne n a w s q hce' hq
        obtain ⟨c', cs', hq1, htst⟩ := ih a w s q hms hq hqne
        refine ⟨c', cs' ++ q'.1, ?_, htst⟩
        rw [← hpe, hq1]
        simp
    | alt a b =>
      simp only [mustStartIn, Bool.and_eq_true] at hms
      simp only [reMatches, List.mem_append] at hp
      rcases hp with hp | hp
      · exact ih a w s p hms.1 hp hne
      · exact ih b w s p hms.2 hp hne
    | opt a =>
      simp only [reMatches, List.mem_append, List.mem_singleton] at hp
      rcases hp with hp | hp
      · exact ih a w s p (by simpa [mustStartIn] using hms) hp hne
      · rw [hp] at hne; simp at hne
    | star a =>
      simp only [reMatches, List.mem_append, List.mem_flatMap, List.mem_map,
        List.mem_filter, List.mem_singleton] at hp
      rcases hp with ⟨q, ⟨hq, hqne⟩, q', hq', hpe⟩ | hp
      · obtain ⟨c', cs', hq1, htst⟩ := ih a w s q (by simpa [mustStartIn] using hms) hq
          (by simpa using hqne)
        refine ⟨c', cs' ++ q'.1, ?_, htst⟩
        rw [← hpe, hq1]
        simp
      · rw [hp] at hne; simp at hne
    | wordB =>
      by_cases hc : (w != nextIsWord s) = true
      · simp [reMatches, hc] at hp
        rw [hp] at hne; simp at hne
      · simp [reMatches, hc] at hp

/-- A regex whose first mandatory element is `\b` has no candidates when
the word-context flag agrees with the word status of the next character. -/
theorem reMatches_leadWB : ∀ (fuel : Nat) (re : RE) (w : Bool) (s : List Char),
    leadWB re = true → w = nextIsWord s → reMatches fuel re w s = [] := by
  intro fuel
  induction fuel with
  | zero => intro re w s _ _; rfl
  | succ n ih =>
    intro re w s hl hw
    cases re with
    | eps => simp [leadWB] at hl
    | cls cc => simp [leadWB] at hl
    | seq a b =>
      have h : reMatches n a w s = [] := ih a w s (by simpa [leadWB] using hl) hw
      simp [reMatches, h]
    | alt a b => simp [leadWB] at hl
    | opt a => simp [leadWB] at hl
    | star a => simp [leadWB] at hl
    | wordB =>
      have h : (w != nextIsWord s) = false := by rw [hw]; simp
      simp [reMatches, h]

/-- Extension lemma: appending context that begins with a character that
no class of `re` accepts and that is not a word character does not change
the candidates — the context is carried along unconsumed. -/
theorem reMatches_ext (c : Char) (s2 : List Char) (hwc : isWordChar c = false) :
    ∀ (fuel : Nat) (re : RE) (w : Bool) (s1 : List Char), blocksChar re c = true →
    reMatches fuel re w (s1 ++ c :: s2) =
      (reMatches fuel re w s1).map (fun p => (p.1, p.2 ++ c :: s2)) := by
  intro fuel
  induction fuel with
  | zero => intro re w s1 _; rfl
  | succ n ih =>
    intro re w s1 hblk
    cases re with
    | eps => simp [reMatches]
    | cls cc =>
      cases s1 with
      | nil =>
        have h : inClass cc c = false := by simpa [blocksChar] using hblk
        simp [reMatches, h]
      | cons d r =>
        by_cases hd : inClass cc d = true
        · simp [reMatches, hd]
        · simp [reMatches, hd]
    | seq a b =>
      simp only [blocksChar, Bool.and_eq_true] at hblk
      simp only [reMatches]
      rw [ih a w s1 hblk.1]
      generalize reMatches n a w s1 = A
      induction A with
      | nil => rfl
      | cons p arest iha =>
        simp only [List.map_cons, List.flatMap_cons, List.map_append, iha]
        congr 1
        rw [ih b (lastWordFlag w p.1) p.2 hblk.2]
        simp [List.map_map, Function.comp]
    | alt a b =>
      simp only [blocksChar, Bool.and_eq_true] at hblk
      simp only [reMatches]
      rw [ih a w s1 hblk.1, ih b w s1 hblk.2, List.map_append]
    | opt a =>
      simp only [blocksChar] at hblk
      simp only [reMatches]
      rw [ih a w s1 hblk, List.map_append]
      rfl
    | star a =>
      simp only [blocksChar] at hblk
      simp only [reMatches]
      rw [ih a w s1 hblk]
      rw [List.map_append]
      congr 1
      · rw [List.filter_map]
        have hpred : ((fun p : List Char × List Char => !p.1.isEmpty) ∘
            (fun p : List Char × List Char => (p.1, p.2 ++ c :: s2))) =
            fun p : List Char × List Char => !p.1.isEmpty := by
          funext p; rfl
        rw [hpred]
        generalize (reMatches n a w s1).filter (fun p => !p.1.isEmpty) = A
        induction A with
        | nil => rfl
        | cons p arest iha =>
          simp only [List.map_cons, List.flatMap_cons, List.map_append, iha]
          congr 1
          rw [ih (.star a) (lastWordFlag w p.1) p.2 (by simpa [blocksChar] using hblk)]
          simp [List.map_map, Function.comp]
    | wordB =>
      cases s1 with
      | nil =>
        have h1 : nextIsWord ([] ++ c :: s2) = false := by simpa [nextIsWord] using hwc
        have h2 : nextIsWord ([] : List Char) = false := by simp [nextIsWord]
        simp only [reMatches, h1, h2]
        cases w <;> simp
      | cons d r =>
        simp only [reMatches]
        have h : nextIsWord ((d :: r) ++ c :: s2) = nextIsWord (d :: r) := by
          simp [nextIsWord]
        rw [h]
        by_cases hc : (w != nextIsWord (d :: r)) = true
        · simp [hc]
        · simp at hc
          simp [hc]

/-! ### Scan-level lemmas -/

theorem head?_mem {α : Type} {l : List α} {x : α} (h : l.head? = some x) : x ∈ l := by
  cases l with
  | nil => simp [List.head?] at h
  | cons a t =>
    simp [List.head?] at h
    simp [h]

theorem lastWordFlag_nil (w : Bool) : lastWordFlag w [] = w := rfl

theorem lastWordFlag_cons (w : Bool) (c : Char) (r : List Char) :
    lastWordFlag w (c :: r) = lastWordFlag (isWordChar c) r := by
  cases r with
  | nil => rfl
  | cons d t =>
    rw [lastWordFlag, lastWordFlag, List.getLast?_cons_cons]
    cases h : (d :: t).getLast? with
    | none => simp at h
    | some ch => rfl

theorem lastWordFlag_append (w : Bool) (x y : List Char) :
    lastWordFlag w (x ++ y) = lastWordFlag (lastWordFlag w x) y := by
  induction x generalizing w with
  | nil => rw [List.nil_append, lastWordFlag_nil]
  | cons c x' ih => rw [List.cons_append, lastWordFlag_cons, ih, lastWordFlag_cons]

theorem scanGo_zero (mf : Nat) (re : RE) (w : Bool) (s : List Char) :
    scanGo mf re 0 w s = s.map .lit := rfl

theorem scanGo_nil (mf : Nat) (re : RE) (fuel : Nat) (w : Bool) :
    scanGo mf re (fuel + 1) w [] = [] := rfl

theorem scanGo_cons_none (mf : Nat) (re : RE) (fuel : Nat) (w : Bool) (c : Char)
    (rest : List Char) (hm : matchHead mf re w (c :: rest) = none) :
    scanGo mf re (fuel + 1) w (c :: rest) =
      .lit c :: scanGo mf re fuel (isWordChar c) rest := by
  rw [scanGo, hm]

theorem scanGo_cons_some (mf : Nat) (re : RE) (fuel : Nat) (w : Bool) (c : Char)
    (rest m r : List Char) (hm : matchHead mf re w (c :: rest) = some (m, r))
    (hme : m.isEmpty = false) :
    scanGo mf re (fuel + 1) w (c :: rest) =
      .mtch m :: scanGo mf re fuel (lastWordFlag w m) r := by
  rw [scanGo, hm]
  simp [hme]

/-- A reported match plus its rest reassemble the subject. -/
theorem matchHead_append (mf : Nat) (re : RE) (w : Bool) (s m r : List Char)
    (h : matchHead mf re w s = some (m, r)) : m ++ r = s :=
  reMatches_append mf re w s (m, r) (head?_mem h)

/-- With `canEmpty re = false` a reported match is nonempty. -/
theorem matchHead_ne (mf : Nat) (re : RE) (w : Bool) (s m r : List Char)
    (hce : canEmpty re = false) (h : matchHead mf re w s = some (m, r)) : m ≠ [] :=
  reMatches_ne mf re w s (m, r) hce (head?_mem h)

/-- `scanGo` ignores its step fuel beyond the subject length. -/
theorem scanGo_fuel (mf : Nat) (re : RE) (hce : canEmpty re = false) :
    ∀ (fuel1 fuel2 : Nat) (w : Bool) (s : List Char),
    s.length ≤ fuel1 → s.length ≤ fuel2 →
    scanGo mf re fuel1 w s = scanGo mf re fuel2 w s := by
  intro fuel1
  induction fuel1 with
  | zero =>
    intro fuel2 w s h1 _
    have hs : s = [] := by
      cases s with
      | nil => rfl
      | cons c r => simp at h1
    subst hs
    cases fuel2 <;> rfl
  | succ n1 ih =>
    intro fuel2 w s h1 h2
    cases s with
    | nil => cases fuel2 <;> rfl
    | cons c rest =>
      cases fuel2 with
      | zero => simp at h2
      | succ n2 =>
        cases hm : matchHead mf re w (c :: rest) with
        | none =>
          rw [scanGo_cons_none mf re n1 w c rest hm, scanGo_cons_none mf re n2 w c rest hm]
          rw [ih n2 (isWordChar c) rest (by simp at h1; omega) (by simp at h2; omega)]
        | some p =>
          obtain ⟨m, r⟩ := p
          have hmr := matchHead_append mf re w (c :: rest) m r hm
          have hmn := matchHead_ne mf re w (c :: rest) m r hce hm
          have hml : 1 ≤ m.length := by
            cases m with
            | nil => exact absurd rfl hmn
            | cons a b => simp
          have hrl : r.length + m.length = rest.length + 1 := by
            have h := congrArg List.length hmr
            simp at h
            omega
          have hme : m.isEmpty = false := by
            cases m with
            | nil => exact absurd rfl hmn
            | cons a b => rfl
          rw [scanGo_cons_some mf re n1 w c rest m r hm hme,
            scanGo_cons_some mf re n2 w c rest m r hm hme]
          rw [ih n2 (lastWordFlag w m) r (by simp at h1; omega) (by simp at h2; omega)]

/-- Scanning a subject followed by context that begins with `[` (or is
empty) splits into the scan of the subject and the scan of the context. -/
theorem scanGo_split (mf : Nat) (re : RE) (hce : canEmpty re = false)
    (hblk : blocksChar re '[' = true) :
    ∀ (fuel : Nat) (r ctx : List Char) (w : Bool),
    (ctx = [] ∨ ctx.head? = some '[') → r.length + ctx.length ≤ fuel →
    scanGo mf re fuel w (r ++ ctx) =
      scanGo mf re r.length w r ++ scanGo mf re ctx.length (lastWordFlag w r) ctx := by
  intro fuel
  induction fuel with
  | zero =>
    intro r ctx w hctx hlen
    have hr : r = [] := by
      cases r with
      | nil => rfl
      | cons a b => simp at hlen
    have hc : ctx = [] := by
      cases ctx with
      | nil => rfl
      | cons a b => simp at hlen
    subst hr; subst hc; rfl
  | succ n ih =>
    intro r ctx w hctx hlen
    cases r with
    | nil =>
      simp only [List.nil_append, List.length_nil, scanGo_zero, List.map_nil, lastWordFlag_nil]
      rw [scanGo_fuel mf re hce (n + 1) ctx.length w ctx (by simpa using hlen) (le_refl _)]
    | cons c r' =>
      rcases hctx with hc0 | hc0
      · subst hc0
        simp only [List.append_nil, List.length_nil, scanGo_zero, List.map_nil,
          List.append_nil]
        rw [scanGo_fuel mf re hce (n + 1) (c :: r').length w (c :: r')
          (by simpa using hlen) (le_refl _)]
      · obtain ⟨s2, rfl⟩ : ∃ s2, ctx = '[' :: s2 := by
          cases ctx with
          | nil => simp at hc0
          | cons a b =>
            simp [List.head?] at hc0
            exact ⟨b, by rw [hc0]⟩
        have hext := reMatches_ext '[' s2 (by decide) mf re w (c :: r') hblk
        have hmh : matchHead mf re w ((c :: r') ++ '[' :: s2) =
            (matchHead mf re w (c :: r')).map (fun p => (p.1, p.2 ++ '[' :: s2)) := by
          rw [matchHead, matchHead, hext, List.head?_map]
        cases hm : matchHead mf re w (c :: r') with
        | none =>
          have hl : matchHead mf re w (c :: (r' ++ '[' :: s2)) = none := by
            have := hmh
            rw [hm] at this
            simpa using this
          rw [List.cons_append, scanGo_cons_none mf re n w c (r' ++ '[' :: s2) hl]
          rw [List.length_cons, scanGo_cons_none mf re r'.length w c r' hm]
          rw [ih r' ('[' :: s2) (isWordChar c) (Or.inr rfl) (by simp at hlen ⊢; omega)]
          rw [lastWordFlag_cons]
          simp
        | some p =>
          obtain ⟨m, rest1⟩ := p
          have hmr := matchHead_append mf re w (c :: r') m rest1 hm
          have hmn := matchHead_ne mf re w (c :: r') m rest1 hce hm
          have hme : m.isEmpty = false := by
            cases m with
            | nil => exact absurd rfl hmn
            | cons a b => rfl
          have hml : 1 ≤ m.length := by
            cases m with
            | nil => exact absurd rfl hmn
            | cons a b => simp
          have hlen1 : rest1.length + m.length = r'.length + 1 := by
            have h := congrArg List.length hmr
            simp at h
            omega
          have hl : matchHead mf re w (c :: (r' ++ '[' :: s2)) =
              some (m, rest1 ++ '[' :: s2) := by
            have := hmh
            rw [hm] at this
            simpa using this
          rw [List.cons_append, scanGo_cons_some mf re n w c (r' ++ '[' :: s2) m
            (rest1 ++ '[' :: s2) hl hme]
          rw [List.length_cons, scanGo_cons_some mf re r'.length w c r' m rest1 hm hme]
          rw [ih rest1 ('[' :: s2) (lastWordFlag w m) (Or.inr rfl)
            (by simp at hlen ⊢; omega)]
          rw [scanGo_fuel mf re hce r'.length rest1.length (lastWordFlag w m) rest1
            (by omega) (le_refl _)]
          have hw : lastWordFlag w (c :: r') = lastWordFlag (lastWordFlag w m) rest1 := by
            rw [← hmr, lastWordFlag_append]
          rw [hw]
          simp

/-- A region where no position admits any candidate scans to literals. -/
theorem scanGo_lits (mf : Nat) (re : RE) (hce : canEmpty re = false) :
    ∀ (v : List Char) (ctx : List Char) (fuel : Nat) (w : Bool),
    (∀ pre suf, v = pre ++ suf → suf ≠ [] →
      reMatches mf re (lastWordFlag w pre) (suf ++ ctx) = []) →
    v.length + ctx.length ≤ fuel →
    scanGo mf re fuel w (v ++ ctx) =
      v.map .lit ++ scanGo mf re ctx.length (lastWordFlag w v) ctx := by
  intro v
  induction v with
  | nil =>
    intro ctx fuel w _ hlen
    simp only [List.nil_append, List.map_nil, List.nil_append, lastWordFlag_nil]
    rw [scanGo_fuel mf re hce fuel ctx.length w ctx (by simpa using hlen) (le_refl _)]
  | cons c v' ih =>
    intro ctx fuel w hv hlen
    have h0 := hv [] (c :: v') rfl (by simp)
    rw [lastWordFlag_nil] at h0
    have hmh : matchHead mf re w ((c :: v') ++ ctx) = none := by
      rw [matchHead, h0]
      rfl
    cases fuel with
    | zero => simp at hlen
    | succ n =>
      rw [List.cons_append] at hmh
      rw [List.cons_append, scanGo_cons_none mf re n w c (v' ++ ctx) hmh]
      rw [ih ctx n (isWordChar c) ?hv' (by simp at hlen ⊢; omega)]
      · rw [lastWordFlag_cons]
        simp
      case hv' =>
        intro pre suf hsplit hsuf
        have := hv (c :: pre) suf (by rw [hsplit, List.cons_append]) hsuf
        rw [lastWordFlag_cons] at this
        exact this

/-! ### Character facts -/

theorem char_eq_of_toNat {a b : Char} (h : a.toNat = b.toNat) : a = b := by
  apply Char.eq_of_val_eq
  apply UInt32.eq_of_val_eq
  apply Fin.eq_of_val_eq
  exact h

theorem char_beq_false_of_toNat {a b : Char} (h : a.toNat ≠ b.toNat) : (a == b) = false :=
  beq_eq_false_iff_ne.mpr fun he => h (by rw [he])

theorem upperB_bounds (c : Char) (h : upperB c = true) : 65 ≤ c.toNat ∧ c.toNat ≤ 90 := by
  rw [upperB, Bool.and_eq_true, decide_eq_true_eq, decide_eq_true_eq] at h
  exact h

theorem hex_bounds (c : Char) (h : isHexLower c = true) :
    (48 ≤ c.toNat ∧ c.toNat ≤ 57) ∨ (97 ≤ c.toNat ∧ c.toNat ≤ 102) := by
  rw [isHexLower] at h
  simp only [Bool.or_eq_true, Bool.and_eq_true, decide_eq_true_eq] at h
  exact h

theorem word_of_toNat (c : Char)
    (h : (48 ≤ c.toNat ∧ c.toNat ≤ 57) ∨ (65 ≤ c.toNat ∧ c.toNat ≤ 90) ∨
      (97 ≤ c.toNat ∧ c.toNat ≤ 122) ∨ c.toNat = 95) : isWordChar c = true := by
  rw [isWordChar]
  simp only [Bool.or_eq_true, Bool.and_eq_true, decide_eq_true_eq]
  rcases h with ⟨h1, h2⟩ | ⟨h1, h2⟩ | ⟨h1, h2⟩ | h1
  · exact Or.inl (Or.inl (Or.inl ⟨h1, h2⟩))
  · exact Or.inl (Or.inl (Or.inr ⟨h1, h2⟩))
  · exact Or.inl (Or.inr ⟨h1, h2⟩)
  · exact Or.inr (char_eq_of_toNat h1)

theorem upperB_word (c : Char) (h : upperB c = true) : isWordChar c = true :=
  word_of_toNat c (Or.inr (Or.inl (upperB_bounds c h)))

theorem hex_word (c : Char) (h : isHexLower c = true) : isWordChar c = true := by
  rcases hex_bounds c h with h1 | h1
  · exact word_of_toNat c (Or.inl h1)
  · exact word_of_toNat c (Or.inr (Or.inr (Or.inl ⟨h1.1, by omega⟩)))

/-- If every character of the class fails `tst` holders, a `tst` character
is outside the class. -/
theorem inClass_false_of_tst (cc : CClass) (tst : Char → Bool) (c : Char)
    (hall : ccAll cc (fun x => !tst x) = true) (hc : tst c = true) :
    inClass cc c = false := by
  cases h : inClass cc c with
  | false => rfl
  | true =>
    have := ccAll_sound cc (fun x => !tst x) c hall h
    simp [hc] at this

/-! ### Facts about the token digest -/

theorem hexChar_hex (d : Nat) (h : d < 16) : isHexLower (hexChar d) = true := by
  interval_cases d <;> decide

theorem md5hex8_hex (s : List Char) : ∀ c ∈ md5hex8 s, isHexLower c = true := by
  intro c hc
  have hc2 := List.mem_of_mem_take hc
  rw [bytesToHex, List.mem_flatMap] at hc2
  obtain ⟨b, _, hb⟩ := hc2
  simp only [List.mem_cons, List.mem_singleton] at hb
  rcases hb with rfl | rfl | h
  · exact hexChar_hex _ (by omega)
  · exact hexChar_hex _ (by omega)
  · simp at h

theorem md5hex8_len (s : List Char) : (md5hex8 s).length ≤ 8 := by
  rw [md5hex8]
  exact List.length_take_le 8 _

/-! ### Facts about token interiors -/

/-- Every uppercased kind name consists of uppercase letters. -/
theorem kindTys_upper : ∀ ty ∈ kindTys, (toUpperStr ty).all upperB = true := by decide

/-- Every character of a token interior is `P`, `I`, an uppercase letter,
an underscore, or a lowercase hex digit. -/
theorem tokInner_chars (ty : List Char) (hty : ty ∈ kindTys) (orig : List Char) :
    ∀ c ∈ tokInner ty orig, upperB c = true ∨ c = '_' ∨ isHexLower c = true := by
  intro c hc
  rw [tokInner] at hc
  simp only [List.append_assoc, List.mem_append] at hc
  rcases hc with hc | hc | hc | hc
  · simp only [List.mem_cons] at hc
    rcases hc with rfl | rfl | rfl | rfl | h
    · exact Or.inl (by decide)
    · exact Or.inl (by decide)
    · exact Or.inl (by decide)
    · exact Or.inr (Or.inl rfl)
    · simp at h
  · have := kindTys_upper ty hty
    rw [List.all_eq_true] at this
    exact Or.inl (this c hc)
  · simp only [List.mem_singleton] at hc
    exact Or.inr (Or.inl hc)
  · exact Or.inr (Or.inr (md5hex8_hex orig c hc))

/-- Every character of a token interior is a word character. -/
theorem tokInner_word (ty : List Char) (hty : ty ∈ kindTys) (orig : List Char) :
    ∀ c ∈ tokInner ty orig, isWordChar c = true := by
  intro c hc
  rcases tokInner_chars ty hty orig c hc with h | rfl | h
  · exact upperB_word c h
  · decide
  · exact hex_word c h

/-- The token rewritten as bracket, interior, bracket. -/
theorem replacement_eq (ty orig : List Char) :
    replacement ty orig = '[' :: (tokInner ty orig ++ [']']) := by
  rw [replacement, tokInner]
  simp

/-! ### Interior counting facts -/

theorem countP_tokInner_zero (tst : Char → Bool) (ty : List Char) (hty : ty ∈ kindTys)
    (orig : List Char) (hU : ∀ c, upperB c = true → tst c = false)
    (hH : ∀ c, isHexLower c = true → tst c = false) (hu : tst '_' = false) :
    (tokInner ty orig).countP tst = 0 := by
  rw [List.countP_eq_zero]
  intro c hc
  rcases tokInner_chars ty hty orig c hc with h | rfl | h
  · simp [hU c h]
  · simp [hu]
  · simp [hH c h]

theorem countP_tokInner_digit (ty : List Char) (hty : ty ∈ kindTys) (orig : List Char) :
    (tokInner ty orig).countP (inClass digitCls) ≤ 8 := by
  have he : tokInner ty orig =
      ("PII_".data ++ toUpperStr ty ++ "_".data) ++ md5hex8 orig := by
    rw [tokInner]
  rw [he, List.countP_append]
  have h1 : List.countP (inClass digitCls) ("PII_".data ++ toUpperStr ty ++ "_".data) = 0 := by
    rw [List.countP_eq_zero]
    intro c hc
    have hcc : upperB c = true ∨ c = '_' := by
      simp only [List.mem_append] at hc
      rcases hc with (hc | hc) | hc
      · fin_cases hc <;> decide
      · have hup := kindTys_upper ty hty
        rw [List.all_eq_true] at hup
        exact Or.inl (hup c hc)
      · fin_cases hc <;> decide
    rcases hcc with h | rfl
    · simp [inClass_false_of_tst digitCls upperB c (by decide) h]
    · decide
  have h4 : (md5hex8 orig).countP (inClass digitCls) ≤ (md5hex8 orig).length :=
    List.countP_le_length _
  have h5 := md5hex8_len orig
  omega

/-- No candidates at all when the subject has fewer `tst` characters than
every match must consume. -/
theorem noCands_count (mf : Nat) (re : RE) (w : Bool) (s : List Char) (tst : Char → Bool)
    (hcnt : s.countP tst < minCount tst re) : reMatches mf re w s = [] := by
  rw [List.eq_nil_iff_forall_not_mem]
  intro p hp
  have h1 := reMatches_count tst mf re w s p hp
  have h2 := reMatches_append mf re w s p hp
  have h3 : p.1.countP tst ≤ s.countP tst := by
    rw [← h2, List.countP_append]
    omega
  omega

theorem hintP_of_count (re : RE) (tst : Char → Bool)
    (h8 : ∀ ty ∈ kindTys, ∀ orig, (tokInner ty orig).countP tst < minCount tst re) :
    HintP re := by
  intro ty hty orig mf pre suf hsplit hsuf
  apply noCands_count mf re _ suf tst
  have hle : suf.countP tst ≤ (tokInner ty orig).countP tst := by
    rw [hsplit, List.countP_append]
    omega
  exact lt_of_le_of_lt hle (h8 ty hty orig)

/-! ### Per-pattern interior facts -/

theorem hintP_email : HintP emailRE := by
  apply hintP_of_count emailRE (fun c => c == '@')
  intro ty hty orig
  rw [show minCount (fun c => c == '@') emailRE = 1 from by decide]
  rw [countP_tokInner_zero _ ty hty orig ?hU ?hH (by decide)]
  · omega
  case hU =>
    intro c h
    have hb := upperB_bounds c h
    exact char_beq_false_of_toNat (by have : ('@').toNat = 64 := rfl; omega)
  case hH =>
    intro c h
    have hb := hex_bounds c h
    exact char_beq_false_of_toNat (by have : ('@').toNat = 64 := rfl; omega)

theorem hintP_apikey : HintP apikeyRE := by
  apply hintP_of_count apikeyRE (inClass apikeySepCls)
  intro ty hty orig
  rw [show minCount (inClass apikeySepCls) apikeyRE = 1 from by decide]
  rw [countP_tokInner_zero _ ty hty orig ?hU ?hH (by decide)]
  · omega
  case hU =>
    intro c h
    exact inClass_false_of_tst apikeySepCls upperB c (by decide) h
  case hH =>
    intro c h
    exact inClass_false_of_tst apikeySepCls isHexLower c (by decide) h

theorem hintP_address : HintP addressRE := by
  apply hintP_of_count addressRE (inClass wsCls)
  intro ty hty orig
  rw [show minCount (inClass wsCls) addressRE = 1 from by decide]
  rw [countP_tokInner_zero _ ty hty orig ?hU ?hH (by decide)]
  · omega
  case hU =>
    intro c h
    exact inClass_false_of_tst wsCls upperB c (by decide) h
  case hH =>
    intro c h
    exact inClass_false_of_tst wsCls isHexLower c (by decide) h

theorem hintP_ipv6 : HintP ipv6RE := by
  apply hintP_of_count ipv6RE (fun c => c == ':')
  intro ty hty orig
  rw [show minCount (fun c => c == ':') ipv6RE = 2 from by decide]
  rw [countP_tokInner_zero _ ty hty orig ?hU ?hH (by decide)]
  · omega
  case hU =>
    intro c h
    have hb := upperB_bounds c h
    exact char_beq_false_of_toNat (by have : (':').toNat = 58 := rfl; omega)
  case hH =>
    intro c h
    have hb := hex_bounds c h
    exact char_beq_false_of_toNat (by have : (':').toNat = 58 := rfl; omega)

theorem hintP_ipv4 : HintP ipv4RE := by
  apply hintP_of_count ipv4RE (fun c => c == '.')
  intro ty hty orig
  rw [show minCount (fun c => c == '.') ipv4RE = 3 from by decide]
  rw [countP_tokInner_zero _ ty hty orig ?hU ?hH (by decide)]
  · omega
  case hU =>
    intro c h
    have hb := upperB_bounds c h
    exact char_beq_false_of_toNat (by have : ('.').toNat = 46 := rfl; omega)
  case hH =>
    intro c h
    have hb := hex_bounds c h
    exact char_beq_false_of_toNat (by have : ('.').toNat = 46 := rfl; omega)

theorem hintP_ssn : HintP ssnRE := by
  apply hintP_of_count ssnRE (inClass digitCls)
  intro ty hty orig
  rw [show minCount (inClass digitCls) ssnRE = 9 from by decide]
  have := countP_tokInner_digit ty hty orig
  omega

theorem hintP_creditCard : HintP creditCardRE := by
  apply hintP_of_count creditCardRE (inClass digitCls)
  intro ty hty orig
  rw [show minCount (inClass digitCls) creditCardRE = 16 from by decide]
  have := countP_tokInner_digit ty hty orig
  omega

theorem hintP_phone : HintP phoneRE := by
  apply hintP_of_count phoneRE (inClass digitCls)
  intro ty hty orig
  rw [show minCount (inClass digitCls) phoneRE = 10 from by decide]
  have := countP_tokInner_digit ty hty orig
  omega

theorem hintP_zip : HintP zipRE := by
  intro ty hty orig mf pre suf hsplit hsuf
  cases suf with
  | nil => exact absurd rfl hsuf
  | cons d t =>
    by_cases hd : inClass digitCls d = true
    · have hword : isWordChar d = true := ccAll_sound digitCls isWordChar d (by decide) hd
      apply reMatches_leadWB mf zipRE _ (d :: t) (by decide)
      have hnw : nextIsWord (d :: t) = true := by
        rw [nextIsWord, hword]
      rw [hnw]
      rcases List.eq_nil_or_concat pre with rfl | ⟨p', a, rfl⟩
      · rw [List.nil_append] at hsplit
        have hdP : d = 'P' := by
          have h := congrArg List.head? hsplit
          rw [tokInner] at h
          simp at h
          exact h.symm
        rw [hdP] at hd
        simp [inClass, digitCls] at hd
      · rw [List.concat_eq_append, lastWordFlag_append]
        have ha : a ∈ tokInner ty orig := by
          rw [hsplit, List.concat_eq_append]
          simp
        have hw := tokInner_word ty hty orig a ha
        rw [show lastWordFlag (lastWordFlag false p') [a] = isWordChar a from rfl, hw]
    · rw [List.eq_nil_iff_forall_not_mem]
      intro p hp
      have hne := reMatches_ne mf zipRE _ _ p (by decide) hp
      obtain ⟨c, cs, hc1, hc2⟩ :=
        reMatches_start (inClass digitCls) mf zipRE _ _ p (by decide) hp hne
      have happ := reMatches_append mf zipRE _ _ p hp
      rw [hc1] at happ
      have hcd : c = d := by
        have h := congrArg List.head? happ
        simpa using h
      rw [hcd] at hc2
      exact absurd hc2 (by simpa using hd)

/-! ### Scanning a token in context -/

theorem scan_tok (mf : Nat) (re : RE) (hce : canEmpty re = false)
    (hblk1 : blocksChar re '[' = true) (hblk2 : blocksChar re ']' = true)
    (hint : HintP re) (ty : List Char) (hty : ty ∈ kindTys) (m ctx : List Char)
    (fuel : Nat) (w0 : Bool) (hfuel : (replacement ty m).length + ctx.length ≤ fuel) :
    scanGo mf re fuel w0 (replacement ty m ++ ctx) =
      (replacement ty m).map .lit ++ scanGo mf re ctx.length false ctx := by
  have hlast : lastWordFlag w0 (replacement ty m) = false := by
    rw [replacement_eq, lastWordFlag_cons, lastWordFlag_append]
    rfl
  have hv : ∀ pre suf, replacement ty m = pre ++ suf → suf ≠ [] →
      reMatches mf re (lastWordFlag w0 pre) (suf ++ ctx) = [] := by
    intro pre suf hsplit hsuf
    rw [replacement_eq] at hsplit
    cases pre with
    | nil =>
      rw [List.nil_append] at hsplit
      subst hsplit
      rw [lastWordFlag_nil, List.cons_append]
      have hext := reMatches_ext '[' ((tokInner ty m ++ [']']) ++ ctx) (by decide)
        mf re w0 [] hblk1
      rw [List.nil_append] at hext
      rw [hext, reMatches_nil mf re w0 hce]
      rfl
    | cons c0 pre' =>
      have hc0 : c0 = '[' := by
        have h := congrArg List.head? hsplit
        simpa using h.symm
      subst hc0
      have hI : tokInner ty m ++ [']'] = pre' ++ suf := by
        have h := congrArg List.tail hsplit
        simpa using h
      have hslast : suf.getLast hsuf = ']' := by
        rw [← List.getLast_append' pre' suf hsuf]
        have h3 : (tokInner ty m ++ [']'] : List Char) ≠ [] := by simp
        have hgl : (tokInner ty m ++ [']']).getLast h3 = ']' := by
          rw [List.getLast_append' (tokInner ty m) [']'] (by simp)]
          rfl
        rw [← hgl]
        congr 1
        exact hI.symm
      have hsplit2 : suf = suf.dropLast ++ [']'] := by
        conv_lhs => rw [← List.dropLast_append_getLast hsuf]
        rw [hslast]
      have hI2 : tokInner ty m = pre' ++ suf.dropLast := by
        have h : (pre' ++ suf.dropLast) ++ [']'] = tokInner ty m ++ [']'] := by
          rw [List.append_assoc, ← hsplit2, hI]
        exact (List.append_cancel_right h).symm
      rw [lastWordFlag_cons, show isWordChar '[' = false from rfl]
      rw [hsplit2, List.append_assoc, List.singleton_append]
      have hext := reMatches_ext ']' ctx (by decide) mf re (lastWordFlag false pre')
        suf.dropLast hblk2
      rw [hext]
      cases hsd : suf.dropLast with
      | nil =>
        rw [reMatches_nil mf re _ hce]
        rfl
      | cons x xs =>
        rw [← hsd, hint ty hty m mf pre' suf.dropLast hI2 (by rw [hsd]; simp)]
        rfl
  have h := scanGo_lits mf re hce (replacement ty m) ctx fuel w0 hv hfuel
  rw [h, hlast]

/-! ### Scanning a rendered segment list -/

theorem scan_render (mf : Nat) (re : RE) (t : List Char) (hce : canEmpty re = false)
    (hblk1 : blocksChar re '[' = true) (hblk2 : blocksChar re ']' = true)
    (hint : HintP re) :
    ∀ (segs : List Seg) (fuel : Nat) (w : Bool), SegsWF t segs →
    (match segs with | .raw _ :: _ => w = false | _ => True) →
    (render segs).length ≤ fuel →
    scanGo mf re fuel w (render segs) = segs.flatMap (segChunks mf re) := by
  intro segs
  induction segs with
  | nil =>
    intro fuel w _ _ _
    cases fuel <;> rfl
  | cons sg rest ih =>
    intro fuel w hwf hw hfuel
    cases sg with
    | raw r =>
      obtain ⟨hr, hbf, hinf, halt, hwf'⟩ := hwf
      have hctx : render rest = [] ∨ (render rest).head? = some '[' := by
        cases rest with
        | nil => exact Or.inl rfl
        | cons sg2 rest2 =>
          cases sg2 with
          | raw r2 => exact absurd halt (by simp)
          | tok ty2 m2 =>
            apply Or.inr
            rw [show render (.tok ty2 m2 :: rest2) = replacement ty2 m2 ++ render rest2
              from rfl, replacement_eq]
            rfl
      rw [show (w = false) from hw]
      rw [show render (.raw r :: rest) = r ++ render rest from rfl] at hfuel ⊢
      rw [scanGo_split mf re hce hblk1 fuel r (render rest) false hctx
        (by simpa using hfuel)]
      rw [ih (render rest).length (lastWordFlag false r) hwf' (by
        cases rest with
        | nil => trivial
        | cons sg2 rest2 =>
          cases sg2 with
          | raw r2 => exact absurd halt (by simp)
          | tok ty2 m2 => trivial) (le_refl _)]
      rfl
    | tok ty m =>
      obtain ⟨hty, hbm, hinfm, hwf'⟩ := hwf
      rw [show render (.tok ty m :: rest) = replacement ty m ++ render rest from rfl]
        at hfuel ⊢
      rw [scan_tok mf re hce hblk1 hblk2 hint ty hty m (render rest) fuel w
        (by simpa using hfuel)]
      rw [ih (render rest).length false hwf' (by
        cases rest with
        | nil => trivial
        | cons sg2 rest2 =>
          cases sg2 with
          | raw r2 => rfl
          | tok ty2 m2 => trivial) (le_refl _)]
      rfl

/-! ### The nine compiled patterns satisfy the scan hypotheses -/

theorem patOK : ∀ p ∈ compiledPatterns, canEmpty p.re = false ∧
    blocksChar p.re '[' = true ∧ blocksChar p.re ']' = true ∧ HintP p.re ∧
    p.piiType ∈ kindTys := by
  intro p hp
  simp only [compiledPatterns, List.mem_cons, List.not_mem_nil, or_false] at hp
  rcases hp with rfl | rfl | rfl | rfl | rfl | rfl | rfl | rfl | rfl
  · exact ⟨by decide, by decide, by decide, hintP_email, by decide⟩
  · exact ⟨by decide, by decide, by decide, hintP_apikey, by decide⟩
  · exact ⟨by decide, by decide, by decide, hintP_ssn, by decide⟩
  · exact ⟨by decide, by decide, by decide, hintP_creditCard, by decide⟩
  · exact ⟨by decide, by decide, by decide, hintP_address, by decide⟩
  · exact ⟨by decide, by decide, by decide, hintP_ipv6, by decide⟩
  · exact ⟨by decide, by decide, by decide, hintP_ipv4, by decide⟩
  · exact ⟨by decide, by decide, by decide, hintP_phone, by decide⟩
  · exact ⟨by decide, by decide, by decide, hintP_zip, by decide⟩

theorem filterMap_lits (f : Chunk → Option (List Char)) (hf : ∀ c, f (.lit c) = none)
    (l : List Char) : (l.map Chunk.lit).filterMap f = [] := by
  induction l with
  | nil => rfl
  | cons c t ih =>
    rw [List.map_cons, List.filterMap_cons, hf]
    exact ih

/-- C3 (working form): no compiled pattern finds any match inside a
produced token, for any of the twelve kinds and any original value. -/
theorem token_no_match (ty : List Char) (hty : ty ∈ kindTys) (orig : List Char)
    (p : Pattern) (hp : p ∈ compiledPatterns) :
    matchList p.re (replacement ty orig) = [] := by
  obtain ⟨hce, hb1, hb2, hint, _⟩ := patOK p hp
  rw [matchList, scanStr]
  have h := scan_tok (matchFuel p.re (replacement ty orig).length) p.re hce
    hb1 hb2 hint ty hty orig [] (replacement ty orig).length false (by simp)
  rw [List.append_nil] at h
  rw [h]
  rw [show scanGo (matchFuel p.re (replacement ty orig).length) p.re
    ([] : List Char).length false [] = [] from rfl]
  rw [List.append_nil]
  exact filterMap_lits _ (fun c => rfl) _

/-! ### Session-map lemmas -/

theorem tokenForMatch_empty (cfg : AnonCfg) (p : Pattern) (m : List Char) :
    tokenForMatch cfg [] p m = replacement p.piiType m := by
  rw [tokenForMatch]
  split
  · rfl
  · rfl

theorem sessionsLookup_set_self (ss : Sessions) (sid : List Char) (inner : SessionInner) :
    sessionsLookup (sessionsSet ss sid inner) sid = inner := by
  induction ss with
  | nil => simp [sessionsSet, sessionsLookup, List.find?]
  | cons pr rest ih =>
    by_cases h : pr.1 == sid
    · simp [sessionsSet, h, sessionsLookup, List.find?]
    · simp only [sessionsSet, h, Bool.false_eq_true, if_false]
      rw [sessionsLookup, List.find?]
      simp only [h]
      exact ih

theorem recordMapping_lookup (ss : Sessions) (sid tk v : List Char) (hsid : sid ≠ []) :
    sessionsLookup (recordMapping ss sid tk v) sid =
      innerUpsert (sessionsLookup ss sid) tk v := by
  rw [recordMapping]
  rw [if_neg (by simpa [List.isEmpty_iff] using hsid)]
  exact sessionsLookup_set_self ss sid _

theorem innerLookup_upsert_self (m : SessionInner) (tk v : List Char) :
    innerLookup (innerUpsert m tk v) tk = some v := by
  induction m with
  | nil => simp [innerUpsert, innerLookup, List.find?]
  | cons pr rest ih =>
    by_cases h : pr.1 == tk
    · simp [innerUpsert, h, innerLookup, List.find?]
    · simp only [innerUpsert, h, Bool.false_eq_true, if_false]
      rw [innerLookup, List.find?]
      simp only [h]
      exact ih

theorem innerLookup_upsert_other (m : SessionInner) (tk v tk' : List Char)
    (h : tk' ≠ tk) : innerLookup (innerUpsert m tk v) tk' = innerLookup m tk' := by
  induction m with
  | nil =>
    rw [innerUpsert, innerLookup, innerLookup, List.find?, List.find?]
    have h1 : (tk == tk') = false := beq_eq_false_iff_ne.mpr (fun he => h he.symm)
    simp [h1]
  | cons pr rest ih =>
    by_cases hh : pr.1 == tk
    · have hpr : pr.1 = tk := by simpa using hh
      rw [innerUpsert]
      simp only [hh, if_true]
      rw [innerLookup, innerLookup, List.find?, List.find?]
      have h1 : (tk == tk') = false := by simpa using fun he => absurd he.symm h
      have h2 : (pr.1 == tk') = false := by
        rw [hpr]
        simpa using fun he => absurd he.symm h
      simp [h1, h2]
    · rw [innerUpsert]
      simp only [hh, Bool.false_eq_true, if_false]
      rw [innerLookup, innerLookup, List.find?, List.find?]
      by_cases h3 : pr.1 == tk'
      · simp [h3]
      · simp only [h3, Bool.false_eq_true, if_false]
        exact ih

theorem innerUpsert_mem (m : SessionInner) (tk v : List Char)
    (pr : List Char × List Char) (h : pr ∈ innerUpsert m tk v) :
    pr = (tk, v) ∨ pr ∈ m := by
  induction m with
  | nil => simpa [innerUpsert] using h
  | cons q rest ih =>
    by_cases hh : q.1 == tk
    · simp only [innerUpsert, hh, if_true, List.mem_cons] at h
      rcases h with rfl | h
      · exact Or.inl rfl
      · exact Or.inr (List.mem_cons_of_mem q h)
    · simp only [innerUpsert, hh, Bool.false_eq_true, if_false, List.mem_cons] at h
      rcases h with rfl | h
      · exact Or.inr (List.mem_cons_self _ _)
      · rcases ih h with h1 | h1
        · exact Or.inl h1
        · exact Or.inr (List.mem_cons_of_mem q h1)

theorem innerLookup_mem (m : SessionInner) (tk v : List Char)
    (h : innerLookup m tk = some v) : (tk, v) ∈ m := by
  rw [innerLookup] at h
  cases hf : m.find? fun p => p.1 == tk with
  | none => rw [hf] at h; simp at h
  | some pr =>
    rw [hf] at h
    simp only [Option.map_some', Option.some.injEq] at h
    have hm := List.mem_of_find?_eq_some hf
    have hk : pr.1 = tk := by simpa using List.find?_some hf
    have he : pr = (tk, v) := by
      obtain ⟨a, b⟩ := pr
      simp only [Prod.mk.injEq]
      exact ⟨hk, h⟩
    rw [← he]
    exact hm

theorem innerLookup_cons_other (q : List Char × List Char) (rest : SessionInner)
    (tk : List Char) (h : q.1 ≠ tk) :
    innerLookup (q :: rest) tk = innerLookup rest tk := by
  rw [innerLookup, List.find?]
  simp only [show (q.1 == tk) = false by simpa using h]
  rfl

/-! ### Digest length and token injectivity -/

theorem bytesToHex_len (bs : List Nat) : (bytesToHex bs).length = 2 * bs.length := by
  induction bs with
  | nil => rfl
  | cons b rest ih =>
    rw [bytesToHex] at ih ⊢
    simp only [List.flatMap_cons, List.length_append, ih]
    simp
    omega

theorem md5Sum_len (msg : List Nat) : (md5Sum msg).length = 16 := by
  rw [md5Sum]
  simp [wordLE]

theorem md5hex8_len_eq (s : List Char) : (md5hex8 s).length = 8 := by
  rw [md5hex8, List.length_take, bytesToHex_len, md5Sum_len]
  omega

/-- Equal tokens have equal digests. -/
theorem replacement_digest (ty1 m1 ty2 m2 : List Char)
    (h : replacement ty1 m1 = replacement ty2 m2) : md5hex8 m1 = md5hex8 m2 := by
  rw [replacement_eq, replacement_eq] at h
  have h2 : tokInner ty1 m1 ++ [']'] = tokInner ty2 m2 ++ [']'] := by
    simpa using h
  have h3 : tokInner ty1 m1 = tokInner ty2 m2 := List.append_cancel_right h2
  rw [tokInner, tokInner] at h3
  simp only [List.append_assoc] at h3
  have h4 : toUpperStr ty1 ++ ("_".data ++ md5hex8 m1) =
      toUpperStr ty2 ++ ("_".data ++ md5hex8 m2) := List.append_cancel_left h3
  have h5 : (toUpperStr ty1 ++ "_".data) ++ md5hex8 m1 =
      (toUpperStr ty2 ++ "_".data) ++ md5hex8 m2 := by
    simpa [List.append_assoc] using h4
  have hlen : (md5hex8 m1).length = (md5hex8 m2).length := by
    rw [md5hex8_len_eq, md5hex8_len_eq]
  exact (List.append_inj' h5 hlen).2

/-! ### Chunk flattening facts -/

theorem flatten_map_lit (l : List Char) : (l.map Chunk.lit).flatMap chunkText = l := by
  induction l with
  | nil => rfl
  | cons c t ih =>
    rw [List.map_cons, List.flatMap_cons, ih]
    rfl

theorem scanGo_flatten (mf : Nat) (re : RE) (hce : canEmpty re = false) :
    ∀ (fuel : Nat) (w : Bool) (s : List Char),
    (scanGo mf re fuel w s).flatMap chunkText = s := by
  intro fuel
  induction fuel with
  | zero => intro w s; exact flatten_map_lit s
  | succ n ih =>
    intro w s
    cases s with
    | nil => rfl
    | cons c rest =>
      cases hm : matchHead mf re w (c :: rest) with
      | none =>
        rw [scanGo_cons_none mf re n w c rest hm, List.flatMap_cons, ih]
        rfl
      | some p =>
        obtain ⟨m, r⟩ := p
        have hmn := matchHead_ne mf re w _ m r hce hm
        have hme : m.isEmpty = false := by
          cases hx : m with
          | nil => exact absurd hx hmn
          | cons a b => rfl
        rw [scanGo_cons_some mf re n w c rest m r hm hme, List.flatMap_cons, ih]
        rw [chunkText]
        exact matchHead_append mf re w _ m r hm

theorem scanGo_mtch_ne (mf : Nat) (re : RE) (hce : canEmpty re = false) :
    ∀ (fuel : Nat) (w : Bool) (s m : List Char),
    Chunk.mtch m ∈ scanGo mf re fuel w s → m ≠ [] := by
  intro fuel
  induction fuel with
  | zero =>
    intro w s m hm
    rw [scanGo_zero] at hm
    rw [List.mem_map] at hm
    obtain ⟨c, _, hc⟩ := hm
    cases hc
  | succ n ih =>
    intro w s m hm
    cases s with
    | nil => cases hm
    | cons c rest =>
      cases hmh : matchHead mf re w (c :: rest) with
      | none =>
        rw [scanGo_cons_none mf re n w c rest hmh, List.mem_cons] at hm
        rcases hm with hm | hm
        · cases hm
        · exact ih (isWordChar c) rest m hm
      | some p =>
        obtain ⟨m0, r⟩ := p
        have hmn := matchHead_ne mf re w _ m0 r hce hmh
        have hme : m0.isEmpty = false := by
          cases hx : m0 with
          | nil => exact absurd hx hmn
          | cons a b => rfl
        rw [scanGo_cons_some mf re n w c rest m0 r hmh hme, List.mem_cons] at hm
        rcases hm with hm | hm
        · cases hm; exact hmn
        · exact ih (lastWordFlag w m0) r m hm

theorem infix_of_flatten (CL : List Chunk) (s : List Char)
    (hfl : CL.flatMap chunkText = s) (m : List Char) (hm : Chunk.mtch m ∈ CL) :
    m <:+: s := by
  induction CL generalizing s with
  | nil => cases hm
  | cons ch CL' ih =>
    rw [List.flatMap_cons] at hfl
    rw [List.mem_cons] at hm
    rcases hm with hm | hm
    · rw [← hm] at hfl
      exact ⟨[], CL'.flatMap chunkText, by simpa using hfl⟩
    · have h := ih (CL'.flatMap chunkText) rfl hm
      rw [← hfl]
      exact h.trans (List.suffix_append _ _).isInfix

/-! ### Facts about `segsOfChunks` -/

theorem segsOfChunks_lit (ty : List Char) (c : Char) (CL : List Chunk) :
    render (segsOfChunks ty (.lit c :: CL)) = c :: render (segsOfChunks ty CL) ∧
    restore (segsOfChunks ty (.lit c :: CL)) = c :: restore (segsOfChunks ty CL) := by
  cases h : segsOfChunks ty CL with
  | nil => rw [segsOfChunks, h]; exact ⟨rfl, rfl⟩
  | cons sg tl =>
    cases sg with
    | raw r =>
      rw [segsOfChunks, h]
      exact ⟨rfl, rfl⟩
    | tok ty2 m =>
      rw [segsOfChunks, h]
      exact ⟨rfl, rfl⟩

theorem segsOfChunks_render (ty : List Char) (f : Chunk → List Char)
    (hf1 : ∀ c, f (.lit c) = [c]) (hf2 : ∀ m, f (.mtch m) = replacement ty m) :
    ∀ CL : List Chunk, render (segsOfChunks ty CL) = CL.flatMap f := by
  intro CL
  induction CL with
  | nil => rfl
  | cons ch rest ih =>
    cases ch with
    | lit c =>
      rw [(segsOfChunks_lit ty c rest).1, List.flatMap_cons, hf1, ih]
      rfl
    | mtch m =>
      rw [segsOfChunks, List.flatMap_cons, hf2, ← ih]
      rfl

theorem segsOfChunks_restore (ty : List Char) :
    ∀ CL : List Chunk, restore (segsOfChunks ty CL) = CL.flatMap chunkText := by
  intro CL
  induction CL with
  | nil => rfl
  | cons ch rest ih =>
    cases ch with
    | lit c =>
      rw [(segsOfChunks_lit ty c rest).2, List.flatMap_cons, ih]
      rfl
    | mtch m =>
      rw [segsOfChunks, List.flatMap_cons, ← ih]
      rfl

theorem segsOfChunks_tok_mem (ty : List Char) :
    ∀ (CL : List Chunk) (ty2 m : List Char), Seg.tok ty2 m ∈ segsOfChunks ty CL →
    ty2 = ty ∧ Chunk.mtch m ∈ CL := by
  intro CL
  induction CL with
  | nil => intro ty2 m hm; cases hm
  | cons ch rest ih =>
    intro ty2 m hm
    cases ch with
    | lit c =>
      rw [segsOfChunks] at hm
      have hm2 : Seg.tok ty2 m ∈ segsOfChunks ty rest := by
        cases h : segsOfChunks ty rest with
        | nil => rw [h] at hm; simp at hm
        | cons sg tl =>
          rw [h] at hm
          cases sg with
          | raw r =>
            simp only [List.mem_cons] at hm
            rcases hm with hm | hm
            · cases hm
            · exact List.mem_cons_of_mem _ hm
          | tok ty3 m3 =>
            simp only [List.mem_cons] at hm
            rcases hm with hm | hm
            · cases hm
            · exact List.mem_cons.mpr hm
      obtain ⟨h1, h2⟩ := ih ty2 m hm2
      exact ⟨h1, List.mem_cons_of_mem _ h2⟩
    | mtch m0 =>
      rw [segsOfChunks, List.mem_cons] at hm
      rcases hm with hm | hm
      · cases hm
        exact ⟨rfl, List.mem_cons_self _ _⟩
      · obtain ⟨h1, h2⟩ := ih ty2 m hm
        exact ⟨h1, List.mem_cons_of_mem _ h2⟩

theorem bracketFree_infix {x y : List Char} (h : x <:+: y) (hy : bracketFree y = true) :
    bracketFree x = true := by
  rw [bracketFree, List.all_eq_true] at hy ⊢
  intro c hc
  exact hy c (h.subset hc)

theorem segsOfChunks_wf (t ty : List Char) (hty : ty ∈ kindTys) :
    ∀ (CL : List Chunk) (r : List Char), CL.flatMap chunkText = r → r <:+: t →
    bracketFree r = true → SegsWF t (segsOfChunks ty CL) := by
  intro CL
  induction CL with
  | nil => intro r _ _ _; trivial
  | cons ch rest ih =>
    intro r hfl hinf hbf
    have hrest : (rest.flatMap chunkText) <:+: t := by
      refine List.IsInfix.trans ?_ hinf
      rw [← hfl, List.flatMap_cons]
      exact (List.suffix_append _ _).isInfix
    have hbfrest : bracketFree (rest.flatMap chunkText) = true := by
      refine bracketFree_infix ?_ hbf
      rw [← hfl, List.flatMap_cons]
      exact (List.suffix_append _ _).isInfix
    have ihr := ih (rest.flatMap chunkText) rfl hrest hbfrest
    cases ch with
    | lit c =>
      have hc : c ∈ r := by
        rw [← hfl, List.flatMap_cons]
        simp [chunkText]
      have hcb : (!(c == '[') && !(c == ']')) = true := by
        rw [bracketFree, List.all_eq_true] at hbf
        exact hbf c hc
      have hcr : [c] ++ rest.flatMap chunkText = r := by
        rw [← hfl, List.flatMap_cons]
        rfl
      rw [segsOfChunks]
      cases h : segsOfChunks ty rest with
      | nil =>
        refine ⟨by simp, by simp [bracketFree, hcb], ?_, trivial, trivial⟩
        refine List.IsInfix.trans ?_ hinf
        rw [← hcr]
        exact (List.prefix_append _ _).isInfix
      | cons sg tl =>
        cases sg with
        | raw r0 =>
          rw [h] at ihr
          obtain ⟨hr0ne, hr0bf, hr0inf, hr0alt, hr0wf⟩ := ihr
          have hpre : r0 <+: rest.flatMap chunkText := by
            have hres := segsOfChunks_restore ty rest
            rw [h] at hres
            exact ⟨restore tl, hres⟩
          refine ⟨by simp, ?_, ?_, hr0alt, hr0wf⟩
          · rw [bracketFree, List.all_cons, Bool.and_eq_true]
            exact ⟨hcb, by rw [bracketFree] at hr0bf; exact hr0bf⟩
          · refine List.IsInfix.trans ?_ hinf
            rw [← hcr]
            obtain ⟨tl2, htl2⟩ := hpre
            refine ⟨[], tl2, ?_⟩
            rw [List.nil_append, List.singleton_append, List.cons_append, htl2]
        | tok ty3 m3 =>
          rw [h] at ihr
          refine ⟨by simp, by simp [bracketFree, hcb], ?_, trivial, ihr⟩
          refine List.IsInfix.trans ?_ hinf
          rw [← hcr]
          exact (List.prefix_append _ _).isInfix
    | mtch m =>
      rw [segsOfChunks]
      have hmpre : m <+: r := by
        rw [← hfl, List.flatMap_cons]
        exact ⟨rest.flatMap chunkText, rfl⟩
      refine ⟨hty, bracketFree_infix hmpre.isInfix hbf, hmpre.isInfix.trans hinf, ihr⟩

/-! ### Segment list concatenation -/

theorem render_append (A B : List Seg) : render (A ++ B) = render A ++ render B := by
  induction A with
  | nil => rfl
  | cons sg A' ih =>
    cases sg with
    | raw r => rw [List.cons_append, render, render, ih, List.append_assoc]
    | tok ty m => rw [List.cons_append, render, render, ih, List.append_assoc]

theorem restore_append (A B : List Seg) : restore (A ++ B) = restore A ++ restore B := by
  induction A with
  | nil => rfl
  | cons sg A' ih =>
    cases sg with
    | raw r => rw [List.cons_append, restore, restore, ih, List.append_assoc]
    | tok ty m => rw [List.cons_append, restore, restore, ih, List.append_assoc]

theorem SegsWF_append (t : List Char) : ∀ (A B : List Seg), SegsWF t A → SegsWF t B →
    (∀ r rB B2, A.getLast? = some (Seg.raw r) → B = Seg.raw rB :: B2 → False) →
    SegsWF t (A ++ B) := by
  intro A
  induction A with
  | nil => intro B _ hB _; exact hB
  | cons sg A' ih =>
    intro B hA hB hj
    have hj' : ∀ r rB B2, A'.getLast? = some (Seg.raw r) → B = Seg.raw rB :: B2 → False := by
      intro r rB B2 hlast hBe
      refine hj r rB B2 ?_ hBe
      cases A' with
      | nil => simp at hlast
      | cons s2 A'' =>
        rw [List.getLast?_cons_cons]
        exact hlast
    cases sg with
    | raw r =>
      obtain ⟨hr, hbf, hinf, halt, hwf'⟩ := hA
      refine ⟨hr, hbf, hinf, ?_, ih B hwf' hB hj'⟩
      cases A' with
      | nil =>
        cases hBe : B with
        | nil => exact trivial
        | cons sgB B2 =>
          cases sgB with
          | raw rB => exact (hj r rB B2 rfl hBe).elim
          | tok tyB mB => exact trivial
      | cons sg2 A'' =>
        cases sg2 with
        | raw r2 => exact halt.elim
        | tok ty2 m2 => exact trivial
    | tok ty m =>
      obtain ⟨hty, hbm, hinf, hwf'⟩ := hA
      exact ⟨hty, hbm, hinf, ih B hwf' hB hj'⟩

/-! ### `chunkRecs` unfolding and invariant -/

theorem chunkRecs_nil (cfg : AnonCfg) (cache : Cache) (p : Pattern) (sid : List Char)
    (ss : Sessions) : chunkRecs cfg cache p sid [] ss = ss := rfl

theorem chunkRecs_lit (cfg : AnonCfg) (cache : Cache) (p : Pattern) (sid : List Char)
    (c : Char) (CL : List Chunk) (ss : Sessions) :
    chunkRecs cfg cache p sid (.lit c :: CL) ss = chunkRecs cfg cache p sid CL ss := rfl

theorem chunkRecs_mtch (cfg : AnonCfg) (cache : Cache) (p : Pattern) (sid : List Char)
    (m : List Char) (CL : List Chunk) (ss : Sessions) :
    chunkRecs cfg cache p sid (.mtch m :: CL) ss =
      chunkRecs cfg cache p sid CL
        (recordMapping ss sid (tokenForMatch cfg cache p m) m) := rfl

theorem chunkRecs_inv (cfg : AnonCfg) (p : Pattern) (sid t : List Char) (hsid : sid ≠ [])
    (hty : p.piiType ∈ kindTys) (hinj : HashInj t) :
    ∀ (CL : List Chunk) (ss : Sessions),
    (∀ m, Chunk.mtch m ∈ CL → m <:+: t ∧ m ≠ []) →
    InnerOK t (sessionsLookup ss sid) →
    InnerOK t (sessionsLookup (chunkRecs cfg [] p sid CL ss) sid) ∧
    (∀ tk v, innerLookup (sessionsLookup ss sid) tk = some v →
      innerLookup (sessionsLookup (chunkRecs cfg [] p sid CL ss) sid) tk = some v) ∧
    (∀ m, Chunk.mtch m ∈ CL →
      innerLookup (sessionsLookup (chunkRecs cfg [] p sid CL ss) sid)
        (replacement p.piiType m) = some m) := by
  intro CL
  induction CL with
  | nil =>
    intro ss _ hok
    exact ⟨hok, fun tk v h => h, fun m hm => absurd hm (by simp)⟩
  | cons ch rest ih =>
    intro ss hCL hok
    cases ch with
    | lit c =>
      rw [chunkRecs_lit]
      have h := ih ss (fun m hm => hCL m (List.mem_cons_of_mem _ hm)) hok
      refine ⟨h.1, h.2.1, ?_⟩
      intro m hm
      rcases List.mem_cons.mp hm with hm | hm
      · cases hm
      · exact h.2.2 m hm
    | mtch m =>
      rw [chunkRecs_mtch]
      have hm0 := hCL m (List.mem_cons_self _ _)
      have hinner1 : sessionsLookup (recordMapping ss sid (tokenForMatch cfg [] p m) m) sid
          = innerUpsert (sessionsLookup ss sid) (replacement p.piiType m) m := by
        rw [recordMapping_lookup _ _ _ _ hsid, tokenForMatch_empty]
      have hok1 : InnerOK t (sessionsLookup
          (recordMapping ss sid (tokenForMatch cfg [] p m) m) sid) := by
        rw [hinner1]
        intro pr hpr
        rcases innerUpsert_mem _ _ _ pr hpr with rfl | hpr'
        · exact ⟨p.piiType, hty, rfl, hm0.1, hm0.2⟩
        · exact hok pr hpr'
      have hpres1 : ∀ tk' v, innerLookup (sessionsLookup ss sid) tk' = some v →
          innerLookup (sessionsLookup
            (recordMapping ss sid (tokenForMatch cfg [] p m) m) sid) tk' = some v := by
        intro tk' v hv
        rw [hinner1]
        by_cases he : tk' = replacement p.piiType m
        · subst he
          have hmem := innerLookup_mem _ _ _ hv
          obtain ⟨ty0, hty0, heq, hvinf, hvne⟩ := hok _ hmem
          have hd := replacement_digest ty0 v p.piiType m (by rw [← heq])
          have hvm : v = m := hinj v m hvinf hm0.1 hd
          subst hvm
          rw [innerLookup_upsert_self]
        · rw [innerLookup_upsert_other _ _ _ _ he]
          exact hv
      have hself1 : innerLookup (sessionsLookup
          (recordMapping ss sid (tokenForMatch cfg [] p m) m) sid)
          (replacement p.piiType m) = some m := by
        rw [hinner1, innerLookup_upsert_self]
      have h := ih (recordMapping ss sid (tokenForMatch cfg [] p m) m)
        (fun m2 hm2 => hCL m2 (List.mem_cons_of_mem _ hm2)) hok1
      refine ⟨h.1, fun tk' v hv => h.2.1 tk' v (hpres1 tk' v hv), ?_⟩
      intro m2 hm2
      rcases List.mem_cons.mp hm2 with heq2 | hm2
      · cases heq2
        exact h.2.1 _ _ hself1
      · exact h.2.2 m2 hm2

/-! ### `applyPattern` as replaced chunks plus recordings -/

theorem applyPattern_eq (cfg : AnonCfg) (cache : Cache) (sid : List Char) (p : Pattern)
    (cur : List Char) (ss : Sessions) :
    applyPattern cfg cache sid (cur, ss) p =
      ((scanStr p.re cur).flatMap (chunkOutTok cfg cache p),
       chunkRecs cfg cache p sid (scanStr p.re cur) ss) := by
  rw [applyPattern]
  have h : ∀ (CL : List Chunk) (pre : List Char) (s0 : Sessions),
      CL.foldl (fun st ch =>
        match ch with
        | .lit c => (st.1 ++ [c], st.2)
        | .mtch m =>
          let tok := tokenForMatch cfg cache p m
          (st.1 ++ tok, recordMapping st.2 sid tok m)) (pre, s0) =
      (pre ++ CL.flatMap (chunkOutTok cfg cache p), chunkRecs cfg cache p sid CL s0) := by
    intro CL
    induction CL with
    | nil => intro pre s0; simp [chunkRecs_nil]
    | cons ch rest ihc =>
      intro pre s0
      cases ch with
      | lit c =>
        rw [List.foldl_cons]
        rw [show (match Chunk.lit c with
          | .lit c => (pre ++ [c], s0)
          | .mtch m =>
            let tok := tokenForMatch cfg cache p m
            (pre ++ tok, recordMapping s0 sid tok m)) = (pre ++ [c], s0) from rfl]
        rw [ihc (pre ++ [c]) s0, chunkRecs_lit]
        rw [List.flatMap_cons]
        rw [show chunkOutTok cfg cache p (.lit c) = [c] from rfl]
        rw [List.append_assoc]
      | mtch m =>
        rw [List.foldl_cons]
        rw [show (match Chunk.mtch m with
          | .lit c => (pre ++ [c], s0)
          | .mtch m =>
            let tok := tokenForMatch cfg cache p m
            (pre ++ tok, recordMapping s0 sid tok m)) =
          (pre ++ tokenForMatch cfg cache p m,
            recordMapping s0 sid (tokenForMatch cfg cache p m) m) from rfl]
        rw [ihc _ _, chunkRecs_mtch]
        rw [List.flatMap_cons]
        rw [show chunkOutTok cfg cache p (.mtch m) = tokenForMatch cfg cache p m from rfl]
        rw [List.append_assoc]
  rw [h]
  rw [List.nil_append]

/-! ### Per-pattern pass over a segment list -/

theorem render_flatMap (f : Seg → List Seg) (l : List Seg) :
    render (l.flatMap f) = l.flatMap (fun sg => render (f sg)) := by
  induction l with
  | nil => rfl
  | cons sg rest ih => rw [List.flatMap_cons, render_append, ih, List.flatMap_cons]

theorem flatMap_flatMap {α β γ : Type} (l : List α) (f : α → List β) (g : β → List γ) :
    (l.flatMap f).flatMap g = l.flatMap (fun x => (f x).flatMap g) := by
  induction l with
  | nil => rfl
  | cons x rest ih => rw [List.flatMap_cons, List.flatMap_append, ih, List.flatMap_cons]

theorem flatMap_lit_out (g : Chunk → List Char) (hg : ∀ c, g (Chunk.lit c) = [c]) :
    ∀ l : List Char, (l.map Chunk.lit).flatMap g = l := by
  intro l
  induction l with
  | nil => rfl
  | cons c rest ih => rw [List.map_cons, List.flatMap_cons, hg, ih]; rfl

theorem segRepl_render (cfg : AnonCfg) (p : Pattern) (mfv : Nat) (sg : Seg) :
    render (segRepl cfg [] p mfv sg) =
      (segChunks mfv p.re sg).flatMap (chunkOutTok cfg [] p) := by
  cases sg with
  | raw r =>
    rw [segRepl, segChunks]
    exact segsOfChunks_render p.piiType (chunkOutTok cfg [] p) (fun c => rfl)
      (fun m => tokenForMatch_empty cfg p m) _
  | tok ty m =>
    rw [segRepl, segChunks]
    rw [flatMap_lit_out _ (fun c => rfl)]
    rw [render, render, List.append_nil]

theorem segRepl_restore (cfg : AnonCfg) (p : Pattern) (mfv : Nat)
    (hce : canEmpty p.re = false) :
    ∀ segs : List Seg, restore (segs.flatMap (segRepl cfg [] p mfv)) = restore segs := by
  intro segs
  induction segs with
  | nil => rfl
  | cons sg rest ih =>
    rw [List.flatMap_cons, restore_append, ih]
    cases sg with
    | raw r =>
      rw [segRepl, segsOfChunks_restore, scanGo_flatten mfv p.re hce]
      rfl
    | tok ty m =>
      rw [segRepl]
      rw [show restore [Seg.tok ty m] = m from by rw [restore, restore, List.append_nil]]
      rfl

theorem segRepl_wf (cfg : AnonCfg) (p : Pattern) (mfv : Nat) (t : List Char)
    (hce : canEmpty p.re = false) (hty : p.piiType ∈ kindTys) :
    ∀ segs : List Seg, SegsWF t segs → SegsWF t (segs.flatMap (segRepl cfg [] p mfv)) := by
  intro segs
  induction segs with
  | nil => intro _; trivial
  | cons sg rest ih =>
    intro hwf
    rw [List.flatMap_cons]
    cases sg with
    | raw r =>
      obtain ⟨hr, hbf, hinf, halt, hwf'⟩ := hwf
      have hA : SegsWF t (segRepl cfg [] p mfv (.raw r)) := by
        rw [segRepl]
        exact segsOfChunks_wf t p.piiType hty _ r (scanGo_flatten mfv p.re hce _ _ _)
          hinf hbf
      refine SegsWF_append t _ _ hA (ih hwf') ?_
      intro r0 rB B2 _ hBe
      cases hrest : rest with
      | nil => rw [hrest] at hBe; cases hBe
      | cons sg2 rest2 =>
        cases sg2 with
        | raw r2 =>
          rw [hrest] at halt
          exact halt
        | tok ty2 m2 =>
          rw [hrest, List.flatMap_cons, segRepl] at hBe
          cases hBe
    | tok ty2 m2 =>
      obtain ⟨hty2, hbm, hinf, hwf'⟩ := hwf
      refine SegsWF_append t _ _ ⟨hty2, hbm, hinf, trivial⟩ (ih hwf') ?_
      intro r0 rB B2 hlast _
      rw [segRepl] at hlast
      cases hlast

theorem segRepl_tok_mem (cfg : AnonCfg) (p : Pattern) (mfv : Nat) (segs : List Seg)
    (ty m : List Char) (hm : Seg.tok ty m ∈ segs.flatMap (segRepl cfg [] p mfv)) :
    Seg.tok ty m ∈ segs ∨
      (ty = p.piiType ∧ Chunk.mtch m ∈ segs.flatMap (segChunks mfv p.re)) := by
  rw [List.mem_flatMap] at hm
  obtain ⟨sg, hsg, hmem⟩ := hm
  cases sg with
  | raw r =>
    rw [segRepl] at hmem
    obtain ⟨h1, h2⟩ := segsOfChunks_tok_mem p.piiType _ ty m hmem
    refine Or.inr ⟨h1, ?_⟩
    rw [List.mem_flatMap]
    exact ⟨.raw r, hsg, h2⟩
  | tok ty2 m2 =>
    rw [segRepl, List.mem_singleton] at hmem
    cases hmem
    exact Or.inl hsg

theorem segChunks_mtch (mfv : Nat) (re : RE) (hce : canEmpty re = false) (t : List Char) :
    ∀ segs : List Seg, SegsWF t segs → ∀ m : List Char,
    Chunk.mtch m ∈ segs.flatMap (segChunks mfv re) → m <:+: t ∧ m ≠ [] := by
  intro segs
  induction segs with
  | nil => intro _ m hm; cases hm
  | cons sg0 rest ih =>
    intro hwf m hm
    rw [List.flatMap_cons, List.mem_append] at hm
    rcases hm with hm | hm
    · cases sg0 with
      | raw r =>
        have hinf : r <:+: t := hwf.2.2.1
        rw [segChunks] at hm
        exact ⟨(infix_of_flatten _ r (scanGo_flatten mfv re hce _ _ _) m hm).trans hinf,
          scanGo_mtch_ne mfv re hce _ _ _ _ hm⟩
      | tok ty2 m2 =>
        rw [segChunks, List.mem_map] at hm
        obtain ⟨c, _, hc⟩ := hm
        cases hc
    · cases sg0 with
      | raw r => exact ih hwf.2.2.2.2 m hm
      | tok ty0 m0 => exact ih hwf.2.2.2 m hm

/-! ### One full `applyPattern` pass preserves the decomposition -/

theorem applyPattern_step (cfg : AnonCfg) (t sid : List Char) (hsid : sid ≠ [])
    (hinj : HashInj t) (p : Pattern) (hp : p ∈ compiledPatterns) (segs : List Seg)
    (ss : Sessions) (hwf : SegsWF t segs)
    (hinv : InvMap segs (sessionsLookup ss sid))
    (hok : InnerOK t (sessionsLookup ss sid)) :
    ∃ segs' ss', applyPattern cfg [] sid (render segs, ss) p = (render segs', ss') ∧
      SegsWF t segs' ∧ restore segs' = restore segs ∧
      InvMap segs' (sessionsLookup ss' sid) ∧ InnerOK t (sessionsLookup ss' sid) := by
  obtain ⟨hce, hb1, hb2, hint, hty⟩ := patOK p hp
  have hscan : scanStr p.re (render segs) =
      segs.flatMap (segChunks (matchFuel p.re (render segs).length) p.re) := by
    rw [scanStr]
    refine scan_render _ p.re t hce hb1 hb2 hint segs (render segs).length false hwf ?_
      (le_refl _)
    cases segs with
    | nil => exact trivial
    | cons sg rest =>
      cases sg with
      | raw r => rfl
      | tok ty2 m2 => exact trivial
  have hCLm : ∀ m, Chunk.mtch m ∈ scanStr p.re (render segs) → m <:+: t ∧ m ≠ [] := by
    intro m hm
    rw [hscan] at hm
    exact segChunks_mtch _ p.re hce t segs hwf m hm
  have hrec := chunkRecs_inv cfg p sid t hsid hty hinj (scanStr p.re (render segs)) ss
    hCLm hok
  refine ⟨segs.flatMap (segRepl cfg [] p (matchFuel p.re (render segs).length)),
    chunkRecs cfg [] p sid (scanStr p.re (render segs)) ss, ?_, ?_, ?_, ?_, hrec.1⟩
  · rw [applyPattern_eq]
    congr 1
    rw [render_flatMap]
    rw [hscan, flatMap_flatMap]
    refine List.flatMap_congr ?_
    intro sg _
    exact (segRepl_render cfg p _ sg).symm
  · exact segRepl_wf cfg p _ t hce hty segs hwf
  · exact segRepl_restore cfg p _ hce segs
  · intro ty2 m2 hm2
    rcases segRepl_tok_mem cfg p _ segs ty2 m2 hm2 with hold | ⟨rfl, hnew⟩
    · exact hrec.2.1 _ _ (hinv ty2 m2 hold)
    · refine hrec.2.2 m2 ?_
      rw [hscan]
      exact hnew

/-! ### The pattern fold -/

theorem anonFold_inv (cfg : AnonCfg) (t sid : List Char) (hsid : sid ≠ [])
    (hinj : HashInj t) :
    ∀ (ps : List Pattern), (∀ p ∈ ps, p ∈ compiledPatterns) →
    ∀ (segs : List Seg) (ss : Sessions), SegsWF t segs →
    InvMap segs (sessionsLookup ss sid) → InnerOK t (sessionsLookup ss sid) →
    ∃ segs' ss', ps.foldl (applyPattern cfg [] sid) (render segs, ss) =
        (render segs', ss') ∧
      SegsWF t segs' ∧ restore segs' = restore segs ∧
      InvMap segs' (sessionsLookup ss' sid) ∧ InnerOK t (sessionsLookup ss' sid) := by
  intro ps
  induction ps with
  | nil =>
    intro _ segs ss hwf hinv hok
    exact ⟨segs, ss, rfl, hwf, rfl, hinv, hok⟩
  | cons p ps' ih =>
    intro hps segs ss hwf hinv hok
    obtain ⟨segs1, ss1, heq1, hwf1, hres1, hinv1, hok1⟩ :=
      applyPattern_step cfg t sid hsid hinj p (hps p (List.mem_cons_self _ _)) segs ss
        hwf hinv hok
    obtain ⟨segs2, ss2, heq2, hwf2, hres2, hinv2, hok2⟩ :=
      ih (fun q hq => hps q (List.mem_cons_of_mem _ hq)) segs1 ss1 hwf1 hinv1 hok1
    refine ⟨segs2, ss2, ?_, hwf2, by rw [hres2, hres1], hinv2, hok2⟩
    rw [List.foldl_cons, heq1, heq2]

/-! ### Bracket facts about token characters -/

theorem tokInner_no_lb (ty : List Char) (hty : ty ∈ kindTys) (orig : List Char) :
    ∀ c ∈ tokInner ty orig, ¬ c = '[' := by
  intro c hc
  rcases tokInner_chars ty hty orig c hc with h | rfl | h
  · have hb := upperB_bounds c h
    intro he
    rw [he] at hb
    simp at hb
  · intro he
    cases he
  · have hb := hex_bounds c h
    intro he
    rw [he] at hb
    simp at hb

theorem tokInner_no_rb (ty : List Char) (hty : ty ∈ kindTys) (orig : List Char) :
    ∀ c ∈ tokInner ty orig, ¬ c = ']' := by
  intro c hc
  rcases tokInner_chars ty hty orig c hc with h | rfl | h
  · have hb := upperB_bounds c h
    intro he
    rw [he] at hb
    simp at hb
  · intro he
    cases he
  · have hb := hex_bounds c h
    intro he
    rw [he] at hb
    simp at hb

/-! ### Distinct tokens never overlap -/

theorem prefix_inner_eq : ∀ (I1 I2 x : List Char), (∀ c ∈ I1, ¬ c = ']') →
    (∀ c ∈ I2, ¬ c = ']') → (I1 ++ [']']) <+: ((I2 ++ [']']) ++ x) → I1 = I2 := by
  intro I1
  induction I1 with
  | nil =>
    intro I2 x _ h2 hp
    cases I2 with
    | nil => rfl
    | cons b I2' =>
      rw [List.nil_append] at hp
      rw [List.cons_append, List.cons_append] at hp
      have hb := (List.cons_prefix_cons.mp hp).1
      exact absurd hb.symm (h2 b (by simp))
  | cons a I1' ih =>
    intro I2 x h1 h2 hp
    cases I2 with
    | nil =>
      rw [List.nil_append, List.cons_append] at hp
      rw [List.cons_append] at hp
      have hb := (List.cons_prefix_cons.mp hp).1
      exact absurd hb (h1 a (by simp))
    | cons b I2' =>
      rw [List.cons_append] at hp
      rw [List.cons_append, List.cons_append] at hp
      have hc := List.cons_prefix_cons.mp hp
      rw [hc.1]
      rw [ih I2' x (fun c hc2 => h1 c (List.mem_cons_of_mem _ hc2))
        (fun c hc2 => h2 c (List.mem_cons_of_mem _ hc2)) hc.2]

theorem token_not_prefix (ty1 v1 ty2 m2 : List Char) (h1 : ty1 ∈ kindTys)
    (h2 : ty2 ∈ kindTys) (hne : replacement ty1 v1 ≠ replacement ty2 m2) (x : List Char) :
    ¬ replacement ty1 v1 <+: (replacement ty2 m2 ++ x) := by
  intro hp
  rw [replacement_eq, replacement_eq] at hp hne
  rw [List.cons_append] at hp
  have hp2 := (List.cons_prefix_cons.mp hp).2
  have he := prefix_inner_eq (tokInner ty1 v1) (tokInner ty2 m2) x
    (tokInner_no_rb ty1 h1 v1) (tokInner_no_rb ty2 h2 m2) hp2
  exact hne (by rw [he])

/-! ### `strReplaceGo` unfoldings -/

theorem strReplaceGo_zero (pat rep s : List Char) : strReplaceGo pat rep 0 s = s := rfl

theorem strReplaceGo_nil (pat rep : List Char) (fuel : Nat) :
    strReplaceGo pat rep (fuel + 1) [] = [] := rfl

theorem strReplaceGo_cons_match (pat rep : List Char) (fuel : Nat) (c : Char)
    (rest : List Char) (h : (!pat.isEmpty && pat.isPrefixOf (c :: rest)) = true) :
    strReplaceGo pat rep (fuel + 1) (c :: rest) =
      rep ++ strReplaceGo pat rep fuel ((c :: rest).drop pat.length) := by
  rw [strReplaceGo, if_pos h]

theorem strReplaceGo_cons_nomatch (pat rep : List Char) (fuel : Nat) (c : Char)
    (rest : List Char) (h : (!pat.isEmpty && pat.isPrefixOf (c :: rest)) = false) :
    strReplaceGo pat rep (fuel + 1) (c :: rest) =
      c :: strReplaceGo pat rep fuel rest := by
  rw [strReplaceGo, if_neg (by simp [h])]

/-! ### Replacing one token across a rendered segment list -/

theorem render_ne_nil (t : List Char) (segs : List Seg) (hwfd : SegsWFD t segs)
    (hne : segs ≠ []) : render segs ≠ [] := by
  cases segs with
  | nil => exact absurd rfl hne
  | cons sg rest =>
    cases sg with
    | raw r =>
      rw [render]
      have hr : r ≠ [] := hwfd.1
      cases r with
      | nil => exact absurd rfl hr
      | cons a b => simp
    | tok ty m =>
      rw [render, replacement_eq]
      simp

theorem replaceRenderAux (t tk v tyv : List Char) (htyv : tyv ∈ kindTys)
    (htk : tk = replacement tyv v) (hbt : bracketFree t = true) :
    ∀ (fuel : Nat) (r : List Char) (segs : List Seg), (∀ c ∈ r, ¬ c = '[') →
    SegsWFD t segs → r.length + (render segs).length ≤ fuel →
    strReplaceGo tk v fuel (r ++ render segs) = r ++ render (segs.map (replTok tk v)) := by
  intro fuel
  induction fuel with
  | zero =>
    intro r segs hr hwfd hlen
    have hr0 : r = [] := by
      cases r with
      | nil => rfl
      | cons a b => simp at hlen
    have hs0 : render segs = [] := by
      cases hrs : render segs with
      | nil => rfl
      | cons a b => rw [hrs] at hlen; simp at hlen
    have hsegs : segs = [] := by
      cases hsg : segs with
      | nil => rfl
      | cons sg rest =>
        exact absurd hs0 (render_ne_nil t segs hwfd (by rw [hsg]; simp))
    subst hr0; subst hsegs
    rfl
  | succ n ih =>
    intro r segs hr hwfd hlen
    cases r with
    | cons c r' =>
      have hcl : ¬ c = '[' := hr c (by simp)
      have hnp : (!tk.isEmpty && tk.isPrefixOf (c :: (r' ++ render segs))) = false := by
        rw [htk, replacement_eq]
        have : ¬ ('[' :: (tokInner tyv v ++ [']'])) <+: (c :: (r' ++ render segs)) := by
          intro hp
          exact hcl (List.cons_prefix_cons.mp hp).1.symm
        rw [show (('[' :: (tokInner tyv v ++ [']'])).isPrefixOf
            (c :: (r' ++ render segs))) = false from by
          rw [← Bool.not_eq_true, List.isPrefixOf_iff_prefix]; exact this]
        simp
      rw [List.cons_append, strReplaceGo_cons_nomatch _ _ _ _ _ hnp]
      rw [ih r' segs (fun x hx => hr x (List.mem_cons_of_mem _ hx)) hwfd
        (by simp at hlen ⊢; omega)]
      rfl
    | nil =>
      rw [List.nil_append, List.nil_append]
      cases segs with
      | nil => cases n <;> rfl
      | cons sg rest =>
        cases sg with
        | raw r0 =>
          obtain ⟨hr0ne, hr0bf, hwfd'⟩ := hwfd
          cases r0 with
          | nil => exact absurd rfl hr0ne
          | cons c0 r0' =>
            have hc0 : ¬ c0 = '[' := by
              rw [bracketFree, List.all_cons, Bool.and_eq_true] at hr0bf
              have := hr0bf.1
              rw [Bool.and_eq_true] at this
              intro he
              rw [he] at this
              simpa using this.1
            have hr0' : ∀ x ∈ r0', ¬ x = '[' := by
              intro x hx he
              rw [bracketFree, List.all_cons, Bool.and_eq_true] at hr0bf
              have h2 := hr0bf.2
              rw [List.all_eq_true] at h2
              have := h2 x hx
              rw [he] at this
              simpa using this
            have hnp : (!tk.isEmpty &&
                tk.isPrefixOf (c0 :: (r0' ++ render rest))) = false := by
              rw [htk, replacement_eq]
              have hq : ¬ ('[' :: (tokInner tyv v ++ [']'])) <+:
                  (c0 :: (r0' ++ render rest)) := by
                intro hp
                exact hc0 (List.cons_prefix_cons.mp hp).1.symm
              rw [show (('[' :: (tokInner tyv v ++ [']'])).isPrefixOf
                  (c0 :: (r0' ++ render rest))) = false from by
                rw [← Bool.not_eq_true, List.isPrefixOf_iff_prefix]; exact hq]
              simp
            rw [show render (Seg.raw (c0 :: r0') :: rest) =
              c0 :: (r0' ++ render rest) from rfl]
            rw [strReplaceGo_cons_nomatch _ _ _ _ _ hnp]
            have hihres := ih r0' rest hr0' hwfd'
              (by rw [show render (Seg.raw (c0 :: r0') :: rest) =
                c0 :: (r0' ++ render rest) from rfl] at hlen; simp at hlen ⊢; omega)
            rw [hihres]
            rw [show (Seg.raw (c0 :: r0') :: rest).map (replTok tk v) =
              Seg.raw (c0 :: r0') :: rest.map (replTok tk v) from rfl]
            rfl
        | tok ty0 m0 =>
          obtain ⟨hty0, hm0inf⟩ := hwfd
          have hwfd' : SegsWFD t rest := hm0inf.2
          have hm0inf' : m0 <:+: t := hm0inf.1
          by_cases heq : replacement ty0 m0 = tk
          · have hmatch : (!tk.isEmpty &&
                tk.isPrefixOf (replacement ty0 m0 ++ render rest)) = true := by
              rw [heq]
              have h1 : tk.isEmpty = false := by
                rw [htk, replacement_eq]
                rfl
              have h2 : tk.isPrefixOf (tk ++ render rest) = true := by
                rw [List.isPrefixOf_iff_prefix]
                exact List.prefix_append _ _
              rw [h1, h2]
              rfl
            rw [show render (Seg.tok ty0 m0 :: rest) =
              replacement ty0 m0 ++ render rest from rfl]
            cases hrtok : replacement ty0 m0 ++ render rest with
            | nil =>
              exact absurd hrtok (by rw [replacement_eq]; simp)
            | cons a s' =>
              rw [← hrtok]
              rw [hrtok, ← hrtok] at hmatch
              rw [show replacement ty0 m0 ++ render rest = a :: s' from hrtok] at hmatch ⊢
              rw [strReplaceGo_cons_match _ _ _ _ _ hmatch]
              rw [← hrtok]
              rw [heq, List.drop_left]
              have hihres := ih [] rest (by simp) hwfd' ?hfuel
              case hfuel =>
                rw [show render (Seg.tok ty0 m0 :: rest) =
                  replacement ty0 m0 ++ render rest from rfl] at hlen
                have : 1 ≤ (replacement ty0 m0).length := by
                  rw [replacement_eq]
                  simp
                simp at hlen ⊢
                omega
              rw [List.nil_append] at hihres
              rw [hihres]
              rw [show (Seg.tok ty0 m0 :: rest).map (replTok tk v) =
                replTok tk v (Seg.tok ty0 m0) :: rest.map (replTok tk v) from rfl]
              rw [show replTok tk v (Seg.tok ty0 m0) = Seg.raw v from by
                rw [replTok]
                rw [if_pos (by rw [beq_iff_eq]; exact heq)]]
              rfl
          · have hnp : ¬ tk <+: (replacement ty0 m0 ++ render rest) := by
              rw [htk]
              exact token_not_prefix tyv v ty0 m0 htyv hty0
                (by rw [← htk]; exact fun he => heq (by rw [he])) (render rest)
            rw [show render (Seg.tok ty0 m0 :: rest) =
              replacement ty0 m0 ++ render rest from rfl]
            rw [replacement_eq, List.cons_append]
            have hnp2 : (!tk.isEmpty && tk.isPrefixOf
                ('[' :: ((tokInner ty0 m0 ++ [']']) ++ render rest))) = false := by
              rw [show (tk.isPrefixOf
                  ('[' :: ((tokInner ty0 m0 ++ [']']) ++ render rest))) = false from by
                rw [← Bool.not_eq_true, List.isPrefixOf_iff_prefix]
                rw [show ('[' :: ((tokInner ty0 m0 ++ [']']) ++ render rest)) =
                  replacement ty0 m0 ++ render rest from by
                  rw [replacement_eq, List.cons_append]]
                exact hnp]
              simp
            rw [strReplaceGo_cons_nomatch _ _ _ _ _ hnp2]
            have hin : ∀ x ∈ tokInner ty0 m0 ++ [']'], ¬ x = '[' := by
              intro x hx
              rcases List.mem_append.mp hx with hx | hx
              · exact tokInner_no_lb ty0 hty0 m0 x hx
              · rw [List.mem_singleton] at hx
                rw [hx]
                intro he
                cases he
            have hihres := ih (tokInner ty0 m0 ++ [']']) rest hin hwfd' ?hfuel2
            case hfuel2 =>
              rw [show render (Seg.tok ty0 m0 :: rest) =
                replacement ty0 m0 ++ render rest from rfl, replacement_eq] at hlen
              simp at hlen ⊢
              omega
            rw [hihres]
            rw [show (Seg.tok ty0 m0 :: rest).map (replTok tk v) =
              replTok tk v (Seg.tok ty0 m0) :: rest.map (replTok tk v) from rfl]
            rw [show replTok tk v (Seg.tok ty0 m0) = Seg.tok ty0 m0 from by
              rw [replTok]
              rw [if_neg (by rw [beq_iff_eq]; exact heq)]]
            rw [show render (Seg.tok ty0 m0 :: rest.map (replTok tk v)) =
              replacement ty0 m0 ++ render (rest.map (replTok tk v)) from rfl]
            rw [replacement_eq, List.cons_append]

/-! ### The de-anonymization fold -/

theorem wf_to_wfd (t : List Char) : ∀ segs, SegsWF t segs → SegsWFD t segs := by
  intro segs
  induction segs with
  | nil => intro _; trivial
  | cons sg rest ih =>
    intro hwf
    cases sg with
    | raw r => exact ⟨hwf.1, hwf.2.1, ih hwf.2.2.2.2⟩
    | tok ty m => exact ⟨hwf.1, hwf.2.2.1, ih hwf.2.2.2⟩

theorem mapReplTok_wfd (t tk v : List Char) (hbv : bracketFree v = true) (hvne : v ≠ []) :
    ∀ segs, SegsWFD t segs → SegsWFD t (segs.map (replTok tk v)) := by
  intro segs
  induction segs with
  | nil => intro _; trivial
  | cons sg rest ih =>
    intro hwfd
    cases sg with
    | raw r =>
      rw [List.map_cons, show replTok tk v (Seg.raw r) = Seg.raw r from rfl]
      exact ⟨hwfd.1, hwfd.2.1, ih hwfd.2.2⟩
    | tok ty m =>
      rw [List.map_cons, replTok]
      by_cases heq : replacement ty m = tk
      · rw [if_pos (by rw [beq_iff_eq]; exact heq)]
        exact ⟨hvne, hbv, ih hwfd.2.2⟩
      · rw [if_neg (by rw [beq_iff_eq]; exact heq)]
        exact ⟨hwfd.1, hwfd.2.1, ih hwfd.2.2⟩

theorem mapReplTok_restore (t tk v ty1 : List Char) (hty1 : ty1 ∈ kindTys)
    (htk : tk = replacement ty1 v) (hinj : HashInj t) (hvinf : v <:+: t) :
    ∀ segs, SegsWFD t segs → restore (segs.map (replTok tk v)) = restore segs := by
  intro segs
  induction segs with
  | nil => intro _; rfl
  | cons sg rest ih =>
    intro hwfd
    cases sg with
    | raw r =>
      rw [List.map_cons, show replTok tk v (Seg.raw r) = Seg.raw r from rfl]
      rw [restore, restore, ih hwfd.2.2]
    | tok ty m =>
      rw [List.map_cons, replTok]
      by_cases heq : replacement ty m = tk
      · rw [if_pos (by rw [beq_iff_eq]; exact heq)]
        have hd := replacement_digest ty m ty1 v (by rw [heq, htk])
        have hmv : m = v := hinj m v hwfd.2.1 hvinf hd
        rw [restore, restore, ih hwfd.2.2, hmv]
      · rw [if_neg (by rw [beq_iff_eq]; exact heq)]
        rw [restore, restore, ih hwfd.2.2]

theorem mapReplTok_tok_mem (tk v : List Char) (segs : List Seg) (ty m : List Char)
    (hm : Seg.tok ty m ∈ segs.map (replTok tk v)) :
    Seg.tok ty m ∈ segs ∧ replacement ty m ≠ tk := by
  rw [List.mem_map] at hm
  obtain ⟨sg, hsg, hrepl⟩ := hm
  cases sg with
  | raw r =>
    rw [show replTok tk v (Seg.raw r) = Seg.raw r from rfl] at hrepl
    cases hrepl
  | tok ty0 m0 =>
    rw [replTok] at hrepl
    by_cases heq : replacement ty0 m0 = tk
    · rw [if_pos (by rw [beq_iff_eq]; exact heq)] at hrepl
      cases hrepl
    · rw [if_neg (by rw [beq_iff_eq]; exact heq)] at hrepl
      cases hrepl
      exact ⟨hsg, heq⟩

theorem render_restore_notok : ∀ segs : List Seg,
    (∀ ty m, Seg.tok ty m ∈ segs → False) → render segs = restore segs := by
  intro segs
  induction segs with
  | nil => intro _; rfl
  | cons sg rest ih =>
    intro hno
    cases sg with
    | raw r =>
      rw [render, restore, ih (fun ty m hm => hno ty m (List.mem_cons_of_mem _ hm))]
    | tok ty m => exact (hno ty m (List.mem_cons_self _ _)).elim

theorem deanonFold (t : List Char) (hbt : bracketFree t = true) (hinj : HashInj t) :
    ∀ (pairs : SessionInner) (segs : List Seg), SegsWFD t segs →
    (∀ ty m, Seg.tok ty m ∈ segs → innerLookup pairs (replacement ty m) = some m) →
    InnerOK t pairs →
    pairs.foldl (fun acc pr => strReplaceAll acc pr.1 pr.2) (render segs) =
      restore segs := by
  intro pairs
  induction pairs with
  | nil =>
    intro segs _ hmap _
    rw [List.foldl_nil]
    apply render_restore_notok
    intro ty m hm
    have h := hmap ty m hm
    rw [show innerLookup [] (replacement ty m) = none from rfl] at h
    cases h
  | cons pr rest ih =>
    intro segs hwfd hmap hok
    obtain ⟨ty1, hty1, htk, hvinf, hvne⟩ := hok pr (List.mem_cons_self _ _)
    rw [List.foldl_cons]
    have hbv : bracketFree pr.2 = true := bracketFree_infix hvinf hbt
    have hrepl : strReplaceAll (render segs) pr.1 pr.2 =
        render (segs.map (replTok pr.1 pr.2)) := by
      rw [strReplaceAll]
      have h := replaceRenderAux t pr.1 pr.2 ty1 hty1 htk hbt
        (render segs).length [] segs (by simp) hwfd (by simp)
      simpa using h
    rw [hrepl]
    rw [ih (segs.map (replTok pr.1 pr.2))
      (mapReplTok_wfd t pr.1 pr.2 hbv hvne segs hwfd) ?hmap2 ?hok2]
    · exact mapReplTok_restore t pr.1 pr.2 ty1 hty1 htk hinj hvinf segs hwfd
    case hmap2 =>
      intro ty m hm
      obtain ⟨hmem, hne⟩ := mapReplTok_tok_mem pr.1 pr.2 segs ty m hm
      have h0 := hmap ty m hmem
      rw [innerLookup_cons_other pr rest _ (fun he => hne he.symm)] at h0
      exact h0
    case hok2 =>
      intro pr2 hpr2
      exact hok pr2 (List.mem_cons_of_mem _ hpr2)

/-! ### The round trip -/

theorem sessionsLookup_nil (sid : List Char) : sessionsLookup [] sid = [] := rfl

/-- C1 (amended): for every configuration, text and non-empty session id,
provided the text is bracket-free and the eight-hex digest is injective on
its infixes, de-anonymizing the anonymized text restores the original
exactly. -/
theorem c1_roundtrip_amended (cfg : AnonCfg) (t sid : List Char) (hsid : sid ≠ [])
    (hbt : bracketFree t = true) (hinj : HashInj t) :
    deanonymizeText (anonymizeText cfg [] [] t sid).2
      (anonymizeText cfg [] [] t sid).1 sid = t := by
  by_cases ht : t = []
  · subst ht
    rw [show anonymizeText cfg [] [] [] sid = ([], []) from rfl]
    rw [deanonymizeText, if_pos (by simp)]
  · have htE : t.isEmpty = false := by
      cases t with
      | nil => exact absurd rfl ht
      | cons c r => rfl
    rw [anonymizeText, if_neg (by simp [htE])]
    have hrend : t = render [Seg.raw t] := by
      rw [render, render, List.append_nil]
    obtain ⟨segs', ss', heq, hwf', hres', hinv', hok'⟩ :=
      anonFold_inv cfg t sid hsid hinj compiledPatterns (fun p hp => hp) [Seg.raw t] []
        ⟨ht, hbt, List.infix_refl t, trivial, trivial⟩
        (fun ty m hm => by
          rcases List.mem_singleton.mp hm with h
          cases h)
        (fun pr hpr => by cases hpr)
    rw [show ((t : List Char), ([] : Sessions)) = (render [Seg.raw t], ([] : Sessions))
      from by rw [← hrend]]
    rw [heq]
    have hresT : restore segs' = t := by
      rw [hres', restore, restore, List.append_nil]
    have hrne : render segs' ≠ [] := by
      cases hsegs : segs' with
      | nil =>
        rw [hsegs] at hresT
        exact absurd hresT.symm ht
      | cons sg rest =>
        rw [← hsegs]
        exact render_ne_nil t segs' (wf_to_wfd t segs' hwf') (by rw [hsegs]; simp)
    rw [deanonymizeText, if_neg ?hguard]
    case hguard =>
      simp only [Bool.or_eq_true, List.isEmpty_iff]
      rintro (h | h)
      · exact hsid h
      · exact hrne h
    rw [deanonFold t hbt hinj (sessionsLookup ss' sid) segs' (wf_to_wfd t segs' hwf')
      hinv' hok']
    exact hresT

/-! ### A decidable sufficient condition for digest injectivity -/

theorem infix_mem_infixesOf (t m : List Char) (h : m <:+: t) : m ∈ infixesOf t := by
  obtain ⟨s, u, hsu⟩ := h
  have hlen : s.length + (m.length + u.length) = t.length := by
    have := congrArg List.length hsu
    simpa using this
  rw [infixesOf, List.mem_flatMap]
  refine ⟨s.length, List.mem_range.mpr (by omega), ?_⟩
  rw [List.mem_map]
  refine ⟨m.length, List.mem_range.mpr (by omega), ?_⟩
  rw [← hsu, List.append_assoc, List.drop_left, List.take_left]

theorem hashInjOnB_sound (t : List Char) (h : hashInjOnB t = true) : HashInj t := by
  intro m1 m2 h1 h2 hd
  rw [hashInjOnB, List.all_eq_true] at h
  have h2' := h m1 (infix_mem_infixesOf t m1 h1)
  rw [List.all_eq_true] at h2'
  have h3 := h2' m2 (infix_mem_infixesOf t m2 h2)
  rw [Bool.or_eq_true, Bool.not_eq_true', beq_eq_false_iff_ne, beq_iff_eq] at h3
  rcases h3 with h3 | h3
  · exact absurd hd h3
  · exact h3

theorem c1_roundtrip_amended_witness :
    ("s".data ≠ [] ∧ bracketFree "ab".data = true) ∧
    deanonymizeText (anonymizeText defaultAnonCfg [] [] "ab".data "s".data).2
      (anonymizeText defaultAnonCfg [] [] "ab".data "s".data).1 "s".data = "ab".data :=
  ⟨⟨by decide, by decide⟩,
    c1_roundtrip_amended defaultAnonCfg "ab".data "s".data (by decide) (by decide)
      (hashInjOnB_sound "ab".data (by decide))⟩

/-- C3: for every one of the twelve PII kinds and every original value,
the produced token `[PII_<KIND_UPPER>_<8hex>]` does not match any of the
compiled regex patterns. -/
theorem c3_token_non_retriggering (k : PIIKind) (orig : List Char) (p : Pattern)
    (hp : p ∈ compiledPatterns) :
    matchList p.re (replacement (PIIKind.str k) orig) = [] :=
  token_no_match (PIIKind.str k) (by cases k <;> decide) orig p hp

theorem c3_token_non_retriggering_witness :
    (⟨emailRE, "email".data, 95⟩ : Pattern) ∈ compiledPatterns ∧
    matchList (Pattern.re ⟨emailRE, "email".data, 95⟩)
      (replacement (PIIKind.str PIIKind.email) ['x']) = [] :=
  ⟨by decide,
    c3_token_non_retriggering PIIKind.email ['x'] ⟨emailRE, "email".data, 95⟩ (by decide)⟩

/-! ### Field-update lemmas for the JSON injection -/

theorem fieldsLookup_nil (k : List Char) : fieldsLookup [] k = none := rfl

theorem fieldsLookup_cons_pos (p : List Char × JVal) (rest : List (List Char × JVal))
    (k : List Char) (hpk : (p.1 == k) = true) :
    fieldsLookup (p :: rest) k = some p.2 := by
  rw [fieldsLookup, @List.find?_cons_of_pos _ (fun q => q.1 == k) p rest hpk,
    Option.map_some']

theorem fieldsLookup_cons_neg (p : List Char × JVal) (rest : List (List Char × JVal))
    (k : List Char) (hpk : (p.1 == k) = false) :
    fieldsLookup (p :: rest) k = fieldsLookup rest k := by
  rw [fieldsLookup, @List.find?_cons_of_neg _ (fun q => q.1 == k) p rest (by simp [hpk]),
    fieldsLookup]

theorem fieldsSet_self (fs : List (List Char × JVal)) (k : List Char) (v : JVal)
    (h : fieldsLookup fs k = some v) : fieldsSet fs k v = fs := by
  induction fs with
  | nil => rw [fieldsLookup_nil] at h; cases h
  | cons p rest ih =>
    rw [fieldsSet]
    cases hpk : (p.1 == k) with
    | true =>
      rw [if_pos rfl]
      rw [fieldsLookup_cons_pos p rest k hpk] at h
      have hv : p.2 = v := by cases h; rfl
      have hk : p.1 = k := by rw [beq_iff_eq] at hpk; exact hpk
      rw [← hv, ← hk]
    | false =>
      rw [if_neg (by simp)]
      rw [fieldsLookup_cons_neg p rest k hpk] at h
      rw [ih h]

theorem fieldsSet_ne (fs : List (List Char × JVal)) (k : List Char) (v w : JVal)
    (h : fieldsLookup fs k = some v) (hne : w ≠ v) : fieldsSet fs k w ≠ fs := by
  induction fs with
  | nil => rw [fieldsLookup_nil] at h; cases h
  | cons p rest ih =>
    rw [fieldsSet]
    cases hpk : (p.1 == k) with
    | true =>
      rw [if_pos rfl]
      rw [fieldsLookup_cons_pos p rest k hpk] at h
      have hv : p.2 = v := by cases h; rfl
      intro he
      have h1 : (k, w) = p := (List.cons.injEq _ _ _ _ ▸ he).1
      have h2 : w = p.2 := by rw [← h1]
      exact hne (by rw [h2, hv])
    | false =>
      rw [if_neg (by simp)]
      rw [fieldsLookup_cons_neg p rest k hpk] at h
      intro he
      exact ih h (List.cons.injEq _ _ _ _ ▸ he).2

theorem strAppend_ne (s inst : List Char) (hinst : inst ≠ []) :
    (if s.isEmpty then inst else s ++ "\n\n".data ++ inst) ≠ s := by
  cases s with
  | nil => simpa using hinst
  | cons a s' =>
    rw [if_neg (by simp)]
    intro he
    have hl := congrArg List.length he
    simp at hl

theorem appendToSystemMsg_ne_iff (inst : List Char) (hinst : inst ≠ []) (msg : JVal) :
    appendToSystemMsg msg inst ≠ msg ↔ sysStrContent msg = true := by
  cases msg with
  | obj mf =>
    rw [appendToSystemMsg, sysStrContent]
    cases hc : fieldsLookup mf "content".data with
    | none => exact iff_of_false (fun h => h rfl) Bool.false_ne_true
    | some v =>
      cases v with
      | str c =>
        refine iff_of_true ?_ rfl
        intro he
        injection he with h2
        refine fieldsSet_ne mf "content".data (.str c) _ hc ?_ h2
        intro hx
        injection hx with h3
        exact strAppend_ne c inst hinst h3
      | null => exact iff_of_false (fun h => h rfl) Bool.false_ne_true
      | bool b => exact iff_of_false (fun h => h rfl) Bool.false_ne_true
      | num r => exact iff_of_false (fun h => h rfl) Bool.false_ne_true
      | arr xs => exact iff_of_false (fun h => h rfl) Bool.false_ne_true
      | obj o => exact iff_of_false (fun h => h rfl) Bool.false_ne_true
  | null => exact iff_of_false (fun h => h rfl) Bool.false_ne_true
  | bool b => exact iff_of_false (fun h => h rfl) Bool.false_ne_true
  | num r => exact iff_of_false (fun h => h rfl) Bool.false_ne_true
  | str s => exact iff_of_false (fun h => h rfl) Bool.false_ne_true
  | arr xs => exact iff_of_false (fun h => h rfl) Bool.false_ne_true

theorem updateFirstSystem_ne_iff (inst : List Char) (hinst : inst ≠ []) :
    ∀ (msgs : List JVal) (msg : JVal), msgs.find? isSystemMsg = some msg →
    (updateFirstSystem msgs inst ≠ msgs ↔ sysStrContent msg = true) := by
  intro msgs
  induction msgs with
  | nil =>
    intro msg hf
    rw [show ([] : List JVal).find? isSystemMsg = none from rfl] at hf
    cases hf
  | cons m0 rest ih =>
    intro msg hf
    cases hm0 : isSystemMsg m0 with
    | true =>
      rw [@List.find?_cons_of_pos _ isSystemMsg m0 rest hm0] at hf
      have hmsg : m0 = msg := by cases hf; rfl
      rw [updateFirstSystem, if_pos hm0, ← hmsg]
      constructor
      · intro hne
        refine (appendToSystemMsg_ne_iff inst hinst m0).mp ?_
        intro he
        exact hne (by rw [he])
      · intro hsc he
        exact (appendToSystemMsg_ne_iff inst hinst m0).mpr hsc
          (List.cons.injEq _ _ _ _ ▸ he).1
    | false =>
      rw [@List.find?_cons_of_neg _ isSystemMsg m0 rest (by simp [hm0])] at hf
      rw [updateFirstSystem, if_neg (by simp [hm0])]
      constructor
      · intro hne
        refine (ih msg hf).mp ?_
        intro he
        exact hne (by rw [he])
      · intro hsc he
        exact (ih msg hf).mpr hsc (List.cons.injEq _ _ _ _ ▸ he).2

theorem inject_msgs_arr_ne_iff (m : List (List Char × JVal)) (msgs : List JVal)
    (inst : List Char) (hinst : inst ≠ [])
    (hmsgs : fieldsLookup m "messages".data = some (.arr msgs)) :
    ((if msgs.any isSystemMsg then
        fieldsSet m "messages".data (.arr (updateFirstSystem msgs inst))
      else
        fieldsSet m "messages".data
          (.arr (.obj [("role".data, .str "system".data), ("content".data, .str inst)]
            :: msgs))) ≠ m) ↔
    ((match msgs.find? isSystemMsg with
      | some (.obj mf) =>
        (match fieldsLookup mf "content".data with
         | some (.str _) => true
         | _ => false)
      | some _ => false
      | none => true) = true) := by
  cases hany : msgs.any isSystemMsg with
  | true =>
    rw [if_pos rfl]
    have hfs : (msgs.find? isSystemMsg).isSome = true := by
      rw [List.find?_isSome]
      rw [List.any_eq_true] at hany
      exact hany
    obtain ⟨msg, hfind⟩ := Option.isSome_iff_exists.mp hfs
    rw [hfind]
    have hiff := updateFirstSystem_ne_iff inst hinst msgs msg hfind
    cases hsc : sysStrContent msg with
    | true =>
      refine iff_of_true ?_ ?_
      · refine fieldsSet_ne m "messages".data (.arr msgs) _ hmsgs ?_
        intro hx
        injection hx with h2
        exact hiff.mpr hsc h2
      · cases msg with
        | obj mf => exact hsc
        | null => exact absurd hsc Bool.false_ne_true
        | bool b => exact absurd hsc Bool.false_ne_true
        | num r => exact absurd hsc Bool.false_ne_true
        | str s => exact absurd hsc Bool.false_ne_true
        | arr xs => exact absurd hsc Bool.false_ne_true
    | false =>
      have hupd : updateFirstSystem msgs inst = msgs := by
        by_contra hne2
        rw [hiff.mp hne2] at hsc
        cases hsc
      refine iff_of_false ?_ ?_
      · intro h
        exact h (by rw [hupd]; exact fieldsSet_self m "messages".data _ hmsgs)
      · cases msg with
        | obj mf => rw [show sysStrContent (JVal.obj mf) =
            (match fieldsLookup mf "content".data with
             | some (.str _) => true
             | _ => false) from rfl] at hsc
                    simp [hsc]
        | null => exact Bool.false_ne_true
        | bool b => exact Bool.false_ne_true
        | num r => exact Bool.false_ne_true
        | str s => exact Bool.false_ne_true
        | arr xs => exact Bool.false_ne_true
  | false =>
    rw [if_neg (by simp)]
    have hfn : msgs.find? isSystemMsg = none := by
      rw [List.find?_eq_none]
      intro x hx
      rw [List.any_eq_false] at hany
      simp [hany x hx]
    rw [hfn]
    refine iff_of_true ?_ rfl
    refine fieldsSet_ne m "messages".data (.arr msgs) _ hmsgs ?_
    intro hx
    injection hx with h2
    have hl := congrArg List.length h2
    simp at hl

theorem inject_msgs_ne_iff (m : List (List Char × JVal)) (inst : List Char)
    (hinst : inst ≠ []) :
    ((match fieldsLookup m "messages".data with
      | some (.arr msgs) =>
        if msgs.any isSystemMsg then
          fieldsSet m "messages".data (.arr (updateFirstSystem msgs inst))
        else
          fieldsSet m "messages".data
            (.arr (.obj [("role".data, .str "system".data), ("content".data, .str inst)]
              :: msgs))
      | _ => m) ≠ m) ↔
    ((match fieldsLookup m "messages".data with
      | some (.arr msgs) =>
        match msgs.find? isSystemMsg with
        | some (.obj mf) =>
          (match fieldsLookup mf "content".data with
           | some (.str _) => true
           | _ => false)
        | some _ => false
        | none => true
      | _ => false) = true) := by
  cases hmsgs : fieldsLookup m "messages".data with
  | none => exact iff_of_false (fun h => h rfl) Bool.false_ne_true
  | some v =>
    cases v with
    | arr msgs => exact inject_msgs_arr_ne_iff m msgs inst hinst hmsgs
    | null => exact iff_of_false (fun h => h rfl) Bool.false_ne_true
    | bool b => exact iff_of_false (fun h => h rfl) Bool.false_ne_true
    | num r => exact iff_of_false (fun h => h rfl) Bool.false_ne_true
    | str s => exact iff_of_false (fun h => h rfl) Bool.false_ne_true
    | obj o => exact iff_of_false (fun h => h rfl) Bool.false_ne_true

theorem inject_ne_iff (m : List (List Char × JVal)) (inst : List Char) (hinst : inst ≠ []) :
    injectPIIInstruction m inst ≠ m ↔ chatInjectable m = true := by
  have hie : inst.isEmpty = false := by
    cases inst with | nil => exact absurd rfl hinst | cons a b => rfl
  rw [injectPIIInstruction, if_neg (by simp [hie]), chatInjectable]
  cases hsys : fieldsLookup m "system".data with
  | none => exact inject_msgs_ne_iff m inst hinst
  | some v =>
    cases v with
    | str s =>
      refine iff_of_true ?_ rfl
      refine fieldsSet_ne m "system".data (.str s) _ hsys ?_
      intro hx
      injection hx with h3
      exact strAppend_ne s inst hinst h3
    | arr blocks =>
      refine iff_of_true ?_ rfl
      refine fieldsSet_ne m "system".data (.arr blocks) _ hsys ?_
      intro hx
      injection hx with h2
      have hl := congrArg List.length h2
      simp at hl
    | null => exact inject_msgs_ne_iff m inst hinst
    | bool b => exact inject_msgs_ne_iff m inst hinst
    | num r => exact inject_msgs_ne_iff m inst hinst
    | obj o => exact inject_msgs_ne_iff m inst hinst

/-- C9 (amended): for a JSON object body processed with a non-empty
session id and a non-empty resolved instruction, the session map after the
walk is the walked one; the instruction is injected exactly when at least
one token is recorded, and the injection changes the body if and only if
the walked body is chat-style in the shapes `injectPIIInstruction`
actually modifies (string or array `system` field; or a `messages` array
whose first system message has string content or with no system message
at all) - otherwise the walked body passes through unchanged. -/
theorem c9_injection_amended (cfg : AnonCfg) (cache : Cache)
    (instrs : List (List Char × List Char)) (ss : Sessions)
    (fields : List (List Char × JVal)) (sid : List Char)
    (m : List (List Char × JVal)) (ss2 : Sessions)
    (hsid : sid ≠ [])
    (hinst : resolvePIIInstruction instrs (modelOf fields) ≠ [])
    (hw : walkFields cfg cache sid fields ss = (m, ss2)) :
    (anonymizeJSONVal cfg cache instrs ss (.obj fields) sid).2 = ss2 ∧
    (0 < (sessionsLookup ss2 sid).length →
      (anonymizeJSONVal cfg cache instrs ss (.obj fields) sid).1 =
        JVal.obj (injectPIIInstruction m (resolvePIIInstruction instrs (modelOf fields)))) ∧
    ((sessionsLookup ss2 sid).length = 0 →
      (anonymizeJSONVal cfg cache instrs ss (.obj fields) sid).1 = JVal.obj m) ∧
    (injectPIIInstruction m (resolvePIIInstruction instrs (modelOf fields)) ≠ m ↔
      chatInjectable m = true) := by
  have hwv : walkValue cfg cache sid (.obj fields) ss = (.obj m, ss2) := by
    simp only [walkValue, hw]
  have hsidE : sid.isEmpty = false := by
    cases sid with | nil => exact absurd rfl hsid | cons a b => rfl
  have hout : anonymizeJSONVal cfg cache instrs ss (.obj fields) sid =
      (if 0 < (sessionsLookup ss2 sid).length then
        (JVal.obj (injectPIIInstruction m (resolvePIIInstruction instrs (modelOf fields))),
          ss2)
      else (JVal.obj m, ss2)) := by
    by_cases hc : 0 < (sessionsLookup ss2 sid).length
    · rw [if_pos hc]
      simp [anonymizeJSONVal, hwv, hsidE, hc, modelOf]
    · rw [if_neg hc]
      simp [anonymizeJSONVal, hwv, hsidE, hc, modelOf]
  refine ⟨?_, ?_, ?_,
    inject_ne_iff m (resolvePIIInstruction instrs (modelOf fields)) hinst⟩
  · rw [hout]
    by_cases hc : 0 < (sessionsLookup ss2 sid).length
    · rw [if_pos hc]
    · rw [if_neg hc]
  · intro hc
    rw [hout, if_pos hc]
  · intro hc
    rw [hout, if_neg (by omega)]

theorem c9_injection_amended_witness :
    ("s".data ≠ [] ∧ resolvePIIInstruction [] (modelOf c9fields) ≠ [] ∧
      walkFields defaultAnonCfg [] "s".data c9fields [] = (c9fields, [])) ∧
    ((anonymizeJSONVal defaultAnonCfg [] [] [] (.obj c9fields) "s".data).2 = [] ∧
     (0 < (sessionsLookup [] "s".data).length →
       (anonymizeJSONVal defaultAnonCfg [] [] [] (.obj c9fields) "s".data).1 =
         JVal.obj (injectPIIInstruction c9fields
           (resolvePIIInstruction [] (modelOf c9fields)))) ∧
     ((sessionsLookup [] "s".data).length = 0 →
       (anonymizeJSONVal defaultAnonCfg [] [] [] (.obj c9fields) "s".data).1 =
         JVal.obj c9fields) ∧
     (injectPIIInstruction c9fields (resolvePIIInstruction [] (modelOf c9fields)) ≠
         c9fields ↔
       chatInjectable c9fields = true)) :=
  ⟨⟨by decide, by decide, by rfl⟩,
    c9_injection_amended defaultAnonCfg [] [] [] c9fields "s".data c9fields []
      (by decide) (by decide) (by rfl)⟩

/-! ### The streaming single-pass replacer on a rendered segment list -/

theorem simReplaceGo_zero (pairs : List (List Char × List Char)) (s : List Char) :
    simReplaceGo pairs 0 s = s := rfl

theorem simReplaceGo_nil (pairs : List (List Char × List Char)) (fuel : Nat) :
    simReplaceGo pairs (fuel + 1) [] = [] := rfl

theorem simReplaceGo_cons_some (pairs : List (List Char × List Char)) (fuel : Nat)
    (c : Char) (rest : List Char) (pr : List Char × List Char)
    (h : (pairs.find? fun p => !p.1.isEmpty && p.1.isPrefixOf (c :: rest)) = some pr) :
    simReplaceGo pairs (fuel + 1) (c :: rest) =
      pr.2 ++ simReplaceGo pairs fuel ((c :: rest).drop pr.1.length) := by
  rw [simReplaceGo, h]

theorem simReplaceGo_cons_none (pairs : List (List Char × List Char)) (fuel : Nat)
    (c : Char) (rest : List Char)
    (h : (pairs.find? fun p => !p.1.isEmpty && p.1.isPrefixOf (c :: rest)) = none) :
    simReplaceGo pairs (fuel + 1) (c :: rest) = c :: simReplaceGo pairs fuel rest := by
  rw [simReplaceGo, h]

theorem findPair_none (t : List Char) (pairs : SessionInner) (hok : InnerOK t pairs)
    (c : Char) (hc : ¬ c = '[') (xs : List Char) :
    (pairs.find? fun p => !p.1.isEmpty && p.1.isPrefixOf (c :: xs)) = none := by
  rw [List.find?_eq_none]
  intro pr hpr
  obtain ⟨ty0, _, hkey, _, _⟩ := hok pr hpr
  intro hpred
  rw [Bool.and_eq_true] at hpred
  have hp := hpred.2
  rw [List.isPrefixOf_iff_prefix] at hp
  rw [hkey, replacement_eq] at hp
  exact hc (List.cons_prefix_cons.mp hp).1.symm

theorem findPair_some_eq (t : List Char) (pairs : SessionInner) (hinj : HashInj t)
    (hok : InnerOK t pairs) (ty m : List Char) (hty : ty ∈ kindTys) (hm : m <:+: t)
    (pr0 : List Char × List Char) (hpr0 : pr0 ∈ pairs)
    (hkey0 : pr0.1 = replacement ty m) (xs : List Char) :
    ∃ pr, (pairs.find? fun p =>
        !p.1.isEmpty && p.1.isPrefixOf (replacement ty m ++ xs)) = some pr ∧
      pr.1 = replacement ty m ∧ pr.2 = m := by
  have hpred0 : (!pr0.1.isEmpty && pr0.1.isPrefixOf (replacement ty m ++ xs)) = true := by
    rw [hkey0]
    have h1 : (replacement ty m).isEmpty = false := by
      rw [replacement_eq]
      rfl
    have h2 : (replacement ty m).isPrefixOf (replacement ty m ++ xs) = true := by
      rw [List.isPrefixOf_iff_prefix]
      exact List.prefix_append _ _
    rw [h1, h2]
    rfl
  have hfs : (pairs.find? fun p =>
      !p.1.isEmpty && p.1.isPrefixOf (replacement ty m ++ xs)).isSome = true := by
    rw [List.find?_isSome]
    exact ⟨pr0, hpr0, hpred0⟩
  obtain ⟨pr, hfind⟩ := Option.isSome_iff_exists.mp hfs
  have hmem := List.mem_of_find?_eq_some hfind
  have hpred := List.find?_some hfind
  obtain ⟨ty', hty', hkey', hinf', _⟩ := hok pr hmem
  rw [Bool.and_eq_true] at hpred
  have hp := hpred.2
  rw [List.isPrefixOf_iff_prefix] at hp
  have heq : pr.1 = replacement ty m := by
    by_contra hne2
    refine token_not_prefix ty' pr.2 ty m hty' hty ?_ xs ?_
    · rw [← hkey']
      exact hne2
    · rw [← hkey']
      exact hp
  have hval : pr.2 = m := by
    have hd := replacement_digest ty' pr.2 ty m (hkey'.symm.trans heq)
    exact hinj pr.2 m hinf' hm hd
  exact ⟨pr, hfind, heq, hval⟩

theorem simReplaceRenderAux (t : List Char) (pairs : SessionInner) (hinj : HashInj t)
    (hok : InnerOK t pairs) :
    ∀ (fuel : Nat) (r : List Char) (segs : List Seg), (∀ c ∈ r, ¬ c = '[') →
    SegsWFD t segs → InvMap segs pairs → r.length + (render segs).length ≤ fuel →
    simReplaceGo pairs fuel (r ++ render segs) = r ++ restore segs := by
  intro fuel
  induction fuel with
  | zero =>
    intro r segs hr hwfd _ hlen
    have hr0 : r = [] := by
      cases r with
      | nil => rfl
      | cons a b => simp at hlen
    have hs0 : render segs = [] := by
      cases hrs : render segs with
      | nil => rfl
      | cons a b => rw [hrs] at hlen; simp at hlen
    have hsegs : segs = [] := by
      cases hsg : segs with
      | nil => rfl
      | cons sg rest =>
        exact absurd hs0 (render_ne_nil t segs hwfd (by rw [hsg]; simp))
    subst hr0; subst hsegs
    rfl
  | succ n ih =>
    intro r segs hr hwfd hinv hlen
    cases r with
    | cons c r' =>
      have hcl : ¬ c = '[' := hr c (by simp)
      rw [List.cons_append, simReplaceGo_cons_none pairs n c (r' ++ render segs)
        (findPair_none t pairs hok c hcl _)]
      rw [ih r' segs (fun x hx => hr x (List.mem_cons_of_mem _ hx)) hwfd hinv
        (by simp at hlen ⊢; omega)]
      rfl
    | nil =>
      rw [List.nil_append]
      cases segs with
      | nil => rfl
      | cons sg rest =>
        have hinv' : InvMap rest pairs := by
          intro ty2 m2 hm2
          exact hinv ty2 m2 (List.mem_cons_of_mem _ hm2)
        cases sg with
        | raw r0 =>
          obtain ⟨hr0ne, hr0bf, hwfd'⟩ := hwfd
          cases r0 with
          | nil => exact absurd rfl hr0ne
          | cons c0 r0' =>
            have hc0 : ¬ c0 = '[' := by
              rw [bracketFree, List.all_cons, Bool.and_eq_true] at hr0bf
              have := hr0bf.1
              rw [Bool.and_eq_true] at this
              intro he
              rw [he] at this
              simpa using this.1
            have hr0' : ∀ x ∈ r0', ¬ x = '[' := by
              intro x hx he
              rw [bracketFree, List.all_cons, Bool.and_eq_true] at hr0bf
              have h2 := hr0bf.2
              rw [List.all_eq_true] at h2
              have := h2 x hx
              rw [he] at this
              simpa using this
            rw [show render (Seg.raw (c0 :: r0') :: rest) =
              c0 :: (r0' ++ render rest) from rfl]
            rw [simReplaceGo_cons_none pairs n c0 (r0' ++ render rest)
              (findPair_none t pairs hok c0 hc0 _)]
            have hihres := ih r0' rest hr0' hwfd' hinv'
              (by rw [show render (Seg.raw (c0 :: r0') :: rest) =
                c0 :: (r0' ++ render rest) from rfl] at hlen; simp at hlen ⊢; omega)
            rw [hihres]
            rfl
        | tok ty0 m0 =>
          obtain ⟨hty0, hm0inf⟩ := hwfd
          have hwfd' : SegsWFD t rest := hm0inf.2
          have hm0inf' : m0 <:+: t := hm0inf.1
          have hlook := hinv ty0 m0 (List.mem_cons_self _ _)
          have hpr0 := innerLookup_mem pairs (replacement ty0 m0) m0 hlook
          obtain ⟨pr, hfind, hprkey, hprval⟩ :=
            findPair_some_eq t pairs hinj hok ty0 m0 hty0 hm0inf'
              (replacement ty0 m0, m0) hpr0 rfl (render rest)
          rw [show render (Seg.tok ty0 m0 :: rest) =
            replacement ty0 m0 ++ render rest from rfl]
          cases hrtok : replacement ty0 m0 ++ render rest with
          | nil => exact absurd hrtok (by rw [replacement_eq]; simp)
          | cons a s' =>
            rw [hrtok] at hfind
            rw [simReplaceGo_cons_some pairs n a s' pr hfind]
            rw [← hrtok, hprkey, List.drop_left]
            have hihres := ih [] rest (by simp) hwfd' hinv' ?hfuel
            case hfuel =>
              rw [show render (Seg.tok ty0 m0 :: rest) =
                replacement ty0 m0 ++ render rest from rfl] at hlen
              have : 1 ≤ (replacement ty0 m0).length := by
                rw [replacement_eq]
                simp
              simp at hlen ⊢
              omega
            rw [List.nil_append] at hihres
            rw [hihres, hprval]
            rfl

theorem simReplaceRender (t : List Char) (pairs : SessionInner) (hinj : HashInj t)
    (hok : InnerOK t pairs) (segs : List Seg) (hwfd : SegsWFD t segs)
    (hinv : InvMap segs pairs) :
    simReplace pairs (render segs) = restore segs := by
  rw [simReplace]
  have h := simReplaceRenderAux t pairs hinj hok (render segs).length [] segs
    (by simp) hwfd hinv (by simp)
  rw [List.nil_append] at h
  exact h

/-! ### The reader loop on colon-free, CR-free streams -/

theorem replacement_avoid (ty : List Char) (hty : ty ∈ kindTys) (orig : List Char)
    (c : Char) (hcl : ¬ c = '[') (hcr : ¬ c = ']') (hcw : upperB c = false)
    (hcu : ¬ c = '_') (hch : isHexLower c = false) : c ∉ replacement ty orig := by
  intro hc
  rw [replacement_eq] at hc
  rcases List.mem_cons.mp hc with he | hc2
  · exact hcl he
  rcases List.mem_append.mp hc2 with hc3 | hc3
  · rcases tokInner_chars ty hty orig c hc3 with h | h | h
    · rw [hcw] at h; cases h
    · exact hcu h
    · rw [hch] at h; cases h
  · rw [List.mem_singleton] at hc3
    exact hcr hc3

theorem render_no_char (t : List Char) (c : Char) (hct : c ∉ t) (hcl : ¬ c = '[')
    (hcr2 : ¬ c = ']') (hcw : upperB c = false) (hcu : ¬ c = '_')
    (hch : isHexLower c = false) :
    ∀ segs, SegsWF t segs → c ∉ render segs := by
  intro segs
  induction segs with
  | nil => intro _; exact List.not_mem_nil c
  | cons sg rest ih =>
    intro hwf hc
    cases sg with
    | raw r =>
      rw [render] at hc
      rcases List.mem_append.mp hc with h | h
      · exact hct (hwf.2.2.1.subset h)
      · exact ih hwf.2.2.2.2 h
    | tok ty m =>
      rw [render] at hc
      rcases List.mem_append.mp hc with h | h
      · exact replacement_avoid ty hwf.1 m c hcl hcr2 hcw hcu hch h
      · exact ih hwf.2.2.2 h

theorem processLine_plain (pairs : List (List Char × List Char)) (L : List Char)
    (hcolon : ':' ∉ L) :
    processLine pairs L [] = (simReplace pairs L ++ ['\n'], []) := by
  cases L with
  | nil =>
    rw [processLine, if_pos (by simp)]
    rfl
  | cons c L' =>
    have hcne : ¬ c = ':' := by
      intro he
      apply hcolon
      rw [← he]
      exact List.mem_cons_self c L'
    rw [processLine, if_neg (by simp [hcne]), if_pos ?h2]
    case h2 =>
      have hndp : ¬ "data: ".data <+: (c :: L') := by
        intro hp
        obtain ⟨s, hs⟩ := hp
        apply hcolon
        rw [← hs, List.mem_append]
        left
        decide
      rw [show ("data: ".data.isPrefixOf (c :: L')) = false from by
        rw [← Bool.not_eq_true, List.isPrefixOf_iff_prefix]; exact hndp]
      rfl

theorem getLast_opt_mem : ∀ (l : List Char) (c : Char), l.getLast? = some c → c ∈ l := by
  intro l
  induction l with
  | nil => intro c h; cases h
  | cons a rest ih =>
    intro c h
    cases rest with
    | nil =>
      rw [List.getLast?_singleton] at h
      cases h
      simp
    | cons b rest' =>
      rw [List.getLast?_cons_cons] at h
      exact List.mem_cons_of_mem _ (ih c h)

theorem streamLoop_nil (pairs : List (List Char × List Char)) (lineBuf accum : List Char) :
    streamLoop pairs [] lineBuf accum =
      (if lineBuf.isEmpty then [] else simReplace pairs lineBuf) ++
        synthFlush pairs accum := rfl

theorem synthFlush_nil (pairs : List (List Char × List Char)) :
    synthFlush pairs [] = [] := rfl

theorem streamLoop_cons_nl (pairs : List (List Char × List Char))
    (restIn lineBuf accum : List Char) (hlast : ¬ lineBuf.getLast? = some '\r') :
    streamLoop pairs ('\n' :: restIn) lineBuf accum =
      (processLine pairs lineBuf accum).1 ++
        streamLoop pairs restIn [] (processLine pairs lineBuf accum).2 := by
  rw [streamLoop, if_pos rfl, if_neg hlast]

theorem streamLoop_cons_other (pairs : List (List Char × List Char))
    (restIn lineBuf accum : List Char) (b : Char) (hb : ¬ b = '\n') :
    streamLoop pairs (b :: restIn) lineBuf accum =
      streamLoop pairs restIn (lineBuf ++ [b]) accum := by
  rw [streamLoop, if_neg hb]

theorem streamLoop_flat (pairs : List (List Char × List Char)) :
    ∀ (src lineBuf : List Char), ':' ∉ lineBuf → ':' ∉ src →
    '\r' ∉ lineBuf → '\r' ∉ src →
    streamLoop pairs src lineBuf [] = deanonLines pairs src lineBuf := by
  intro src
  induction src with
  | nil =>
    intro lineBuf _ _ _ _
    rw [streamLoop_nil, synthFlush_nil, List.append_nil, deanonLines]
  | cons b rest ih =>
    intro lineBuf h1 h2 h3 h4
    have hbc : ¬ b = ':' := by
      intro he
      apply h2
      rw [← he]
      exact List.mem_cons_self b rest
    have hbr : ¬ b = '\r' := by
      intro he
      apply h4
      rw [← he]
      exact List.mem_cons_self b rest
    have h2' : ':' ∉ rest := fun hm => h2 (List.mem_cons_of_mem _ hm)
    have h4' : '\r' ∉ rest := fun hm => h4 (List.mem_cons_of_mem _ hm)
    by_cases hb : b = '\n'
    · subst hb
      rw [streamLoop_cons_nl pairs rest lineBuf []
        (fun he => h3 (getLast_opt_mem lineBuf '\r' he))]
      rw [processLine_plain pairs lineBuf h1]
      rw [ih [] (List.not_mem_nil _) h2' (List.not_mem_nil _) h4']
      rw [deanonLines, if_pos rfl, List.append_assoc]
      rfl
    · rw [streamLoop_cons_other pairs rest lineBuf [] b hb]
      rw [deanonLines, if_neg hb]
      refine ih (lineBuf ++ [b]) ?_ h2' ?_ h4'
      · intro hm
        rcases List.mem_append.mp hm with hm | hm
        · exact h1 hm
        · rw [List.mem_singleton] at hm
          exact hbc hm.symm
      · intro hm
        rcases List.mem_append.mp hm with hm | hm
        · exact h3 hm
        · rw [List.mem_singleton] at hm
          exact hbr hm.symm

theorem SegsWFD_append (t : List Char) :
    ∀ (A B : List Seg), SegsWFD t A → SegsWFD t B → SegsWFD t (A ++ B) := by
  intro A
  induction A with
  | nil => intro B _ hB; rw [List.nil_append]; exact hB
  | cons sg rest ih =>
    intro B hA hB
    cases sg with
    | raw r => exact ⟨hA.1, hA.2.1, ih B hA.2.2 hB⟩
    | tok ty m => exact ⟨hA.1, hA.2.1, ih B hA.2.2 hB⟩

theorem deanonLines_shift (pairs : List (List Char × List Char)) :
    ∀ (w s b : List Char), (∀ c ∈ w, ¬ c = '\n') →
    deanonLines pairs (w ++ s) b = deanonLines pairs s (b ++ w) := by
  intro w
  induction w with
  | nil => intro s b _; rw [List.nil_append, List.append_nil]
  | cons c w' ih =>
    intro s b hw
    rw [List.cons_append, deanonLines, if_neg (hw c (List.mem_cons_self _ _))]
    rw [ih s (b ++ [c]) (fun x hx => hw x (List.mem_cons_of_mem _ hx))]
    rw [List.append_assoc]
    rfl

theorem deanonLines_render (t : List Char) (pairs : SessionInner) (hinj : HashInj t)
    (hok : InnerOK t pairs) :
    ∀ segs, SegsWFD t segs → InvMap segs pairs →
    ∀ bsegs, SegsWFD t bsegs → InvMap bsegs pairs →
    deanonLines pairs (render segs) (render bsegs) = restore bsegs ++ restore segs := by
  intro segs
  induction segs with
  | nil =>
    intro _ _ bsegs hbw hbi
    rw [show render ([] : List Seg) = [] from rfl,
      show restore ([] : List Seg) = [] from rfl, List.append_nil]
    cases bsegs with
    | nil => rfl
    | cons sg brest =>
      rw [deanonLines, if_neg ?hne]
      case hne =>
        intro h
        rw [List.isEmpty_iff] at h
        exact render_ne_nil t (sg :: brest) hbw (by simp) h
      exact simReplaceRender t pairs hinj hok _ hbw hbi
  | cons sg rest ih =>
    intro hwfd hinv bsegs hbw hbi
    have hinv' : InvMap rest pairs :=
      fun ty2 m2 hm2 => hinv ty2 m2 (List.mem_cons_of_mem _ hm2)
    cases sg with
    | tok ty0 m0 =>
      obtain ⟨hty0, hm0t, hwfd'⟩ := hwfd
      have hnl : ('\n' : Char) ∉ replacement ty0 m0 :=
        replacement_avoid ty0 hty0 m0 '\n' (by decide) (by decide) (by decide)
          (by decide) (by decide)
      rw [show render (Seg.tok ty0 m0 :: rest) =
        replacement ty0 m0 ++ render rest from rfl]
      rw [deanonLines_shift pairs (replacement ty0 m0) (render rest) (render bsegs)
        (fun c hc he => hnl (he ▸ hc))]
      have hwfB : SegsWFD t (bsegs ++ [Seg.tok ty0 m0]) :=
        SegsWFD_append t bsegs [Seg.tok ty0 m0] hbw ⟨hty0, hm0t, trivial⟩
      have hinvB : InvMap (bsegs ++ [Seg.tok ty0 m0]) pairs := by
        intro ty2 m2 hm2
        rcases List.mem_append.mp hm2 with hm2 | hm2
        · exact hbi ty2 m2 hm2
        · rw [List.mem_singleton] at hm2
          cases hm2
          exact hinv ty0 m0 (List.mem_cons_self _ _)
      rw [show render bsegs ++ replacement ty0 m0 =
        render (bsegs ++ [Seg.tok ty0 m0]) from by
        rw [render_append, show render [Seg.tok ty0 m0] = replacement ty0 m0 from by
          rw [render, render, List.append_nil]]]
      rw [ih hwfd' hinv' (bsegs ++ [Seg.tok ty0 m0]) hwfB hinvB]
      rw [restore_append, show restore [Seg.tok ty0 m0] = m0 from by
        rw [restore, restore, List.append_nil]]
      rw [show restore (Seg.tok ty0 m0 :: rest) = m0 ++ restore rest from rfl]
      rw [List.append_assoc]
    | raw r0 =>
      obtain ⟨hr0ne, hr0bf, hwfd'⟩ := hwfd
      rw [show render (Seg.raw r0 :: rest) = r0 ++ render rest from rfl,
        show restore (Seg.raw r0 :: rest) = r0 ++ restore rest from rfl]
      suffices h : ∀ (r1 : List Char), bracketFree r1 = true →
          ∀ bs, SegsWFD t bs → InvMap bs pairs →
          deanonLines pairs (r1 ++ render rest) (render bs) =
            restore bs ++ (r1 ++ restore rest) by
        exact h r0 hr0bf bsegs hbw hbi
      intro r1
      induction r1 with
      | nil =>
        intro _ bs hbw2 hbi2
        rw [List.nil_append, List.nil_append]
        exact ih hwfd' hinv' bs hbw2 hbi2
      | cons c0 r1' ih2 =>
        intro hbf bs hbw2 hbi2
        have hbf' : bracketFree r1' = true := by
          rw [bracketFree, List.all_cons, Bool.and_eq_true] at hbf
          exact hbf.2
        have hc0lb : ¬ c0 = '[' := by
          rw [bracketFree, List.all_cons, Bool.and_eq_true] at hbf
          have h5 := hbf.1
          rw [Bool.and_eq_true] at h5
          intro he
          rw [he] at h5
          simpa using h5.1
        have hc0rb : ¬ c0 = ']' := by
          rw [bracketFree, List.all_cons, Bool.and_eq_true] at hbf
          have h5 := hbf.1
          rw [Bool.and_eq_true] at h5
          intro he
          rw [he] at h5
          simpa using h5.2
        by_cases hc0 : c0 = '\n'
        · subst hc0
          rw [List.cons_append, deanonLines, if_pos rfl]
          rw [simReplaceRender t pairs hinj hok bs hbw2 hbi2]
          have h3 := ih2 hbf' [] trivial
            (fun ty2 m2 hm2 => absurd hm2 (List.not_mem_nil _))
          rw [show render ([] : List Seg) = [] from rfl,
            show restore ([] : List Seg) = [] from rfl, List.nil_append] at h3
          rw [h3]
          rfl
        · rw [List.cons_append, deanonLines, if_neg hc0]
          have hwfB : SegsWFD t (bs ++ [Seg.raw [c0]]) :=
            SegsWFD_append t bs [Seg.raw [c0]] hbw2
              ⟨by simp, by simp [bracketFree, hc0lb, hc0rb], trivial⟩
          have hinvB : InvMap (bs ++ [Seg.raw [c0]]) pairs := by
            intro ty2 m2 hm2
            rcases List.mem_append.mp hm2 with hm2 | hm2
            · exact hbi2 ty2 m2 hm2
            · rw [List.mem_singleton] at hm2
              cases hm2
          rw [show render bs ++ [c0] = render (bs ++ [Seg.raw [c0]]) from by
            rw [render_append, show render [Seg.raw [c0]] = [c0] from by
              rw [render, render, List.append_nil]]]
          rw [ih2 hbf' (bs ++ [Seg.raw [c0]]) hwfB hinvB]
          rw [restore_append, show restore [Seg.raw [c0]] = [c0] from by
            rw [restore, restore, List.append_nil]]
          rw [List.append_assoc]
          rfl

/-- C4 (amended): for every text and non-empty session id, provided the
text is bracket-free, colon-free and carriage-return-free and the digest
is injective on its infixes, feeding the anonymized text through the
streaming de-anonymizer (modelled byte-per-byte, the chunk-independent
reading of the source loop) yields exactly the original text. -/
theorem c4_streaming_roundtrip_amended (cfg : AnonCfg) (t sid : List Char)
    (hsid : sid ≠ []) (hbt : bracketFree t = true) (hinj : HashInj t)
    (hcolon : ':' ∉ t) (hcret : '\r' ∉ t) :
    streamingDeanonymize (anonymizeText cfg [] [] t sid).2 sid
      (anonymizeText cfg [] [] t sid).1 = t := by
  by_cases ht : t = []
  · subst ht
    rw [show anonymizeText cfg [] [] [] sid = ([], []) from rfl]
    rfl
  · have htE : t.isEmpty = false := by
      cases t with
      | nil => exact absurd rfl ht
      | cons c r => rfl
    rw [anonymizeText, if_neg (by simp [htE])]
    have hrend : t = render [Seg.raw t] := by
      rw [render, render, List.append_nil]
    obtain ⟨segs', ss', heq, hwf', hres', hinv', hok'⟩ :=
      anonFold_inv cfg t sid hsid hinj compiledPatterns (fun p hp => hp) [Seg.raw t] []
        ⟨ht, hbt, List.infix_refl t, trivial, trivial⟩
        (fun ty m hm => by
          rcases List.mem_singleton.mp hm with h
          cases h)
        (fun pr hpr => by cases hpr)
    rw [show ((t : List Char), ([] : Sessions)) = (render [Seg.raw t], ([] : Sessions))
      from by rw [← hrend]]
    rw [heq]
    have hresT : restore segs' = t := by
      rw [hres', restore, restore, List.append_nil]
    show (if (sessionsLookup ss' sid).isEmpty = true then render segs'
          else streamLoop (sessionsLookup ss' sid) (render segs') [] []) = t
    by_cases hpe : sessionsLookup ss' sid = []
    · rw [hpe, if_pos (show (List.isEmpty ([] : SessionInner)) = true from rfl)]
      have hnotok : ∀ ty m, Seg.tok ty m ∈ segs' → False := by
        intro ty m hm
        have h5 := hinv' ty m hm
        rw [hpe] at h5
        rw [show innerLookup [] (replacement ty m) = none from rfl] at h5
        cases h5
      rw [render_restore_notok segs' hnotok]
      exact hresT
    · rw [if_neg (by simpa [List.isEmpty_iff] using hpe)]
      have hwfd' := wf_to_wfd t segs' hwf'
      have hnc : ':' ∉ render segs' :=
        render_no_char t ':' hcolon (by decide) (by decide) (by decide) (by decide)
          (by decide) segs' hwf'
      have hnr : '\r' ∉ render segs' :=
        render_no_char t '\r' hcret (by decide) (by decide) (by decide) (by decide)
          (by decide) segs' hwf'
      rw [streamLoop_flat (sessionsLookup ss' sid) (render segs') []
        (List.not_mem_nil _) hnc (List.not_mem_nil _) hnr]
      have h6 := deanonLines_render t (sessionsLookup ss' sid) hinj hok' segs' hwfd'
        hinv' [] trivial (fun ty2 m2 hm2 => absurd hm2 (List.not_mem_nil _))
      rw [show render ([] : List Seg) = [] from rfl,
        show restore ([] : List Seg) = [] from rfl, List.nil_append] at h6
      rw [h6]
      exact hresT

theorem c4_streaming_roundtrip_amended_witness :
    ("s".data ≠ [] ∧ bracketFree "ab".data = true ∧ ':' ∉ "ab".data ∧
      '\r' ∉ "ab".data) ∧
    streamingDeanonymize (anonymizeText defaultAnonCfg [] [] "ab".data "s".data).2
      "s".data (anonymizeText defaultAnonCfg [] [] "ab".data "s".data).1 = "ab".data :=
  ⟨⟨by decide, by decide, by decide, by decide⟩,
    c4_streaming_roundtrip_amended defaultAnonCfg "ab".data "s".data (by decide)
      (by decide) (hashInjOnB_sound "ab".data (by decide)) (by decide) (by decide)⟩

end AnonProxy
